import Mathlib

/-!
Magic mount: overlay collector and mount executor.

A shallow embedding of `src/magic_mount.c`.

* The file system is a read-only snapshot given by the oracles of `World`
  (`lstat`, `stat`, `opendir`/`readdir`, the probes of `utils.h`).
* Paths are C strings, modelled as `String`; `path_join` is a field of `World`.
* Global state (`g_stats`, `g_failed_modules`) is passed explicitly.
* Every side effect of the executor is appended to a trace of events; an event
  records the system call, whether it succeeded, and (as ghost data) the chain
  of node names from the first call down to the node on whose behalf it ran.
* Recursion over directories is bounded by a fuel argument; running out of fuel
  is reported as `Rc.fuel`, distinct from the C return codes.
* Memory allocation (`calloc`, `realloc`, `strdup`) is assumed to succeed.
* The counters are C `int`s; they are modelled as `Nat` (no run counts 2^31
  nodes).
-/

namespace MagicMount

/-! ## Data model -/

/-- File classes told apart by the `S_IS*` tests on `st_mode`; `other` stands
for block devices, fifos and sockets. -/
inductive FileMode where
  | chr
  | reg
  | dir
  | lnk
  | other
deriving DecidableEq, Repr

/-- The fields of `struct stat` the program reads. -/
structure Stat where
  mode : FileMode
  rdev : Nat
deriving DecidableEq, Repr

/-- The `NodeFileType` enum. -/
inductive NodeFileType where
  | NFT_REGULAR
  | NFT_DIRECTORY
  | NFT_SYMLINK
  | NFT_WHITEOUT
deriving DecidableEq, Repr

open NodeFileType

/-- The `Node` struct; `children`/`child_count` become a list, `NULL` strings
become `none`. -/
structure Node where
  name : String
  type : NodeFileType
  children : List Node
  module_path : Option String
  module_name : Option String
  replace : Bool
  skip : Bool
  done : Bool

/-- The `MountStats` struct (`g_stats`). -/
structure MountStats where
  modules_total : Nat
  nodes_total : Nat
  nodes_mounted : Nat
  nodes_skipped : Nat
  nodes_whiteout : Nat
  nodes_fail : Nat
deriving DecidableEq, Repr

/-- Side effects of the executor. `call` and `mirror_call` are ghost events
marking the entry into `do_magic` and `mirror`; the others are system calls
(or the helper that wraps them). `creat` is `open(O_CREAT|O_WRONLY)` followed
by `close`; `set_meta` is the `chmod`/`chown`/SELinux copy onto a work
directory; `notify` is a call of `send_unmountable`. -/
inductive Op where
  | call (type : NodeFileType) (has_tmpfs : Bool)
  | mirror_call
  | mkdir_p (path : String)
  | creat (path : String)
  | mkdir (path : String)
  | clone_symlink (src dst : String)
  | set_meta (wpath meta_path : String)
  | bind (src target : String)
  | remount_ro (target : String)
  | move (src target : String)
  | make_private (target : String)
  | notify (mntpoint : String)
  | grab_fd
  | mount_tmpfs (source target : String)
  | umount (target : String)
  | rmdir (path : String)
deriving DecidableEq, Repr

/-- One trace entry: the ghost chain of names `who`, the operation, and whether
it succeeded. -/
structure Ev where
  who : List String
  op : Op
  ok : Bool
deriving DecidableEq, Repr

/-- The environment of a run: the helpers of `utils.h` (absent from the
sources) and the file-system snapshot.

* `readdir p` is `none` when `opendir(p)` fails, else every `d_name` that
  `readdir` yields, in order.
* `xattr_opaque p` is the value `lgetxattr(p, "trusted.overlay.opaque")` puts
  in the 7-byte buffer when it returns a positive length.
* `has_entry p n` says that `open(p, O_RDONLY|O_DIRECTORY)` succeeds and
  `faccessat(dirfd, n, F_OK, 0) == 0`.
* `sys_ok tr op` says whether the effect `op` succeeds after the history `tr`. -/
structure World where
  path_join : String → String → Option String
  path_exists : String → Bool
  path_is_dir : String → Bool
  path_is_symlink : String → Bool
  lstat : String → Option Stat
  stat : String → Option Stat
  readdir : String → Option (List String)
  xattr_opaque : String → Option String
  has_entry : String → String → Bool
  sys_ok : List Ev → Op → Bool

/-- Return codes: `ok` is 0, `err` is -1; `fuel` means the recursion budget of
the model ran out (no C counterpart). -/
inductive Rc where
  | ok
  | err
  | fuel
deriving DecidableEq, Repr

/-! ## Node model -/

/-- The C function `node_new`. -/
def node_new (name : String) (t : NodeFileType) : Node :=
  { name := name, type := t, children := [], module_path := none,
    module_name := none, replace := false, skip := false, done := false }

/-- The C function `node_type_from_stat`. -/
def node_type_from_stat (s : Stat) : NodeFileType :=
  if s.mode = FileMode.chr ∧ s.rdev = 0 then NFT_WHITEOUT
  else if s.mode = FileMode.reg then NFT_REGULAR
  else if s.mode = FileMode.dir then NFT_DIRECTORY
  else if s.mode = FileMode.lnk then NFT_SYMLINK
  else NFT_WHITEOUT

/-- The C function `dir_is_replace`. -/
def dir_is_replace (w : World) (path : String) : Bool :=
  if w.xattr_opaque path = some "y" then true
  else w.has_entry path ".replace"

/-- The C function `node_new_module`; `none` is `NULL`. -/
def node_new_module (w : World) (name path : String) (module_name : Option String)
    (st : MountStats) : Option Node × MountStats :=
  match w.lstat path with
  | none => (none, st)
  | some s =>
    if ¬ (s.mode = FileMode.chr ∨ s.mode = FileMode.reg ∨
          s.mode = FileMode.dir ∨ s.mode = FileMode.lnk) then (none, st)
    else
      let t := node_type_from_stat s
      (some { name := name, type := t, children := [], module_path := some path,
              module_name := module_name,
              replace := decide (t = NFT_DIRECTORY) && dir_is_replace w path,
              skip := false, done := false },
       { st with nodes_total := st.nodes_total + 1 })

/-- The C function `node_add_child`. -/
def node_add_child (parent child : Node) : Node :=
  { parent with children := parent.children ++ [child] }

/-- The C function `node_find_child`: the first child with that name. -/
def node_find_child (parent : Node) (name : String) : Option Node :=
  parent.children.find? (fun c => decide (c.name = name))

/-- The C function `node_take_child`: detaches the first child with that name;
returns it with the parent that remains. -/
def node_take_child (parent : Node) (name : String) : Option Node × Node :=
  match parent.children.find? (fun c => decide (c.name = name)) with
  | none => (none, parent)
  | some n =>
    (some n, { parent with
      children := parent.children.eraseP (fun c => decide (c.name = name)) })

/-- Writes `c` back in the slot of the first child named `name`: the effect of
mutating, through the pointer, the child that `node_find_child` returned. -/
def set_child_list (name : String) (c : Node) : List Node → List Node
  | [] => []
  | x :: xs => if x.name = name then c :: xs else x :: set_child_list name c xs

/-- The `set_child_list` of a node's children. -/
def set_child (parent : Node) (name : String) (c : Node) : Node :=
  { parent with children := set_child_list name c parent.children }

/-- The C function `module_disabled`. The result of `path_join` is not checked
there; a failed join is modelled as a path that does not exist. -/
def module_disabled (w : World) (mod_dir : String) : Bool :=
  let probe := fun (n : String) =>
    match w.path_join mod_dir n with
    | some p => w.path_exists p
    | none => false
  if probe "disable" then true
  else if probe "remove" then true
  else if probe "skip_mount" then true
  else false

/-! ## Collector -/

/-- Lines 284-295 of `node_collect`: the child named `d` of `self`, found or
else created from the module entry at `path` and appended. Returns the child
(`none` for `NULL`), `self` as it then is, and `g_stats`. -/
def obtain_child (w : World) (self : Node) (d path : String) (module_name : Option String)
    (st : MountStats) : Option Node × Node × MountStats :=
  match node_find_child self d with
  | some child => (some child, self, st)
  | none =>
    match node_new_module w d path module_name st with
    | (some n, st0) => (some n, node_add_child self n, st0)
    | (none, st0) => (none, self, st0)

/-- The `readdir` loop of `node_collect`, over the names still to come; `rec`
is the recursive call on a child directory. The triple after the return code
is `self` as mutated so far, the running `any`, and `g_stats`. -/
def collect_entries (w : World)
    (rec : Node → String → MountStats → Rc × Node × Bool × MountStats)
    (dir : String) (module_name : Option String) :
    List String → Node → Bool → MountStats → Rc × Node × Bool × MountStats
  | [], self, any, st => (Rc.ok, self, any, st)
  | d :: ds, self, any, st =>
    if d = "." ∨ d = ".." then
      collect_entries w rec dir module_name ds self any st
    else
      match w.path_join dir d with
      | none => (Rc.err, self, any, st)
      | some path =>
        match obtain_child w self d path module_name st with
        | (none, self0, st0) => collect_entries w rec dir module_name ds self0 any st0
        | (some child, self0, st0) =>
          if child.type = NFT_DIRECTORY then
            match rec child path st0 with
            | (Rc.ok, child1, sub, st1) =>
              collect_entries w rec dir module_name ds (set_child self0 d child1)
                (any || (sub || child1.replace)) st1
            | (rc, child1, _, st1) => (rc, set_child self0 d child1, any, st1)
          else
            collect_entries w rec dir module_name ds self0 true st0

/-- The C function `node_collect`. The `Bool` is `*has_any`, meaningful when
the return code is `ok`. -/
def node_collect (w : World) : Nat → Node → String → Option String → MountStats →
    Rc × Node × Bool × MountStats
  | 0, self, _, _, st => (Rc.fuel, self, false, st)
  | fuel + 1, self, dir, module_name, st =>
    match w.readdir dir with
    | none => (Rc.err, self, false, st)
    | some ents =>
      collect_entries w (fun c p s => node_collect w fuel c p module_name s)
        dir module_name ents self false st

/-- The module loop of `collect_root` (lines 342-382), over the names still to
come in the module directory. -/
def collect_modules (w : World) (fuel : Nat) (mdir : String) :
    List String → Node → Bool → MountStats → Rc × Node × Bool × MountStats
  | [], system, has_any, st => (Rc.ok, system, has_any, st)
  | d :: ds, system, has_any, st =>
    if d = "." ∨ d = ".." then collect_modules w fuel mdir ds system has_any st
    else
      match w.path_join mdir d with
      | none => (Rc.err, system, has_any, st)
      | some mod =>
        if ¬ (∃ s, w.stat mod = some s ∧ s.mode = FileMode.dir) then
          collect_modules w fuel mdir ds system has_any st
        else if module_disabled w mod then
          collect_modules w fuel mdir ds system has_any st
        else
          match w.path_join mod "system" with
          | none => (Rc.err, system, has_any, st)
          | some mod_sys =>
            if ¬ w.path_is_dir mod_sys then
              collect_modules w fuel mdir ds system has_any st
            else
              let st0 := { st with modules_total := st.modules_total + 1 }
              match node_collect w fuel system mod_sys (some d) st0 with
              | (Rc.ok, system1, sub, st1) =>
                collect_modules w fuel mdir ds system1 (has_any || sub) st1
              | (rc, system1, _, st1) => (rc, system1, has_any, st1)

/-- The table `builtin_parts` of `collect_root`: name and `need_symlink`. -/
def builtin_parts : List (String × Bool) :=
  [("vendor", true), ("system_ext", true), ("product", true), ("odm", false)]

/-- The first promotion loop of `collect_root` (lines 407-429); the result is
`(root, system)`, or `none` when a path join fails. -/
def promote_builtin (w : World) : List (String × Bool) → Node → Node → Option (Node × Node)
  | [], root, system => some (root, system)
  | (name, need_symlink) :: ps, root, system =>
    match w.path_join "/" name, w.path_join "/system" name with
    | some rp, some sp =>
      if ¬ w.path_is_dir rp then promote_builtin w ps root system
      else if need_symlink ∧ ¬ w.path_is_symlink sp then promote_builtin w ps root system
      else
        match node_take_child system name with
        | (some child, system1) => promote_builtin w ps (node_add_child root child) system1
        | (none, system1) => promote_builtin w ps root system1
    | _, _ => none

/-- The second promotion loop of `collect_root` (lines 431-450), over
`g_extra_parts`. -/
def promote_extra (w : World) : List String → Node → Node → Option (Node × Node)
  | [], root, system => some (root, system)
  | name :: ps, root, system =>
    match w.path_join "/" name with
    | none => none
    | some rp =>
      if ¬ w.path_is_dir rp then promote_extra w ps root system
      else
        match node_take_child system name with
        | (some child, system1) => promote_extra w ps (node_add_child root child) system1
        | (none, system1) => promote_extra w ps root system1

/-- What `collect_root` hands back: a tree, `NULL`, or (model only) out of
fuel. -/
inductive Collected where
  | tree (root : Node)
  | null
  | fuel

/-- The root of a collected tree, if there is one. -/
def Collected.root? : Collected → Option Node
  | Collected.tree r => some r
  | _ => none

/-- Whether the collector handed back `NULL`. -/
def Collected.is_null : Collected → Bool
  | Collected.null => true
  | _ => false

/-- The body of `collect_root` once `opendir(mdir)` has succeeded, for the
names `ents` that `readdir` yields. -/
def collect_listing (w : World) (fuel : Nat) (mdir : String) (extra_parts : List String)
    (ents : List String) (st : MountStats) : Collected × MountStats :=
  let root := node_new "" NFT_DIRECTORY
  let system := node_new "system" NFT_DIRECTORY
  match collect_modules w fuel mdir ents system false st with
  | (Rc.ok, system1, has_any, st1) =>
    if ¬ has_any then (Collected.null, st1)
    else
      let st2 := { st1 with nodes_total := st1.nodes_total + 2 }
      match promote_builtin w builtin_parts root system1 with
      | none => (Collected.null, st2)
      | some (root1, system2) =>
        match promote_extra w extra_parts root1 system2 with
        | none => (Collected.null, st2)
        | some (root2, system3) => (Collected.tree (node_add_child root2 system3), st2)
  | (Rc.fuel, _, _, st1) => (Collected.fuel, st1)
  | (Rc.err, _, _, st1) => (Collected.null, st1)

/-- The C function `collect_root`; `mdir` is `g_module_dir` and `extra_parts`
is `g_extra_parts`. -/
def collect_root (w : World) (fuel : Nat) (mdir : String) (extra_parts : List String)
    (st : MountStats) : Collected × MountStats :=
  match w.readdir mdir with
  | none => (Collected.null, st)
  | some ents => collect_listing w fuel mdir extra_parts ents st

/-! ## Mount executor -/

/-- The executor's share of the global state: `g_stats`, `g_failed_modules`
and the trace of effects so far. -/
structure MState where
  stats : MountStats
  failed : List String
  trace : List Ev

/-- The C function `register_module_failure`. -/
def register_module_failure (failed : List String) (module_name : Option String) :
    List String :=
  match module_name with
  | none => failed
  | some m => if m ∈ failed then failed else failed ++ [m]

/-- Appends one event to the trace. -/
def emit (st : MState) (who : List String) (op : Op) (ok : Bool) : MState :=
  { st with trace := st.trace ++ [{ who := who, op := op, ok := ok }] }

/-- Performs an effect that can fail: asks the world, records the outcome. -/
def sys (w : World) (st : MState) (who : List String) (op : Op) : Bool × MState :=
  let ok := w.sys_ok st.trace op
  (ok, emit st who op ok)

/-- Whether `needle` occurs in the character list. -/
def infix_chars (needle : List Char) : List Char → Bool
  | [] => needle.isEmpty
  | c :: cs => needle.isPrefixOf (c :: cs) || infix_chars needle cs

/-- The test `strstr(hay, needle) != NULL`. -/
def strstr (hay needle : String) : Bool :=
  infix_chars needle.data hay.data

/-- The C function `clone_symlink` as one effect. -/
def clone_symlink (w : World) (st : MState) (who : List String) (src dst : String) :
    Bool × MState :=
  sys w st who (Op.clone_symlink src dst)

/-- The `readdir` loop of `mirror` over a directory, `mir` being the recursive
call on one entry. -/
def mirror_entries (mir : String → MState → Rc × MState) :
    List String → MState → Rc × MState
  | [], st => (Rc.ok, st)
  | d :: ds, st =>
    if d = "." ∨ d = ".." then mirror_entries mir ds st
    else
      match mir d st with
      | (Rc.ok, st1) => mirror_entries mir ds st1
      | (rc, st1) => (rc, st1)

/-- The C function `mirror`. -/
def mirror (w : World) : Nat → List String → String → String → String → MState →
    Rc × MState
  | 0, _, _, _, _, st => (Rc.fuel, st)
  | fuel + 1, who, path, work, name, st =>
    match w.path_join path name, w.path_join work name with
    | some src, some dst =>
      let me := who ++ [name]
      let st0 := emit st me Op.mirror_call true
      match w.lstat src with
      | none => (Rc.ok, st0)
      | some s =>
        if s.mode = FileMode.reg then
          match sys w st0 me (Op.creat dst) with
          | (false, st1) => (Rc.err, st1)
          | (true, st1) =>
            match sys w st1 me (Op.bind src dst) with
            | (false, st2) => (Rc.err, st2)
            | (true, st2) => (Rc.ok, st2)
        else if s.mode = FileMode.dir then
          match sys w st0 me (Op.mkdir dst) with
          | (false, st1) => (Rc.err, st1)
          | (true, st1) =>
            let st2 := emit st1 me (Op.set_meta dst src) true
            match w.readdir src with
            | none => (Rc.err, st2)
            | some ents =>
              mirror_entries (fun n s => mirror w fuel me src dst n s) ents st2
        else if s.mode = FileMode.lnk then
          match clone_symlink w st0 me src dst with
          | (false, st1) => (Rc.err, st1)
          | (true, st1) => (Rc.ok, st1)
        else (Rc.ok, st0)
    | _, _ => (Rc.err, st)

/-- Adds one to `nodes_mounted`. -/
def bump_mounted (st : MState) : MState :=
  { st with stats := { st.stats with nodes_mounted := st.stats.nodes_mounted + 1 } }

/-- Adds one to `nodes_whiteout`. -/
def bump_whiteout (st : MState) : MState :=
  { st with stats := { st.stats with nodes_whiteout := st.stats.nodes_whiteout + 1 } }

/-- The `NFT_REGULAR` case of `do_magic`. -/
def magic_regular (w : World) (me : List String) (path wbase wpath : String)
    (node : Node) (has_tmpfs : Bool) (st : MState) : Rc × MState :=
  let target := if has_tmpfs then wpath else path
  let bind_part := fun (st : MState) =>
    match node.module_path with
    | none => (Rc.err, st)
    | some mp =>
      match sys w st me (Op.bind mp target) with
      | (false, st1) => (Rc.err, st1)
      | (true, st1) =>
        let st2 := if ¬ strstr target ".magic_mount/workdir/" then
                     emit st1 me (Op.notify target) true else st1
        let st3 := emit st2 me (Op.remount_ro target) true
        (Rc.ok, bump_mounted st3)
  if has_tmpfs then
    match sys w st me (Op.mkdir_p wbase) with
    | (false, st1) => (Rc.err, st1)
    | (true, st1) =>
      match sys w st1 me (Op.creat wpath) with
      | (false, st2) => (Rc.err, st2)
      | (true, st2) => bind_part st2
  else bind_part st

/-- The `NFT_SYMLINK` case of `do_magic`. -/
def magic_symlink (w : World) (me : List String) (wpath : String) (node : Node)
    (st : MState) : Rc × MState :=
  match node.module_path with
  | none => (Rc.err, st)
  | some mp =>
    match clone_symlink w st me mp wpath with
    | (false, st1) => (Rc.err, st1)
    | (true, st1) => (Rc.ok, bump_mounted st1)

/-- The test `need` of the scan loop of `do_magic` (lines 569-584) for child
`c` whose live path is `rp`. -/
def child_needs_tmpfs (w : World) (c : Node) (rp : String) : Bool :=
  if c.type = NFT_SYMLINK then true
  else if c.type = NFT_WHITEOUT then w.path_exists rp
  else
    match w.lstat rp with
    | some s =>
      let rt := node_type_from_stat s
      decide (rt ≠ c.type ∨ rt = NFT_SYMLINK)
    | none => true

/-- The scan loop of `do_magic` (lines 562-597) over the children still to
come. Returns the return code (`err` for a failed path join), whether
`create_tmp` was set, the children with their `skip` flags, and `g_stats`. -/
def scan_children (w : World) (path : String) (has_module_path : Bool) :
    List Node → MountStats → Rc × Bool × List Node × MountStats
  | [], st => (Rc.ok, false, [], st)
  | c :: cs, st =>
    match w.path_join path c.name with
    | none => (Rc.err, false, c :: cs, st)
    | some rp =>
      if child_needs_tmpfs w c rp then
        if ¬ has_module_path then
          match scan_children w path has_module_path cs
              { st with nodes_skipped := st.nodes_skipped + 1 } with
          | (rc, ct, cs1, st1) => (rc, ct, { c with skip := true } :: cs1, st1)
        else (Rc.ok, true, c :: cs, st)
      else
        match scan_children w path has_module_path cs st with
        | (rc, ct, cs1, st1) => (rc, ct, c :: cs1, st1)

/-- The failure accounting after a failed recursive call (lines 665-685 and
703-717): the child's module name if it has one, else the directory's, is
registered, and `nodes_fail` grows by one. -/
def fail_child (st : MState) (child_mn parent_mn : Option String) : MState :=
  let mn := match child_mn with
    | some m => some m
    | none => parent_mn
  { st with failed := register_module_failure st.failed mn,
            stats := { st.stats with nodes_fail := st.stats.nodes_fail + 1 } }

/-- The live-side enumeration of `do_magic` (lines 645-692) over the names
still to come; `rec` is `do_magic` on a child, `mir` is `mirror` on a name. -/
def live_entries (rec : Node → MState → Rc × Node × MState)
    (mir : String → MState → Rc × MState) (now_tmp : Bool) :
    List String → Node → MState → Rc × Node × MState
  | [], node, st => (Rc.ok, node, st)
  | d :: ds, node, st =>
    if d = "." ∨ d = ".." then live_entries rec mir now_tmp ds node st
    else
      match node_find_child node d with
      | some c =>
        if c.skip then
          live_entries rec mir now_tmp ds (set_child node d { c with done := true }) st
        else
          match rec { c with done := true } st with
          | (Rc.ok, c1, st1) =>
            live_entries rec mir now_tmp ds (set_child node d c1) st1
          | (Rc.fuel, c1, st1) => (Rc.fuel, set_child node d c1, st1)
          | (Rc.err, c1, st1) =>
            let node1 := set_child node d c1
            let st2 := fail_child st1 c1.module_name node.module_name
            if now_tmp then (Rc.err, node1, st2)
            else live_entries rec mir now_tmp ds node1 st2
      | none =>
        if now_tmp then
          match mir d st with
          | (Rc.ok, st1) => live_entries rec mir now_tmp ds node st1
          | (Rc.fuel, st1) => (Rc.fuel, node, st1)
          | (Rc.err, st1) => (Rc.err, node, fail_child st1 none node.module_name)
        else live_entries rec mir now_tmp ds node st

/-- The loop over the remaining children of `do_magic` (lines 697-721), over
the children still to come; the list returned is those children as mutated. -/
def rest_children (rec : Node → MState → Rc × Node × MState) (now_tmp : Bool)
    (parent_mn : Option String) : List Node → MState → Rc × List Node × MState
  | [], st => (Rc.ok, [], st)
  | c :: cs, st =>
    if c.skip ∨ c.done then
      match rest_children rec now_tmp parent_mn cs st with
      | (rc, cs1, st1) => (rc, c :: cs1, st1)
    else
      match rec c st with
      | (Rc.ok, c1, st1) =>
        match rest_children rec now_tmp parent_mn cs st1 with
        | (rc, cs1, st2) => (rc, c1 :: cs1, st2)
      | (Rc.fuel, c1, st1) => (Rc.fuel, c1 :: cs, st1)
      | (Rc.err, c1, st1) =>
        let st2 := fail_child st1 c1.module_name parent_mn
        if now_tmp then (Rc.err, c1 :: cs, st2)
        else
          match rest_children rec now_tmp parent_mn cs st2 with
          | (rc, cs1, st3) => (rc, c1 :: cs1, st3)

/-- The block of `do_magic` run when `now_tmp` holds (lines 602-628): make the
work directory and copy the metadata of the live directory, else of the
module directory. -/
def prepare_tmp (w : World) (me : List String) (path wpath : String) (node : Node)
    (st : MState) : Rc × MState :=
  match sys w st me (Op.mkdir_p wpath) with
  | (false, st1) => (Rc.err, st1)
  | (true, st1) =>
    if (w.stat path).isSome then
      (Rc.ok, emit st1 me (Op.set_meta wpath path) true)
    else
      match node.module_path with
      | none => (Rc.err, st1)
      | some mp =>
        if (w.stat mp).isSome then (Rc.ok, emit st1 me (Op.set_meta wpath mp) true)
        else (Rc.err, st1)

/-- The end of the directory case of `do_magic` (lines 723-744). -/
def finish_directory (w : World) (me : List String) (path wpath : String)
    (node : Node) (create_tmp : Bool) (st : MState) : Rc × Node × MState :=
  if create_tmp then
    let st1 := emit st me (Op.remount_ro wpath) true
    match sys w st1 me (Op.move wpath path) with
    | (false, st2) =>
      (Rc.err, node,
        { st2 with failed := register_module_failure st2.failed node.module_name })
    | (true, st2) =>
      let st3 := emit st2 me (Op.make_private path) true
      let st4 := emit st3 me (Op.notify path) true
      (Rc.ok, node, bump_mounted st4)
  else (Rc.ok, node, bump_mounted st)

/-- The pass over the remaining children of the directory case of `do_magic`
(lines 697-721) followed by its end (lines 723-744). -/
def second_pass (w : World) (rec : Node → Bool → MState → Rc × Node × MState)
    (me : List String) (path wpath : String) (node : Node) (create_tmp now_tmp : Bool)
    (st : MState) : Rc × Node × MState :=
  match rest_children (fun c s => rec c now_tmp s) now_tmp node.module_name
      node.children st with
  | (Rc.ok, cs, st1) =>
    finish_directory w me path wpath { node with children := cs } create_tmp st1
  | (rc, cs, st1) => (rc, { node with children := cs }, st1)

/-- The two child passes of the directory case of `do_magic` (lines 637-721)
followed by its end. -/
def directory_passes (w : World) (rec : Node → Bool → MState → Rc × Node × MState)
    (mir : String → MState → Rc × MState) (me : List String) (path wpath : String)
    (node : Node) (create_tmp now_tmp : Bool) (st : MState) : Rc × Node × MState :=
  if w.path_exists path ∧ ¬ node.replace then
    match w.readdir path with
    | none =>
      if now_tmp then (Rc.err, node, st)
      else second_pass w rec me path wpath node create_tmp now_tmp st
    | some ents =>
      match live_entries (fun c s => rec c now_tmp s) mir now_tmp ents node st with
      | (Rc.ok, node1, st1) => second_pass w rec me path wpath node1 create_tmp now_tmp st1
      | (rc, node1, st1) => (rc, node1, st1)
  else second_pass w rec me path wpath node create_tmp now_tmp st

/-- The tmpfs decision of the directory case of `do_magic` (lines 558-598):
the return code (`err` for a failed path join in the scan), `create_tmp`, the
children with their `skip` flags, and `g_stats`. -/
def decide_tmp (w : World) (path : String) (node : Node) (has_tmpfs : Bool)
    (stats : MountStats) : Rc × Bool × List Node × MountStats :=
  let create_tmp0 := ! has_tmpfs && node.replace && node.module_path.isSome
  if ! has_tmpfs && ! create_tmp0 then
    match scan_children w path node.module_path.isSome node.children stats with
    | (rc, found, cs, stats1) => (rc, create_tmp0 || found, cs, stats1)
  else (Rc.ok, create_tmp0, node.children, stats)

/-- The `NFT_DIRECTORY` case of `do_magic`; `rec` is `do_magic` on a child of
this directory and `mir` is `mirror` on a live entry of it. -/
def magic_directory (w : World) (rec : Node → Bool → MState → Rc × Node × MState)
    (mir : String → MState → Rc × MState) (me : List String) (path wpath : String)
    (node : Node) (has_tmpfs : Bool) (st : MState) : Rc × Node × MState :=
  match decide_tmp w path node has_tmpfs st.stats with
  | (Rc.ok, create_tmp, cs, stats1) =>
    let node1 := { node with children := cs }
    let st1 := { st with stats := stats1 }
    let now_tmp := has_tmpfs || create_tmp
    let prepared := if now_tmp then prepare_tmp w me path wpath node1 st1 else (Rc.ok, st1)
    match prepared with
    | (Rc.ok, st2) =>
      let bound := if create_tmp then sys w st2 me (Op.bind wpath wpath) else (true, st2)
      match bound with
      | (false, st3) => (Rc.err, node1, st3)
      | (true, st3) => directory_passes w rec mir me path wpath node1 create_tmp now_tmp st3
    | (rc, st2) => (rc, node1, st2)
  | (rc, _, cs, stats1) => (rc, { node with children := cs }, { st with stats := stats1 })

/-- The C function `do_magic`. `who` is the ghost chain of names of the nodes
above this one; the node returned is `node` with the flags of its descendants
as the call leaves them. -/
def do_magic (w : World) : Nat → List String → String → String → Node → Bool → MState →
    Rc × Node × MState
  | 0, _, _, _, node, _, st => (Rc.fuel, node, st)
  | fuel + 1, who, base, wbase, node, has_tmpfs, st =>
    match w.path_join base node.name, w.path_join wbase node.name with
    | some path, some wpath =>
      let me := who ++ [node.name]
      let st0 := emit st me (Op.call node.type has_tmpfs) true
      match node.type with
      | NFT_REGULAR =>
        match magic_regular w me path wbase wpath node has_tmpfs st0 with
        | (rc, st1) => (rc, node, st1)
      | NFT_SYMLINK =>
        match magic_symlink w me wpath node st0 with
        | (rc, st1) => (rc, node, st1)
      | NFT_WHITEOUT => (Rc.ok, node, bump_whiteout st0)
      | NFT_DIRECTORY =>
        magic_directory w (fun c b s => do_magic w fuel me path wpath c b s)
          (fun n s => mirror w fuel me path wpath n s) me path wpath node has_tmpfs st0
    | _, _ => (Rc.err, node, st)

/-! ## Orchestrator -/

/-- The C function `magic_mount`; `mdir`, `extra_parts` and `mount_source` are
the globals `g_module_dir`, `g_extra_parts` and `g_mount_source`. The result
is the return code with the final state. -/
def magic_mount (w : World) (fuel : Nat) (mdir : String) (extra_parts : List String)
    (mount_source tmp_root : String) (st : MState) : Rc × MState :=
  match collect_root w fuel mdir extra_parts st.stats with
  | (Collected.fuel, stats1) => (Rc.fuel, { st with stats := stats1 })
  | (Collected.null, stats1) => (Rc.ok, { st with stats := stats1 })
  | (Collected.tree root, stats1) =>
    let st0 := { st with stats := stats1 }
    match w.path_join tmp_root "workdir" with
    | none => (Rc.err, st0)
    | some tmp_dir =>
      match sys w st0 [] (Op.mkdir_p tmp_dir) with
      | (false, st1) => (Rc.err, st1)
      | (true, st1) =>
        let st2 := emit st1 [] Op.grab_fd true
        match sys w st2 [] (Op.mount_tmpfs mount_source tmp_dir) with
        | (false, st3) => (Rc.err, st3)
        | (true, st3) =>
          let st4 := emit st3 [] (Op.make_private tmp_dir) true
          match do_magic w fuel [] "/" tmp_dir root false st4 with
          | (Rc.fuel, _, st5) => (Rc.fuel, st5)
          | (rc, _, st5) =>
            let st6 := if rc = Rc.ok then st5 else
              { st5 with stats := { st5.stats with nodes_fail := st5.stats.nodes_fail + 1 } }
            let st7 := (sys w st6 [] (Op.umount tmp_dir)).2
            let st8 := emit st7 [] (Op.rmdir tmp_dir) true
            (rc, st8)

/-! ## Concrete worlds -/

/-- Modelled from the spec: `path_join` of `utils.c`, which is not among the
sources ("Path utilities: join"; "join overflow" is a `PathError`). An empty
name leaves the base as it is, a base that ends in a slash gets no second one,
and the join fails when the result does not fit a `PATH_MAX` buffer. -/
def path_join_std (base name : String) : Option String :=
  let r := if name = "" then base
           else if base.data.getLast? = some '/' then base ++ name
           else base ++ "/" ++ name
  if r.utf8ByteSize < 4096 then some r else none

/-- A world read off two tables: `files` gives `lstat` for each path that
exists, `dirs` the `readdir` order of each directory (`.` and `..` come
first). Nothing is a symlink to follow, so `stat` is `lstat`; no directory
has the opaque xattr; every effect succeeds. -/
def table_world (files : List (String × Stat)) (dirs : List (String × List String)) :
    World :=
  { path_join := path_join_std
    path_exists := fun p => (files.lookup p).isSome
    path_is_dir := fun p => decide ((files.lookup p).map Stat.mode = some FileMode.dir)
    path_is_symlink := fun p => decide ((files.lookup p).map Stat.mode = some FileMode.lnk)
    lstat := fun p => files.lookup p
    stat := fun p => files.lookup p
    readdir := fun p => (dirs.lookup p).map (fun ns => "." :: ".." :: ns)
    xattr_opaque := fun _ => none
    has_entry := fun p n =>
      match dirs.lookup p with
      | some ns => decide (n ∈ ns)
      | none => false
    sys_ok := fun _ _ => true }

/-- A directory entry of a table. -/
def dir_stat : Stat := { mode := FileMode.dir, rdev := 0 }

/-- A regular-file entry of a table. -/
def reg_stat : Stat := { mode := FileMode.reg, rdev := 0 }

/-- The state before a run: counters at zero, nothing failed, empty trace. -/
def init_state : MState :=
  { stats := { modules_total := 0, nodes_total := 0, nodes_mounted := 0,
               nodes_skipped := 0, nodes_whiteout := 0, nodes_fail := 0 },
    failed := [], trace := [] }

/-- The replace-directory scenario: module `A` under `/m` ships
`system/app/MyApp` with the marker `.replace` and the file `x.apk`; the live
`/system/app/MyApp` holds `y.apk` and `z.apk`. -/
def replace_world : World :=
  table_world
    [("/", dir_stat), ("/m", dir_stat), ("/m/A", dir_stat), ("/m/A/system", dir_stat),
     ("/m/A/system/app", dir_stat), ("/m/A/system/app/MyApp", dir_stat),
     ("/m/A/system/app/MyApp/.replace", reg_stat),
     ("/m/A/system/app/MyApp/x.apk", reg_stat),
     ("/system", dir_stat), ("/system/app", dir_stat), ("/system/app/MyApp", dir_stat),
     ("/system/app/MyApp/y.apk", reg_stat), ("/system/app/MyApp/z.apk", reg_stat)]
    [("/", ["m", "system"]), ("/m", ["A"]), ("/m/A", ["system"]),
     ("/m/A/system", ["app"]), ("/m/A/system/app", ["MyApp"]),
     ("/m/A/system/app/MyApp", [".replace", "x.apk"]),
     ("/system", ["app"]), ("/system/app", ["MyApp"]),
     ("/system/app/MyApp", ["y.apk", "z.apk"])]

/-- The whiteout scenario: module `A` ships `system/etc/badfile`, a character
device with `rdev == 0`; the live `/system/etc` holds `badfile` and `hosts`. -/
def whiteout_world : World :=
  table_world
    [("/", dir_stat), ("/m", dir_stat), ("/m/A", dir_stat), ("/m/A/system", dir_stat),
     ("/m/A/system/etc", dir_stat),
     ("/m/A/system/etc/badfile", { mode := FileMode.chr, rdev := 0 }),
     ("/system", dir_stat), ("/system/etc", dir_stat),
     ("/system/etc/badfile", reg_stat), ("/system/etc/hosts", reg_stat)]
    [("/", ["m", "system"]), ("/m", ["A"]), ("/m/A", ["system"]),
     ("/m/A/system", ["etc"]), ("/m/A/system/etc", ["badfile"]),
     ("/system", ["etc"]), ("/system/etc", ["badfile", "hosts"])]

/-- The whiteout node that the collector builds in `whiteout_world`. -/
def badfile_node : Node :=
  { name := "badfile", type := NFT_WHITEOUT, children := [],
    module_path := some "/m/A/system/etc/badfile", module_name := some "A",
    replace := false, skip := false, done := false }

/-- The `etc` node that the collector builds in `whiteout_world`. -/
def etc_node : Node :=
  { name := "etc", type := NFT_DIRECTORY, children := [badfile_node],
    module_path := some "/m/A/system/etc", module_name := some "A",
    replace := false, skip := false, done := false }

/-- A module `A` whose `system/` directory is empty. -/
def empty_world : World :=
  table_world
    [("/", dir_stat), ("/m", dir_stat), ("/m/A", dir_stat), ("/m/A/system", dir_stat),
     ("/system", dir_stat)]
    [("/", ["m", "system"]), ("/m", ["A"]), ("/m/A", ["system"]), ("/m/A/system", []),
     ("/system", [])]

/-- Module `A` ships the directory `system/x` with a file `f`; module `B`
ships `system/x` as a regular file. -/
def conflict_world : World :=
  table_world
    [("/", dir_stat), ("/m", dir_stat), ("/m/A", dir_stat), ("/m/A/system", dir_stat),
     ("/m/A/system/x", dir_stat), ("/m/A/system/x/f", reg_stat),
     ("/m/B", dir_stat), ("/m/B/system", dir_stat), ("/m/B/system/x", reg_stat),
     ("/system", dir_stat)]
    [("/", ["m", "system"]), ("/m", ["A", "B"]), ("/m/A", ["system"]),
     ("/m/A/system", ["x"]), ("/m/A/system/x", ["f"]),
     ("/m/B", ["system"]), ("/m/B/system", ["x"]), ("/system", [])]

/-- Modules `A` and `B` both ship the directory `system/d`, `A` with the file
`a` and the file `c`, `B` with the file `b` and a symlink `c`. -/
def merge_world : World :=
  table_world
    [("/", dir_stat), ("/m", dir_stat), ("/m/A", dir_stat), ("/m/A/system", dir_stat),
     ("/m/A/system/d", dir_stat), ("/m/A/system/d/a", reg_stat),
     ("/m/A/system/d/c", reg_stat),
     ("/m/B", dir_stat), ("/m/B/system", dir_stat), ("/m/B/system/d", dir_stat),
     ("/m/B/system/d/b", reg_stat),
     ("/m/B/system/d/c", { mode := FileMode.lnk, rdev := 0 }),
     ("/system", dir_stat)]
    [("/", ["m", "system"]), ("/m", ["A", "B"]), ("/m/A", ["system"]),
     ("/m/A/system", ["d"]), ("/m/A/system/d", ["a", "c"]),
     ("/m/B", ["system"]), ("/m/B/system", ["d"]), ("/m/B/system/d", ["b", "c"]),
     ("/system", [])]

/-- Module `A` ships `system/system/f`; the live root has the directory
`/system`. Run with `system` among the extra partitions. -/
def system_part_world : World :=
  table_world
    [("/", dir_stat), ("/m", dir_stat), ("/m/A", dir_stat), ("/m/A/system", dir_stat),
     ("/m/A/system/system", dir_stat), ("/m/A/system/system/f", reg_stat),
     ("/system", dir_stat)]
    [("/", ["m", "system"]), ("/m", ["A"]), ("/m/A", ["system"]),
     ("/m/A/system", ["system"]), ("/m/A/system/system", ["f"]), ("/system", [])]

/-- Module `A` ships `system/null`, a character device with `rdev` 259
(major 1, minor 3). -/
def chardev_world : World :=
  table_world
    [("/", dir_stat), ("/m", dir_stat), ("/m/A", dir_stat), ("/m/A/system", dir_stat),
     ("/m/A/system/null", { mode := FileMode.chr, rdev := 259 }), ("/system", dir_stat)]
    [("/", ["m", "system"]), ("/m", ["A"]), ("/m/A", ["system"]),
     ("/m/A/system", ["null"]), ("/system", [])]

/-- The counters at zero. -/
def zero_stats : MountStats := init_state.stats

/-! ## Vocabulary of the properties -/

/-- The node reached from `n` along a chain of names, each step taken as
`node_find_child` takes it. -/
def lookup : Node → List String → Option Node
  | n, [] => some n
  | n, p :: ps =>
    match node_find_child n p with
    | some c => lookup c ps
    | none => none

/-- The path obtained by joining the names one after the other onto `dir`. -/
def join_all (w : World) : String → List String → Option String
  | dir, [] => some dir
  | dir, p :: ps =>
    match w.path_join dir p with
    | some q => join_all w q ps
    | none => none

/-- Two nodes agree on everything the collector fixes at creation. -/
def same_identity (a b : Node) : Prop :=
  a.name = b.name ∧ a.type = b.type ∧ a.module_path = b.module_path ∧
  a.module_name = b.module_name ∧ a.replace = b.replace

/-- The names of a node's children, in order. -/
def child_names (n : Node) : List String :=
  n.children.map Node.name

/-- Removes the characters of the first list from the front of the second, if
they are there. -/
def strip_chars : List Char → List Char → Option (List Char)
  | [], t => some t
  | _ :: _, [] => none
  | p :: ps, t :: ts => if p = t then strip_chars ps ts else none

/-- The entry name `n` when `target` is `wdir/n` with no further slash. -/
def entry_under (wdir target : String) : Option String :=
  match strip_chars (wdir.data ++ ['/']) target.data with
  | some rest => if rest ≠ [] ∧ '/' ∉ rest then some (String.mk rest) else none
  | none => none

/-- The path that an event brings into being: a created file, a made
directory or a cloned symlink, when the call succeeded. -/
def created_target (e : Ev) : Option String :=
  if e.ok then
    match e.op with
    | Op.creat p => some p
    | Op.mkdir p => some p
    | Op.mkdir_p p => some p
    | Op.clone_symlink _ p => some p
    | _ => none
  else none

/-- The names of the entries that a trace creates directly inside the
directory `wdir`, in order of creation. -/
def entries_created (wdir : String) (tr : List Ev) : List String :=
  tr.filterMap (fun e => (created_target e).bind (entry_under wdir))

/-- The part of a trace that comes before the first `MS_MOVE` of `wdir` onto
`target`. -/
def before_graft (wdir target : String) (tr : List Ev) : List Ev :=
  tr.takeWhile (fun e => decide (e.op ≠ Op.move wdir target))

/-- The events of `st1` that were not yet in `st0`. -/
def new_events (st0 st1 : MState) : List Ev :=
  st1.trace.drop st0.trace.length

/-- The tree `b` keeps everything of `a`: each node reachable in `a` is
reachable in `b` along the same names, with the same identity. -/
def Ext (a b : Node) : Prop :=
  ∀ ps n, lookup a ps = some n → ∃ n', lookup b ps = some n' ∧ same_identity n n'

/-- Each node reachable in `b` but not in `a` carries the mark of the module
`mn` collected from `dir`: its `module_name` is `mn`, its `module_path` is
the join of `dir` with the names leading to it, and its kind is read off the
`lstat` of that path. -/
def Fresh (w : World) (dir : String) (mn : Option String) (a b : Node) : Prop :=
  ∀ ps n, lookup a ps = none → lookup b ps = some n →
    n.module_name = mn ∧
    ∃ path s, join_all w dir ps = some path ∧ n.module_path = some path ∧
      w.lstat path = some s ∧ n.type = node_type_from_stat s

/-- Module `A` ships `system/etc/hosts`; module `B` ships `system/etc/evil` and
holds the marker `disable`. -/
def disabled_world : World :=
  table_world
    [("/", dir_stat), ("/m", dir_stat), ("/m/A", dir_stat), ("/m/A/system", dir_stat),
     ("/m/A/system/etc", dir_stat), ("/m/A/system/etc/hosts", reg_stat),
     ("/m/B", dir_stat), ("/m/B/disable", reg_stat), ("/m/B/system", dir_stat),
     ("/m/B/system/etc", dir_stat), ("/m/B/system/etc/evil", reg_stat),
     ("/system", dir_stat), ("/system/etc", dir_stat), ("/system/etc/hosts", reg_stat)]
    [("/", ["m", "system"]), ("/m", ["A", "B"]), ("/m/A", ["system"]),
     ("/m/A/system", ["etc"]), ("/m/A/system/etc", ["hosts"]),
     ("/m/B", ["disable", "system"]), ("/m/B/system", ["etc"]),
     ("/m/B/system/etc", ["evil"]),
     ("/system", ["etc"]), ("/system/etc", ["hosts"])]

/-- A leaf node as `node_new_module` makes it for a module file. -/
def module_leaf (name : String) (t : NodeFileType) (path module_name : String) : Node :=
  { name := name, type := t, children := [], module_path := some path,
    module_name := some module_name, replace := false, skip := false, done := false }

/-- The node `d` of `merge_world` once module `A` has been collected. -/
def merge_d_node : Node :=
  { name := "d", type := NFT_DIRECTORY,
    children := [module_leaf "a" NFT_REGULAR "/m/A/system/d/a" "A",
                 module_leaf "c" NFT_REGULAR "/m/A/system/d/c" "A"],
    module_path := some "/m/A/system/d", module_name := some "A",
    replace := false, skip := false, done := false }

/-- The node `x` of `conflict_world` once module `A` has been collected. -/
def conflict_x_node : Node :=
  { name := "x", type := NFT_DIRECTORY,
    children := [module_leaf "f" NFT_REGULAR "/m/A/system/x/f" "A"],
    module_path := some "/m/A/system/x", module_name := some "A",
    replace := false, skip := false, done := false }

/-- The `system` node of `conflict_world` once module `A` has been collected. -/
def conflict_after_A : Node :=
  { name := "system", type := NFT_DIRECTORY, children := [conflict_x_node],
    module_path := none, module_name := none,
    replace := false, skip := false, done := false }

/-- The state `st1` continues `st0`: its trace is that of `st0` followed by
events that all satisfy `P`. -/
def Emits (P : Ev → Prop) (st0 st1 : MState) : Prop :=
  ∃ evs, st1.trace = st0.trace ++ evs ∧ ∀ e ∈ evs, P e

/-- The names and kinds of a list of children, in order. -/
def sig (cs : List Node) : List (String × NodeFileType) :=
  cs.map (fun x => (x.name, x.type))

/-- The events that end a directory assembled as a tmpfs graft (lines 723-741):
read-only remount of the work directory, `MS_MOVE` onto the live path, the
live path made private, and the notification of it. -/
def graft_events (me : List String) (path wpath : String) : List Ev :=
  [{ who := me, op := Op.remount_ro wpath, ok := true },
   { who := me, op := Op.move wpath path, ok := true },
   { who := me, op := Op.make_private path, ok := true },
   { who := me, op := Op.notify path, ok := true }]

/-- Every node reachable in the tree has children with distinct names. -/
def Uniq (n : Node) : Prop :=
  ∀ ps m, lookup n ps = some m → (m.children.map Node.name).Nodup

/-- The state of the promotion loops of `collect_root`: below the `system`
node and below each child of the root names are distinct, no name occurs
twice among the children of the root and of `system` taken together, and each
child of the root bears a name of the list `allowed`. -/
def PromoteInv (allowed : List String) (root system : Node) : Prop :=
  Uniq system ∧ (∀ c ∈ root.children, Uniq c) ∧
  (root.children.map Node.name ++ system.children.map Node.name).Nodup ∧
  (∀ c ∈ root.children, c.name ∈ allowed)

/-- The state `st1` continues `st0`: its trace is that of `st0` followed by a
segment of events that satisfies `S`. -/
def Seg (S : List Ev → Prop) (st0 st1 : MState) : Prop :=
  ∃ evs, st1.trace = st0.trace ++ evs ∧ S evs

/-- A property of event segments that the empty segment has and that the
concatenation of two segments having it has. -/
def SegClosed (S : List Ev → Prop) : Prop :=
  S [] ∧ ∀ a b, S a → S b → S (a ++ b)

/-- The part of the directory case of `do_magic` between the tmpfs decision
and the two passes (lines 600-635): the work directory is prepared when the
directory is assembled in the scaffold, and bound onto itself when a tmpfs
starts at this level. -/
def enter_directory (w : World) (me : List String) (path wpath : String) (node : Node)
    (create_tmp now_tmp : Bool) (st : MState) : Rc × MState :=
  match (if now_tmp then prepare_tmp w me path wpath node st else (Rc.ok, st)) with
  | (Rc.ok, st2) =>
    match (if create_tmp then sys w st2 me (Op.bind wpath wpath) else (true, st2)) with
    | (false, st3) => (Rc.err, st3)
    | (true, st3) => (Rc.ok, st3)
  | (rc, st2) => (rc, st2)

/-- A child demands tmpfs at the live directory `path` (lines 565-585): its
live path joins and `child_needs_tmpfs` holds of it. -/
def demands_tmpfs (w : World) (path : String) (c : Node) : Bool :=
  match w.path_join path c.name with
  | some rp => child_needs_tmpfs w c rp
  | none => false

/-- The child with its skip flag set when it demands tmpfs. -/
def mark_skip (w : World) (path : String) (c : Node) : Node :=
  if demands_tmpfs w path c then { c with skip := true } else c

/-- The operations that `mirror` issues (lines 751-817). -/
def mirror_op : Op → Bool
  | Op.mirror_call => true
  | Op.creat _ => true
  | Op.bind _ _ => true
  | Op.mkdir _ => true
  | Op.set_meta _ _ => true
  | Op.clone_symlink _ _ => true
  | _ => false

/-- The events that the regular-file case of `do_magic` can issue (lines
501-537), `target` being the path that is bound. -/
def regular_event (me : List String) (wbase wpath target : String) (e : Ev) : Prop :=
  e.who = me ∧
    (e.op = Op.mkdir_p wbase ∨ e.op = Op.creat wpath ∨ (∃ mp, e.op = Op.bind mp target) ∨
      e.op = Op.notify target ∨ e.op = Op.remount_ro target)

/-- The events that entering a directory can issue (lines 600-635). -/
def enter_event (me : List String) (wpath : String) (create_tmp now_tmp : Bool)
    (e : Ev) : Prop :=
  e.who = me ∧
    ((now_tmp = true ∧ (e.op = Op.mkdir_p wpath ∨ ∃ m, e.op = Op.set_meta wpath m)) ∨
      (create_tmp = true ∧ e.op = Op.bind wpath wpath))

/-- The events that finishing a directory can issue (lines 723-741): none
unless a tmpfs started at this level. -/
def finish_event (me : List String) (path wpath : String) (create_tmp : Bool)
    (e : Ev) : Prop :=
  e.who = me ∧ create_tmp = true ∧
    (e.op = Op.remount_ro wpath ∨ e.op = Op.move wpath path ∨
      e.op = Op.make_private path ∨ e.op = Op.notify path)

/-- The live path `p` exists and `lstat` reports a directory. -/
def live_directory (w : World) (p : String) : Prop :=
  ∃ s, w.lstat p = some s ∧ s.mode = FileMode.dir

/-- The tree of a collector result; a bare root when there is none. -/
def tree_of (c : Collected × MountStats) : Node :=
  match c.1 with
  | Collected.tree r => r
  | _ => node_new "" NFT_DIRECTORY

/-- The tree that the collector builds in `replace_world`. -/
def replace_root : Node := tree_of (collect_root replace_world 8 "/m" [] zero_stats)

/-- Module `A` ships `system/etc/link`, a symlink; the live `/system/etc` holds
`hosts`. -/
def symlink_world : World :=
  table_world
    [("/", dir_stat), ("/m", dir_stat), ("/m/A", dir_stat), ("/m/A/system", dir_stat),
     ("/m/A/system/etc", dir_stat),
     ("/m/A/system/etc/link", { mode := FileMode.lnk, rdev := 0 }),
     ("/system", dir_stat), ("/system/etc", dir_stat), ("/system/etc/hosts", reg_stat)]
    [("/", ["m", "system"]), ("/m", ["A"]), ("/m/A", ["system"]),
     ("/m/A/system", ["etc"]), ("/m/A/system/etc", ["link"]),
     ("/system", ["etc"]), ("/system/etc", ["hosts"])]

/-- The tree that the collector builds in `symlink_world`. -/
def symlink_root : Node := tree_of (collect_root symlink_world 8 "/m" [] zero_stats)

/-- What follows a bind that is locked read-only: the read-only remount of the
same target by the same call, with at most the notification of that target in
between. -/
def locked_after (who : List String) (tgt : String) (post : List Ev) : Prop :=
  (∃ r, post = { who := who, op := Op.remount_ro tgt, ok := true } :: r) ∨
  (∃ r, post = { who := who, op := Op.notify tgt, ok := true } ::
    { who := who, op := Op.remount_ro tgt, ok := true } :: r)

/-- What precedes a bind of the regular-file case of `do_magic`: the entry into
a Regular node on the live tree, or the entry into one under tmpfs followed by
the creation of the work file that is the bind target. -/
def regular_bind (who : List String) (tgt : String) (pre : List Ev) : Prop :=
  (∃ p, pre = p ++ [{ who := who, op := Op.call NFT_REGULAR false, ok := true }]) ∨
  (∃ p wb, pre = p ++ [{ who := who, op := Op.call NFT_REGULAR true, ok := true },
    { who := who, op := Op.mkdir_p wb, ok := true },
    { who := who, op := Op.creat tgt, ok := true }])

/-- What precedes a bind of `mirror`: the entry into `mirror` and the creation
of the work file that is the bind target. -/
def mirror_bind (who : List String) (tgt : String) (pre : List Ev) : Prop :=
  ∃ p, pre = p ++ [{ who := who, op := Op.mirror_call, ok := true },
    { who := who, op := Op.creat tgt, ok := true }]

/-- The bind of a work directory onto itself, right after its metadata were
set. -/
def self_bind (who : List String) (src tgt : String) (pre : List Ev) : Prop :=
  src = tgt ∧ ∃ p m, pre = p ++ [{ who := who, op := Op.set_meta tgt m, ok := true }]

/-- Every successful bind of the segment is a bind of the regular-file case of
`do_magic` and locked read-only, or a bind of `mirror`, or the self-bind of a
work directory. -/
def binds_classified (evs : List Ev) : Prop :=
  ∀ pre who src tgt post,
    evs = pre ++ { who := who, op := Op.bind src tgt, ok := true } :: post →
    (regular_bind who tgt pre ∧ locked_after who tgt post) ∨
      mirror_bind who tgt pre ∨ self_bind who src tgt pre

/-- The run of the whiteout scenario: module directory `/m`, no extra
partitions, temp root `/tmp/.magic_mount`. -/
def whiteout_run : Rc × MState :=
  magic_mount whiteout_world 8 "/m" [] "KSU" "/tmp/.magic_mount" init_state

/-- The run of the replace-directory scenario with the temp root `/tmp/mm`. -/
def replace_run_mm : Rc × MState :=
  magic_mount replace_world 8 "/m" [] "KSU" "/tmp/mm" init_state

/-- The node of the module file `x.apk` of `replace_world`. -/
def apk_node : Node :=
  module_leaf "x.apk" NFT_REGULAR "/m/A/system/app/MyApp/x.apk" "A"

/-- The world `w` in which the system call `bad` fails and every other one
succeeds. -/
def failing (w : World) (bad : Op) : World :=
  { w with sys_ok := fun _ op => decide (op ≠ bad) }

/-- The replace-directory scenario in which the bind of the marker file
`.replace` onto its work file fails. -/
def marker_fails_world : World :=
  failing replace_world
    (Op.bind "/m/A/system/app/MyApp/.replace"
      "/tmp/.magic_mount/workdir/system/app/MyApp/.replace")

/-- The node of the marker file `.replace` of `replace_world`. -/
def marker_node : Node :=
  module_leaf ".replace" NFT_REGULAR "/m/A/system/app/MyApp/.replace" "A"

/-- The run of `marker_fails_world`. -/
def marker_fails_run : Rc × MState :=
  magic_mount marker_fails_world 8 "/m" [] "KSU" "/tmp/.magic_mount" init_state

/-- Whether the operation is an `MS_MOVE`. -/
def is_move : Op → Bool
  | Op.move _ _ => true
  | _ => false

/-- The call of `do_magic` on the marker file of `marker_fails_world`, as the
second pass over the children of `MyApp` makes it. -/
def marker_call (c : Node) (s : MState) : Rc × Node × MState :=
  do_magic marker_fails_world 1 ["", "system", "app", "MyApp"] "/system/app/MyApp"
    "/tmp/.magic_mount/workdir/system/app/MyApp" c true s

/-- The tree that the collector builds in `marker_fails_world`. -/
def marker_root : Node := tree_of (collect_root marker_fails_world 8 "/m" [] zero_stats)

/-- Module `A` ships `system/hosts`, which replaces the live file of that
name. -/
def hosts_world : World :=
  table_world
    [("/", dir_stat), ("/m", dir_stat), ("/m/A", dir_stat), ("/m/A/system", dir_stat),
     ("/m/A/system/hosts", reg_stat), ("/system", dir_stat), ("/system/hosts", reg_stat)]
    [("/", ["m", "system"]), ("/m", ["A"]), ("/m/A", ["system"]),
     ("/m/A/system", ["hosts"]), ("/system", ["hosts"])]

/-- The `system` node that the collector builds in `hosts_world`. -/
def hosts_system : Node :=
  match (tree_of (collect_root hosts_world 8 "/m" [] zero_stats)).children with
  | [s] => s
  | _ => node_new "system" NFT_DIRECTORY

/-- The first pass of the directory case of `do_magic` (lines 636-695): the
enumeration of the live directory, made when the live path exists and the
node is not marked replace; a live directory that cannot be opened is an
error only under tmpfs. -/
def first_pass (w : World) (rec : Node → Bool → MState → Rc × Node × MState)
    (mir : String → MState → Rc × MState) (path : String) (node : Node)
    (now_tmp : Bool) (st : MState) : Rc × Node × MState :=
  if w.path_exists path ∧ ¬ node.replace then
    match w.readdir path with
    | none => if now_tmp then (Rc.err, node, st) else (Rc.ok, node, st)
    | some ents => live_entries (fun c s => rec c now_tmp s) mir now_tmp ents node st
  else (Rc.ok, node, st)

/-- The node of `MyApp` in `marker_fails_world`, as the collector builds it. -/
def myapp_node : Node :=
  { name := "MyApp", type := NFT_DIRECTORY, children := [marker_node, apk_node],
    module_path := some "/m/A/system/app/MyApp", module_name := some "A",
    replace := true, skip := false, done := false }

/-- The run of `do_magic` on `MyApp` in `marker_fails_world`. -/
def myapp_call : Rc × Node × MState :=
  do_magic marker_fails_world (1 + 1) ["", "system", "app"] "/system/app"
    "/tmp/.magic_mount/workdir/system/app" myapp_node false init_state

/-- The state in which `MyApp` of `marker_fails_world` is entered: its work
directory is made, given the metadata of the live one and bound onto itself. -/
def myapp_entered : MState :=
  { stats := init_state.stats, failed := [],
    trace :=
      [{ who := ["", "system", "app", "MyApp"], op := Op.call NFT_DIRECTORY false, ok := true },
       { who := ["", "system", "app", "MyApp"],
         op := Op.mkdir_p "/tmp/.magic_mount/workdir/system/app/MyApp", ok := true },
       { who := ["", "system", "app", "MyApp"],
         op := Op.set_meta "/tmp/.magic_mount/workdir/system/app/MyApp" "/system/app/MyApp",
         ok := true },
       { who := ["", "system", "app", "MyApp"],
         op := Op.bind "/tmp/.magic_mount/workdir/system/app/MyApp"
           "/tmp/.magic_mount/workdir/system/app/MyApp", ok := true }] }

/-- The state in which the call for the marker file of `MyApp` fails: the work
file is created and its bind fails. -/
def marker_failed : MState :=
  { myapp_entered with
    trace := myapp_entered.trace ++
      [{ who := ["", "system", "app", "MyApp", ".replace"], op := Op.call NFT_REGULAR true,
         ok := true },
       { who := ["", "system", "app", "MyApp", ".replace"],
         op := Op.mkdir_p "/tmp/.magic_mount/workdir/system/app/MyApp", ok := true },
       { who := ["", "system", "app", "MyApp", ".replace"],
         op := Op.creat "/tmp/.magic_mount/workdir/system/app/MyApp/.replace", ok := true },
       { who := ["", "system", "app", "MyApp", ".replace"],
         op := Op.bind "/m/A/system/app/MyApp/.replace"
           "/tmp/.magic_mount/workdir/system/app/MyApp/.replace", ok := false }] }

/-- Module `A` ships `system/etc/link`, a symlink, and `system/etc/hosts`; the
live `/system/etc` holds `hosts` and `resolv`. -/
def etc_world : World :=
  table_world
    [("/", dir_stat), ("/m", dir_stat), ("/m/A", dir_stat), ("/m/A/system", dir_stat),
     ("/m/A/system/etc", dir_stat),
     ("/m/A/system/etc/link", { mode := FileMode.lnk, rdev := 0 }),
     ("/m/A/system/etc/hosts", reg_stat),
     ("/system", dir_stat), ("/system/etc", dir_stat), ("/system/etc/hosts", reg_stat),
     ("/system/etc/resolv", reg_stat)]
    [("/", ["m", "system"]), ("/m", ["A"]), ("/m/A", ["system"]),
     ("/m/A/system", ["etc"]), ("/m/A/system/etc", ["link", "hosts"]),
     ("/system", ["etc"]), ("/system/etc", ["hosts", "resolv"])]

/-- The node of `etc` in `etc_world`, as the collector builds it. -/
def etc_tmp_node : Node :=
  { name := "etc", type := NFT_DIRECTORY,
    children := [module_leaf "link" NFT_SYMLINK "/m/A/system/etc/link" "A",
                 module_leaf "hosts" NFT_REGULAR "/m/A/system/etc/hosts" "A"],
    module_path := some "/m/A/system/etc", module_name := some "A",
    replace := false, skip := false, done := false }

/-- The world `etc_world` in which the bind of the module file `hosts` onto its
work file fails. -/
def hosts_fails_world : World :=
  failing etc_world
    (Op.bind "/m/A/system/etc/hosts" "/tmp/.magic_mount/workdir/system/etc/hosts")

/-- The world `etc_world` in which the bind of the live file `resolv` onto its
work file fails. -/
def resolv_fails_world : World :=
  failing etc_world (Op.bind "/system/etc/resolv" "/tmp/.magic_mount/workdir/system/etc/resolv")

/-- The state in which `etc` of `etc_world` is entered: its work directory is
made, given the metadata of the live one and bound onto itself. -/
def etc_entered : MState :=
  { stats := init_state.stats, failed := [],
    trace :=
      [{ who := ["", "system", "etc"], op := Op.call NFT_DIRECTORY false, ok := true },
       { who := ["", "system", "etc"],
         op := Op.mkdir_p "/tmp/.magic_mount/workdir/system/etc", ok := true },
       { who := ["", "system", "etc"],
         op := Op.set_meta "/tmp/.magic_mount/workdir/system/etc" "/system/etc", ok := true },
       { who := ["", "system", "etc"],
         op := Op.bind "/tmp/.magic_mount/workdir/system/etc"
           "/tmp/.magic_mount/workdir/system/etc", ok := true }] }

/-- The run of `do_magic` on `etc` in the world `w`. -/
def etc_call (w : World) : Rc × Node × MState :=
  do_magic w (1 + 1) ["", "system"] "/system" "/tmp/.magic_mount/workdir/system" etc_tmp_node
    false init_state

/-- The run of the replace-directory scenario: module directory `/m`, no extra
partitions, temp root `/tmp/.magic_mount`. -/
def replace_run : Rc × MState :=
  magic_mount replace_world 8 "/m" [] "KSU" "/tmp/.magic_mount" init_state

/-- The `system` node after module `A` of `merge_world` has been collected. -/
def merge_after_A : Node :=
  (collect_modules merge_world 8 "/m" ["A"] (node_new "system" NFT_DIRECTORY) false
    zero_stats).2.1

/-- The `system` node of `merge_after_A` after `node_collect` has visited the
`system/` directory of module `B`. -/
def merge_after_B : Node :=
  (node_collect merge_world 8 merge_after_A "/m/B/system" (some "B") zero_stats).2.1

/-! ## Scenarios evaluated on the code -/

/-- C1 (counterexample): in the replace-directory scenario the entries created
in the work path of `/system/app/MyApp` before the graft are not exactly
`x.apk`: the marker file `.replace` is a module entry like any other and is
created and bound too. -/
theorem replace_scenario_not_only_x :
    ¬ (∀ n, n ∈ entries_created "/tmp/.magic_mount/workdir/system/app/MyApp"
          (before_graft "/tmp/.magic_mount/workdir/system/app/MyApp" "/system/app/MyApp"
            replace_run.2.trace) ↔ n = "x.apk") := by
  intro h
  have h1 : ".replace" ∈ entries_created "/tmp/.magic_mount/workdir/system/app/MyApp"
      (before_graft "/tmp/.magic_mount/workdir/system/app/MyApp" "/system/app/MyApp"
        replace_run.2.trace) := by decide
  exact absurd ((h ".replace").1 h1) (by decide)

/-- C1 (amended): in the replace-directory scenario the run succeeds, the work
directory of `/system/app/MyApp` is grafted onto it, and the entries created
in that work directory before the graft are exactly `.replace` and `x.apk`:
the live `y.apk` and `z.apk` are not carried over. -/
theorem replace_scenario_entries :
    replace_run.1 = Rc.ok ∧
    { who := ["", "system", "app", "MyApp"],
      op := Op.move "/tmp/.magic_mount/workdir/system/app/MyApp" "/system/app/MyApp",
      ok := true } ∈ replace_run.2.trace ∧
    entries_created "/tmp/.magic_mount/workdir/system/app/MyApp"
      (before_graft "/tmp/.magic_mount/workdir/system/app/MyApp" "/system/app/MyApp"
        replace_run.2.trace) = [".replace", "x.apk"] := by
  refine ⟨by rfl, by decide, by rfl⟩

/-- C8 (counterexample): a single enabled module whose `system/` directory is
empty is counted: `modules_total` goes from 0 to 1 although the collector
returns no tree. -/
theorem empty_module_is_counted :
    (collect_root empty_world 8 "/m" [] zero_stats).1.is_null = true ∧
    (collect_root empty_world 8 "/m" [] zero_stats).2.modules_total = 1 ∧
    zero_stats.modules_total = 0 := by
  refine ⟨by rfl, by rfl, by rfl⟩

/-- C6 (counterexample): with module `A` shipping `system/x` as a directory and
module `B`, enumerated after it, shipping `system/x` as a regular file, the
module loop ends with -1 and `collect_root` returns `NULL`. -/
theorem kind_conflict_aborts :
    (collect_modules conflict_world 8 "/m" ["A", "B"] (node_new "system" NFT_DIRECTORY)
      false zero_stats).1 = Rc.err ∧
    (collect_root conflict_world 8 "/m" [] zero_stats).1.is_null = true := by
  refine ⟨by rfl, by rfl⟩

/-- C7 (counterexample): when `node_collect` visits the entry `d` of module `B`
while the node `d` of module `A` exists, both being directories, the tree
beneath `d` changes: it held `a` and `c`, and holds `a`, `c` and `b` after. -/
theorem merge_changes_subtree :
    (lookup merge_after_A ["d"]).map child_names = some ["a", "c"] ∧
    (lookup merge_after_B ["d"]).map child_names = some ["a", "c", "b"] ∧
    (lookup merge_after_A ["d"]).map child_names ≠
      (lookup merge_after_B ["d"]).map child_names := by
  refine ⟨by rfl, by rfl, by decide⟩

/-- C5 (code at the failing input): with `system` among the extra partitions
and a module that ships `system/system/f`, the tree that `collect_root`
returns has two children of the root named `system`: the promoted subtree and
the `system` node itself. -/
theorem promoted_system_twice :
    ((collect_root system_part_world 8 "/m" ["system"] zero_stats).1.root?).map
      (fun r => (r.children.filter (fun c => decide (c.name = "system"))).length) = some 2 ∧
    ((collect_root system_part_world 8 "/m" ["system"] zero_stats).1.root?).map
      (fun r => r.children.map Node.module_path) = some [some "/m/A/system/system", none] := by
  refine ⟨by rfl, by rfl⟩

/-- C9 (code at the failing input): with `system` among the extra partitions
and a module that ships `system/system/f`, the names of the children of the
root are `system` and `system`: two children of one node share a name. -/
theorem root_children_share_name :
    ((collect_root system_part_world 8 "/m" ["system"] zero_stats).1.root?).map child_names
      = some ["system", "system"] ∧
    ¬ (["system", "system"] : List String).Nodup := by
  refine ⟨by rfl, by decide⟩

/-- C10 (code at the failing input): for a module entry that is a character
device with `rdev` 259, `node_new_module` creates a node, and its kind is
`NFT_WHITEOUT`. -/
theorem chardev_nonzero_is_whiteout :
    chardev_world.lstat "/m/A/system/null" = some { mode := FileMode.chr, rdev := 259 } ∧
    (node_new_module chardev_world "null" "/m/A/system/null" (some "A") zero_stats).1.map
      Node.type = some NFT_WHITEOUT := by
  refine ⟨by rfl, by rfl⟩

/-! ## The collector keeps what it has -/

theorem same_identity_refl (a : Node) : same_identity a a :=
  ⟨rfl, rfl, rfl, rfl, rfl⟩

theorem same_identity_trans {a b c : Node} (h1 : same_identity a b)
    (h2 : same_identity b c) : same_identity a c := by
  obtain ⟨a1, a2, a3, a4, a5⟩ := h1
  obtain ⟨b1, b2, b3, b4, b5⟩ := h2
  exact ⟨a1.trans b1, a2.trans b2, a3.trans b3, a4.trans b4, a5.trans b5⟩

theorem lookup_nil (n : Node) : lookup n [] = some n := rfl

theorem lookup_cons_some {n c : Node} {p : String} (ps : List String)
    (h : node_find_child n p = some c) : lookup n (p :: ps) = lookup c ps := by
  simp [lookup, h]

theorem lookup_cons_none {n : Node} {p : String} (ps : List String)
    (h : node_find_child n p = none) : lookup n (p :: ps) = none := by
  simp [lookup, h]

theorem find_child_name {n c : Node} {p : String} (h : node_find_child n p = some c) :
    c.name = p := by
  have := List.find?_some h
  simpa using this

theorem find_set_child_same {d : String} {c1 : Node} (h1 : c1.name = d) :
    ∀ (l : List Node) (c : Node), l.find? (fun x => decide (x.name = d)) = some c →
      (set_child_list d c1 l).find? (fun x => decide (x.name = d)) = some c1
  | [], c, h => by simp at h
  | x :: xs, c, h => by
    by_cases hx : x.name = d
    · simp [set_child_list, hx, h1]
    · simp only [List.find?_cons, hx, decide_False] at h
      simp [set_child_list, hx, List.find?_cons, find_set_child_same h1 xs c h]

theorem find_set_child_other {d p : String} {c1 : Node} (h1 : c1.name = d) (hne : p ≠ d) :
    ∀ (l : List Node), (set_child_list d c1 l).find? (fun x => decide (x.name = p)) =
      l.find? (fun x => decide (x.name = p))
  | [] => rfl
  | x :: xs => by
    by_cases hx : x.name = d
    · have hxp : ¬ x.name = p := fun h => hne (h.symm.trans hx)
      have hcp : ¬ c1.name = p := fun h => hne (h.symm.trans h1)
      have hdp : ¬ d = p := fun h => hne h.symm
      simp [set_child_list, hx, List.find?_cons, hcp, hdp]
    · simp [set_child_list, hx, List.find?_cons, find_set_child_other h1 hne xs]

theorem set_child_list_self {d : String} :
    ∀ (l : List Node) (c : Node), l.find? (fun x => decide (x.name = d)) = some c →
      set_child_list d c l = l
  | [], _, _ => rfl
  | x :: xs, c, h => by
    by_cases hx : x.name = d
    · simp only [List.find?_cons, hx, decide_True] at h
      simp only [Option.some.injEq] at h
      subst h
      simp [set_child_list, hx]
    · simp only [List.find?_cons, hx, decide_False] at h
      simp [set_child_list, hx, set_child_list_self xs c h]

theorem set_child_self {self c : Node} {d : String} (h : node_find_child self d = some c) :
    set_child self d c = self := by
  unfold set_child
  rw [set_child_list_self self.children c h]
  cases self
  rfl

theorem Ext_refl (a : Node) : Ext a a :=
  fun _ n h => ⟨n, h, same_identity_refl n⟩

theorem Ext_trans {a b c : Node} (h1 : Ext a b) (h2 : Ext b c) : Ext a c := by
  intro ps n h
  obtain ⟨n1, hn1, s1⟩ := h1 ps n h
  obtain ⟨n2, hn2, s2⟩ := h2 ps n1 hn1
  exact ⟨n2, hn2, same_identity_trans s1 s2⟩

theorem same_identity_set_child (self : Node) (d : String) (c : Node) :
    same_identity self (set_child self d c) :=
  ⟨rfl, rfl, rfl, rfl, rfl⟩

theorem same_identity_add_child (self n : Node) :
    same_identity self (node_add_child self n) :=
  ⟨rfl, rfl, rfl, rfl, rfl⟩

theorem find_child_set_same {self c c1 : Node} {d : String}
    (h : node_find_child self d = some c) (h1 : c1.name = d) :
    node_find_child (set_child self d c1) d = some c1 :=
  find_set_child_same h1 self.children c h

theorem find_child_set_other {self c1 : Node} {d p : String} (h1 : c1.name = d)
    (hne : p ≠ d) : node_find_child (set_child self d c1) p = node_find_child self p :=
  find_set_child_other h1 hne self.children

theorem Ext_set_child {self c c1 : Node} {d : String}
    (h : node_find_child self d = some c) (he : Ext c c1) :
    Ext self (set_child self d c1) := by
  have hname : c1.name = d := by
    obtain ⟨n', hn', s⟩ := he [] c rfl
    simp only [lookup_nil, Option.some.injEq] at hn'
    subst hn'
    exact s.1.symm.trans (find_child_name h)
  intro ps n hl
  cases ps with
  | nil =>
    simp only [lookup_nil, Option.some.injEq] at hl
    subst hl
    exact ⟨_, rfl, same_identity_set_child _ d c1⟩
  | cons p ps =>
    by_cases hp : p = d
    · subst hp
      rw [lookup_cons_some ps h] at hl
      rw [lookup_cons_some ps (find_child_set_same h hname)]
      exact he ps n hl
    · cases hf : node_find_child self p with
      | none => rw [lookup_cons_none ps hf] at hl; cases hl
      | some x =>
        rw [lookup_cons_some ps hf] at hl
        have hf2 : node_find_child (set_child self d c1) p = some x := by
          rw [find_child_set_other hname hp]; exact hf
        rw [lookup_cons_some ps hf2]
        exact ⟨n, hl, same_identity_refl n⟩

theorem find_child_add_of_some {self n x : Node} {p : String}
    (h : node_find_child self p = some x) :
    node_find_child (node_add_child self n) p = some x := by
  unfold node_find_child node_add_child at *
  simp [List.find?_append, h]

theorem find_child_add_of_none {self n : Node} {p : String}
    (h : node_find_child self p = none) :
    node_find_child (node_add_child self n) p = if n.name = p then some n else none := by
  unfold node_find_child node_add_child at *
  by_cases hn : n.name = p <;> simp [List.find?_append, h, List.find?_cons, hn]

theorem Ext_add_child (self n : Node) : Ext self (node_add_child self n) := by
  intro ps m hl
  cases ps with
  | nil =>
    simp only [lookup_nil, Option.some.injEq] at hl
    subst hl
    exact ⟨_, rfl, same_identity_add_child _ n⟩
  | cons p ps =>
    cases hf : node_find_child self p with
    | none => rw [lookup_cons_none ps hf] at hl; cases hl
    | some x =>
      rw [lookup_cons_some ps hf] at hl
      rw [lookup_cons_some ps (find_child_add_of_some hf)]
      exact ⟨m, hl, same_identity_refl m⟩

theorem Fresh_refl (w : World) (dir : String) (mn : Option String) (a : Node) :
    Fresh w dir mn a a := by
  intro ps n h1 h2
  rw [h1] at h2
  cases h2

theorem Fresh_trans {w : World} {dir : String} {mn : Option String} {a b c : Node}
    (h1 : Fresh w dir mn a b) (e : Ext b c) (h2 : Fresh w dir mn b c) :
    Fresh w dir mn a c := by
  intro ps n ha hc
  cases hb : lookup b ps with
  | none => exact h2 ps n hb hc
  | some m =>
    obtain ⟨n', hn', s⟩ := e ps m hb
    rw [hc] at hn'
    simp only [Option.some.injEq] at hn'
    subst hn'
    obtain ⟨k1, path, st, k2, k3, k4, k5⟩ := h1 ps m ha hb
    obtain ⟨_, s2, s3, s4, _⟩ := s
    exact ⟨s4 ▸ k1, path, st, k2, s3 ▸ k3, k4, s2 ▸ k5⟩

theorem join_all_cons {w : World} {dir path p : String} (ps : List String)
    (h : w.path_join dir p = some path) : join_all w dir (p :: ps) = join_all w path ps := by
  simp [join_all, h]

theorem Fresh_set_child {w : World} {dir path d : String} {mn : Option String}
    {self c c1 : Node} (h : node_find_child self d = some c)
    (hj : w.path_join dir d = some path) (hname : c1.name = d)
    (hf : Fresh w path mn c c1) : Fresh w dir mn self (set_child self d c1) := by
  intro ps n ha hb
  cases ps with
  | nil => simp [lookup_nil] at ha
  | cons p ps =>
    by_cases hp : p = d
    · subst hp
      rw [lookup_cons_some ps h] at ha
      rw [lookup_cons_some ps (find_child_set_same h hname)] at hb
      obtain ⟨k1, q, s, k2, k3, k4, k5⟩ := hf ps n ha hb
      exact ⟨k1, q, s, by rw [join_all_cons ps hj]; exact k2, k3, k4, k5⟩
    · have hsame : node_find_child (set_child self d c1) p = node_find_child self p :=
        find_child_set_other hname hp
      cases hx : node_find_child self p with
      | none =>
        rw [lookup_cons_none ps (hsame.trans hx)] at hb
        cases hb
      | some x =>
        rw [lookup_cons_some ps hx] at ha
        rw [lookup_cons_some ps (hsame.trans hx)] at hb
        rw [ha] at hb
        cases hb

theorem node_new_module_spec {w : World} {d path : String} {mn : Option String}
    {st st0 : MountStats} {n : Node}
    (h : node_new_module w d path mn st = (some n, st0)) :
    n.name = d ∧ n.children = [] ∧ n.module_name = mn ∧ n.module_path = some path ∧
    ∃ s, w.lstat path = some s ∧ n.type = node_type_from_stat s := by
  unfold node_new_module at h
  cases hl : w.lstat path with
  | none => simp [hl] at h
  | some s =>
    simp only [hl] at h
    split at h
    · simp at h
    · simp only [Prod.mk.injEq, Option.some.injEq] at h
      obtain ⟨h1, _⟩ := h
      subst h1
      exact ⟨rfl, rfl, rfl, rfl, s, rfl, rfl⟩

theorem Fresh_add_child {w : World} {dir path d : String} {mn : Option String}
    {self n : Node} {st st0 : MountStats} (h : node_find_child self d = none)
    (hj : w.path_join dir d = some path)
    (hn : node_new_module w d path mn st = (some n, st0)) :
    Fresh w dir mn self (node_add_child self n) := by
  obtain ⟨n1, n2, n3, n4, s, n5, n6⟩ := node_new_module_spec hn
  intro ps m ha hb
  cases ps with
  | nil => simp [lookup_nil] at ha
  | cons p ps =>
    cases hx : node_find_child self p with
    | some x =>
      rw [lookup_cons_some ps hx] at ha
      rw [lookup_cons_some ps (find_child_add_of_some hx)] at hb
      rw [ha] at hb
      cases hb
    | none =>
      have hadd := find_child_add_of_none (n := n) hx
      by_cases hnp : n.name = p
      · rw [if_pos hnp] at hadd
        rw [lookup_cons_some ps hadd] at hb
        have hpd : p = d := hnp.symm.trans n1
        subst hpd
        cases ps with
        | nil =>
          simp only [lookup_nil, Option.some.injEq] at hb
          subst hb
          exact ⟨n3, path, s, by simp [join_all, hj], n4, n5, n6⟩
        | cons q qs =>
          have : node_find_child n q = none := by
            unfold node_find_child
            rw [n2]
            rfl
          rw [lookup_cons_none qs this] at hb
          cases hb
      · rw [if_neg hnp] at hadd
        rw [lookup_cons_none ps hadd] at hb
        cases hb

theorem obtain_child_some {w : World} {self self0 c : Node} {d path dir : String}
    {mn : Option String} {st st0 : MountStats} (hj : w.path_join dir d = some path)
    (h : obtain_child w self d path mn st = (some c, self0, st0)) :
    node_find_child self0 d = some c ∧ Ext self self0 ∧ Fresh w dir mn self self0 := by
  unfold obtain_child at h
  cases hf : node_find_child self d with
  | some x =>
    simp only [hf, Prod.mk.injEq, Option.some.injEq] at h
    obtain ⟨h1, h2, _⟩ := h
    subst h1 h2
    exact ⟨hf, Ext_refl _, Fresh_refl _ _ _ _⟩
  | none =>
    simp only [hf] at h
    rcases hn : node_new_module w d path mn st with ⟨onode, st1⟩
    cases onode with
    | none => simp [hn] at h
    | some n =>
      simp only [hn, Prod.mk.injEq, Option.some.injEq] at h
      obtain ⟨h1, h2, _⟩ := h
      subst h1 h2
      have hname := (node_new_module_spec hn).1
      refine ⟨?_, Ext_add_child _ _, Fresh_add_child hf hj hn⟩
      rw [find_child_add_of_none hf, if_pos hname]

theorem obtain_child_none {w : World} {self self0 : Node} {d path : String}
    {mn : Option String} {st st0 : MountStats}
    (h : obtain_child w self d path mn st = (none, self0, st0)) : self0 = self := by
  unfold obtain_child at h
  cases hf : node_find_child self d with
  | some x => simp [hf] at h
  | none =>
    simp only [hf] at h
    rcases hn : node_new_module w d path mn st with ⟨onode, st1⟩
    cases onode with
    | none =>
      simp only [hn, Prod.mk.injEq, true_and] at h
      exact h.1.symm
    | some n => simp [hn] at h

/-- The `readdir` loop of `node_collect` keeps every node of the tree and
stamps every node it adds, provided the recursive call does. -/
theorem collect_entries_keeps (w : World)
    (rec : Node → String → MountStats → Rc × Node × Bool × MountStats)
    (dir : String) (mn : Option String)
    (hrec : ∀ c p s, Ext c (rec c p s).2.1 ∧ Fresh w p mn c (rec c p s).2.1) :
    ∀ (ents : List String) (self : Node) (any : Bool) (st : MountStats),
      Ext self (collect_entries w rec dir mn ents self any st).2.1 ∧
      Fresh w dir mn self (collect_entries w rec dir mn ents self any st).2.1 := by
  intro ents
  induction ents with
  | nil => intro self any st; exact ⟨Ext_refl _, Fresh_refl _ _ _ _⟩
  | cons d ds ih =>
    intro self any st
    rw [collect_entries]
    split
    · exact ih self any st
    · cases hj : w.path_join dir d with
      | none => exact ⟨Ext_refl _, Fresh_refl _ _ _ _⟩
      | some path =>
        simp only []
        rcases ho : obtain_child w self d path mn st with ⟨oc, self0, st0⟩
        cases oc with
        | none =>
          simp only []
          rw [obtain_child_none ho]
          exact ih self any st0
        | some c =>
          obtain ⟨hfind, hext, hfresh⟩ := obtain_child_some hj ho
          simp only []
          split
          · rcases hr : rec c path st0 with ⟨rc, c1, sub, st1⟩
            have hc := hrec c path st0
            rw [hr] at hc
            simp only [] at hc
            obtain ⟨hce, hcf⟩ := hc
            have hname : c1.name = d := by
              obtain ⟨n', hn', s⟩ := hce [] c rfl
              simp only [lookup_nil, Option.some.injEq] at hn'
              subst hn'
              exact s.1.symm.trans (find_child_name hfind)
            have e1 : Ext self (set_child self0 d c1) :=
              Ext_trans hext (Ext_set_child hfind hce)
            have f1 : Fresh w dir mn self (set_child self0 d c1) :=
              Fresh_trans hfresh (Ext_set_child hfind hce)
                (Fresh_set_child hfind hj hname hcf)
            cases rc with
            | ok =>
              simp only []
              have := ih (set_child self0 d c1) (any || (sub || c1.replace)) st1
              exact ⟨Ext_trans e1 this.1, Fresh_trans f1 this.1 this.2⟩
            | err => exact ⟨e1, f1⟩
            | fuel => exact ⟨e1, f1⟩
          · have := ih self0 true st0
            exact ⟨Ext_trans hext this.1, Fresh_trans hfresh this.1 this.2⟩

/-- `node_collect` keeps every node of the tree, with its identity, and every
node it adds carries the module it is collecting. -/
theorem node_collect_keeps (w : World) (mn : Option String) :
    ∀ (fuel : Nat) (self : Node) (dir : String) (st : MountStats),
      Ext self (node_collect w fuel self dir mn st).2.1 ∧
      Fresh w dir mn self (node_collect w fuel self dir mn st).2.1 := by
  intro fuel
  induction fuel with
  | zero => intro self dir st; exact ⟨Ext_refl _, Fresh_refl _ _ _ _⟩
  | succ f ih =>
    intro self dir st
    rw [node_collect]
    cases hr : w.readdir dir with
    | none => exact ⟨Ext_refl _, Fresh_refl _ _ _ _⟩
    | some ents =>
      exact collect_entries_keeps w _ dir mn (fun c p s => ih c p s) ents self false st

/-- The module loop of `collect_root` keeps every node of the tree, with its
identity. -/
theorem collect_modules_keeps (w : World) (fuel : Nat) (mdir : String) :
    ∀ (ents : List String) (system : Node) (any : Bool) (st : MountStats),
      Ext system (collect_modules w fuel mdir ents system any st).2.1 := by
  intro ents
  induction ents with
  | nil => intro system any st; exact Ext_refl _
  | cons d ds ih =>
    intro system any st
    rw [collect_modules]
    split
    · exact ih _ _ _
    · split
      · exact Ext_refl _
      · split
        · exact ih _ _ _
        · split
          · exact ih _ _ _
          · split
            · exact Ext_refl _
            · split
              · exact ih _ _ _
              · rename_i ms _ _
                simp only []
                have hk := (node_collect_keeps w (some d) fuel system ms
                  { st with modules_total := st.modules_total + 1 }).1
                split
                · rename_i h
                  rw [h] at hk
                  exact Ext_trans hk (ih _ _ _)
                · rename_i h
                  rw [h] at hk
                  exact hk

theorem collect_modules_single (w : World) (fuel : Nat) (mdir d : String)
    (system : Node) (any : Bool) (st : MountStats) :
    (collect_modules w fuel mdir [d] system any st).2.1 = system ∨
    ∃ mod ms, w.path_join mdir d = some mod ∧ w.path_join mod "system" = some ms ∧
      (collect_modules w fuel mdir [d] system any st).2.1 =
        (node_collect w fuel system ms (some d)
          { st with modules_total := st.modules_total + 1 }).2.1 := by
  rw [collect_modules]
  split
  · left; rfl
  · split
    · left; rfl
    · rename_i mod hmod
      split
      · left; rfl
      · split
        · left; rfl
        · split
          · left; rfl
          · rename_i ms hms
            split
            · left; rfl
            · right
              refine ⟨mod, ms, hmod, hms, ?_⟩
              simp only []
              split
              · rename_i h
                rw [h]
                rfl
              · rename_i h
                rw [h]

theorem collect_modules_single_fresh (w : World) (fuel : Nat) (mdir d : String)
    (system : Node) (any : Bool) (st : MountStats) (ps : List String) (n : Node)
    (ha : lookup system ps = none)
    (hb : lookup (collect_modules w fuel mdir [d] system any st).2.1 ps = some n) :
    ∃ mod ms, w.path_join mdir d = some mod ∧ w.path_join mod "system" = some ms ∧
      Fresh w ms (some d) system (collect_modules w fuel mdir [d] system any st).2.1 := by
  rcases collect_modules_single w fuel mdir d system any st with h | ⟨mod, ms, h1, h2, h3⟩
  · rw [h, ha] at hb
    cases hb
  · refine ⟨mod, ms, h1, h2, ?_⟩
    rw [h3]
    exact (node_collect_keeps w (some d) fuel system ms _).2

theorem obtain_child_found {w : World} {self c : Node} {d path : String}
    {mn : Option String} {st : MountStats} (h : node_find_child self d = some c) :
    obtain_child w self d path mn st = (some c, self, st) := by
  simp [obtain_child, h]

theorem collect_entries_existing_leaf (w : World)
    (rec : Node → String → MountStats → Rc × Node × Bool × MountStats)
    (dir d path : String) (mn : Option String) (ds : List String) (self c : Node)
    (any : Bool) (st : MountStats) (hd : ¬ (d = "." ∨ d = ".."))
    (hj : w.path_join dir d = some path) (hc : node_find_child self d = some c)
    (ht : c.type ≠ NFT_DIRECTORY) :
    collect_entries w rec dir mn (d :: ds) self any st =
      collect_entries w rec dir mn ds self true st := by
  rw [collect_entries]
  simp only [hd, if_false, hj, obtain_child_found hc, ht]

theorem collect_entries_existing_dir (w : World)
    (rec : Node → String → MountStats → Rc × Node × Bool × MountStats)
    (dir d path : String) (mn : Option String) (ds : List String) (self c : Node)
    (any : Bool) (st : MountStats) (hd : ¬ (d = "." ∨ d = ".."))
    (hj : w.path_join dir d = some path) (hc : node_find_child self d = some c)
    (ht : c.type = NFT_DIRECTORY) :
    collect_entries w rec dir mn (d :: ds) self any st =
      match rec c path st with
      | (Rc.ok, c1, sub, st1) =>
        collect_entries w rec dir mn ds (set_child self d c1) (any || (sub || c1.replace)) st1
      | (rc, c1, _, st1) => (rc, set_child self d c1, any, st1) := by
  rw [collect_entries]
  simp only [hd, if_false, hj, obtain_child_found hc, ht, if_true]

theorem collect_entries_dots (w : World)
    (rec : Node → String → MountStats → Rc × Node × Bool × MountStats)
    (dir : String) (mn : Option String) :
    ∀ (ents : List String), (∀ e ∈ ents, e = "." ∨ e = "..") →
      ∀ (self : Node) (any : Bool) (st : MountStats),
        collect_entries w rec dir mn ents self any st = (Rc.ok, self, any, st)
  | [], _, _, _, _ => rfl
  | e :: es, h, self, any, st => by
    rw [collect_entries]
    simp only [h e (List.mem_cons_self e es), if_true]
    exact collect_entries_dots w rec dir mn es
      (fun x hx => h x (List.mem_cons_of_mem e hx)) self any st

theorem module_disabled_of_marker (w : World) (mod marker p : String)
    (hm : marker = "disable" ∨ marker = "remove" ∨ marker = "skip_mount")
    (hp : w.path_join mod marker = some p) (he : w.path_exists p = true) :
    module_disabled w mod = true := by
  unfold module_disabled
  rcases hm with h | h | h <;> subst h <;> simp only [hp, he, if_true] <;> split <;>
    first | rfl | (split <;> rfl)

theorem collect_modules_skip_disabled (w : World) (fuel : Nat) (mdir d mod : String)
    (hj : w.path_join mdir d = some mod) (hdis : module_disabled w mod = true)
    (ds : List String) (system : Node) (any : Bool) (st : MountStats) :
    collect_modules w fuel mdir (d :: ds) system any st =
      collect_modules w fuel mdir ds system any st := by
  rw [collect_modules]
  split
  · rfl
  · simp only [hj, hdis, if_true]
    split <;> rfl

theorem collect_modules_drop_disabled (w : World) (fuel : Nat) (mdir d mod : String)
    (hj : w.path_join mdir d = some mod) (hdis : module_disabled w mod = true)
    (post : List String) :
    ∀ (pre : List String) (system : Node) (any : Bool) (st : MountStats),
      collect_modules w fuel mdir (pre ++ d :: post) system any st =
        collect_modules w fuel mdir (pre ++ post) system any st
  | [], system, any, st => collect_modules_skip_disabled w fuel mdir d mod hj hdis post system any st
  | e :: es, system, any, st => by
    have ih := collect_modules_drop_disabled w fuel mdir d mod hj hdis post es
    simp only [List.cons_append]
    rw [collect_modules, collect_modules]
    simp only [ih]

/-- C3: a module directory holding one of the markers `disable`, `remove`,
`skip_mount` leaves no trace in the collector: with its name anywhere in the
listing of the module directory, `collect_root` (after `opendir`) returns the
same tree and the same counters, `modules_total` included, as without it,
whatever its `system/` tree contains. -/
theorem disabled_module_ignored (w : World) (fuel : Nat) (mdir : String)
    (extra_parts pre post : List String) (d mod marker p : String) (st : MountStats)
    (hj : w.path_join mdir d = some mod)
    (hm : marker = "disable" ∨ marker = "remove" ∨ marker = "skip_mount")
    (hp : w.path_join mod marker = some p) (he : w.path_exists p = true) :
    collect_listing w fuel mdir extra_parts (pre ++ d :: post) st =
      collect_listing w fuel mdir extra_parts (pre ++ post) st := by
  simp only [collect_listing, collect_modules_drop_disabled w fuel mdir d mod hj
    (module_disabled_of_marker w mod marker p hm hp he) post pre]

/-- C8 (amended): an enabled module whose `system/` directory exists and holds
no entries adds no node (the `system` node and the running `has_any` are as
before), and `modules_total` is one more: the module is counted. -/
theorem empty_module_counts_only (w : World) (fuel : Nat) (mdir d mod ms : String)
    (ds ents : List String) (system : Node) (has_any : Bool) (st : MountStats)
    (hd : ¬ (d = "." ∨ d = "..")) (hj : w.path_join mdir d = some mod)
    (hs : ∃ s, w.stat mod = some s ∧ s.mode = FileMode.dir)
    (hen : module_disabled w mod = false)
    (hjs : w.path_join mod "system" = some ms) (hdir : w.path_is_dir ms = true)
    (hls : w.readdir ms = some ents) (hempty : ∀ e ∈ ents, e = "." ∨ e = "..") :
    collect_modules w (fuel + 1) mdir (d :: ds) system has_any st =
      collect_modules w (fuel + 1) mdir ds system has_any
        { st with modules_total := st.modules_total + 1 } := by
  rw [collect_modules]
  simp only [hd, if_false, hj, hs, not_true_eq_false, hen, hjs, hdir, node_collect, hls,
    collect_entries_dots w _ ms (some d) ents hempty, Bool.or_false, Bool.false_eq_true]

/-- C3 (witness): in `disabled_world` module `B` holds the marker `disable`;
the listing `., .., A, B` gives what the listing `., .., A` gives. -/
theorem disabled_module_ignored_witness :
    disabled_world.path_join "/m" "B" = some "/m/B" ∧
    disabled_world.path_join "/m/B" "disable" = some "/m/B/disable" ∧
    disabled_world.path_exists "/m/B/disable" = true ∧
    collect_listing disabled_world 8 "/m" [] ([".", "..", "A"] ++ "B" :: []) zero_stats =
      collect_listing disabled_world 8 "/m" [] ([".", "..", "A"] ++ []) zero_stats :=
  ⟨rfl, rfl, rfl,
    disabled_module_ignored disabled_world 8 "/m" [] [".", "..", "A"] [] "B" "/m/B"
      "disable" "/m/B/disable" zero_stats rfl (Or.inl rfl) rfl rfl⟩

/-- C8 (witness): in `empty_world` module `A` has an empty `system/`; visiting
it leaves the `system` node alone and counts one module. -/
theorem empty_module_counts_only_witness :
    empty_world.readdir "/m/A/system" = some [".", ".."] ∧
    module_disabled empty_world "/m/A" = false ∧
    collect_modules empty_world 8 "/m" ["A"] (node_new "system" NFT_DIRECTORY) false
        zero_stats =
      collect_modules empty_world 8 "/m" [] (node_new "system" NFT_DIRECTORY) false
        { zero_stats with modules_total := zero_stats.modules_total + 1 } :=
  ⟨rfl, rfl,
    empty_module_counts_only empty_world 7 "/m" "A" "/m/A" "/m/A/system" [] [".", ".."]
      (node_new "system" NFT_DIRECTORY) false zero_stats (by decide) rfl
      ⟨dir_stat, rfl, rfl⟩ rfl rfl rfl rfl (by decide)⟩

/-- The module loop over a concatenation is the loop over the first part,
then, if that returned 0, the loop over the second part from where it left. -/
theorem collect_modules_append (w : World) (fuel : Nat) (mdir : String) (ys : List String) :
    ∀ (xs : List String) (system : Node) (any : Bool) (st : MountStats),
      collect_modules w fuel mdir (xs ++ ys) system any st =
        match collect_modules w fuel mdir xs system any st with
        | (Rc.ok, s1, a1, st1) => collect_modules w fuel mdir ys s1 a1 st1
        | r => r := by
  intro xs
  induction xs with
  | nil => intro system any st; rfl
  | cons d ds ih =>
    intro system any st
    rw [List.cons_append, collect_modules, collect_modules]
    split
    · exact ih _ _ _
    · split
      · rfl
      · split
        · exact ih _ _ _
        · split
          · exact ih _ _ _
          · split
            · rfl
            · split
              · exact ih _ _ _
              · simp only []
                rcases hr : node_collect w fuel system _ (some d)
                  { st with modules_total := st.modules_total + 1 } with ⟨rc, s1, sub, st1⟩
                cases rc
                · exact ih _ _ _
                · rfl
                · rfl

/-- C4: first writer wins. In the enumeration `pre ++ d :: post` of the module
directory, let module `d` be the one whose merge brings a node into being at
the chain of names `ps` (the tree `t1` built from `pre` has none there). That
node carries the module: its `module_name` is `d`, its `module_path` is the
path of the entry inside `d/system`, its kind is read off the `lstat` of that
entry. The tree left by the whole enumeration has, at `ps`, a node with the
same name, kind, `module_path`, `module_name` and `replace` flag: no module
after `d` changes it. -/
theorem first_writer_wins (w : World) (fuel : Nat) (mdir d : String)
    (pre post : List String) (sys0 t1 : Node) (any0 a1 : Bool) (st0 s1 : MountStats)
    (ps : List String) (n : Node)
    (hpre : collect_modules w fuel mdir pre sys0 any0 st0 = (Rc.ok, t1, a1, s1))
    (habsent : lookup t1 ps = none)
    (hmade : lookup (collect_modules w fuel mdir [d] t1 a1 s1).2.1 ps = some n) :
    (n.module_name = some d ∧
      ∃ mod ms path s, w.path_join mdir d = some mod ∧ w.path_join mod "system" = some ms ∧
        join_all w ms ps = some path ∧ n.module_path = some path ∧
        w.lstat path = some s ∧ n.type = node_type_from_stat s) ∧
    ∃ n', lookup (collect_modules w fuel mdir (pre ++ d :: post) sys0 any0 st0).2.1 ps
        = some n' ∧ same_identity n n' := by
  constructor
  · obtain ⟨mod, ms, h1, h2, hf⟩ :=
      collect_modules_single_fresh w fuel mdir d t1 a1 s1 ps n habsent hmade
    obtain ⟨k1, path, s, k2, k3, k4, k5⟩ := hf ps n habsent hmade
    exact ⟨k1, mod, ms, path, s, h1, h2, k2, k3, k4, k5⟩
  · rw [collect_modules_append w fuel mdir (d :: post) pre sys0 any0 st0, hpre]
    simp only []
    have happ := collect_modules_append w fuel mdir post [d] t1 a1 s1
    simp only [List.singleton_append] at happ
    rw [happ]
    rcases hr : collect_modules w fuel mdir [d] t1 a1 s1 with ⟨rc, t2, a2, s2⟩
    rw [hr] at hmade
    simp only [] at hmade
    cases rc
    · exact collect_modules_keeps w fuel mdir post t2 a2 s2 ps n hmade
    · exact ⟨n, hmade, same_identity_refl n⟩
    · exact ⟨n, hmade, same_identity_refl n⟩

/-- C4 (witness): in `merge_world` module `A` ships `d/c` as a regular file and
module `B`, enumerated after it, ships `d/c` as a symlink; the node at `d/c`
after both is the one of `A`. -/
theorem first_writer_wins_witness :
    (collect_modules merge_world 8 "/m" [".", ".."] (node_new "system" NFT_DIRECTORY) false
      zero_stats = (Rc.ok, node_new "system" NFT_DIRECTORY, false, zero_stats)) ∧
    lookup (node_new "system" NFT_DIRECTORY) ["d", "c"] = none ∧
    lookup (collect_modules merge_world 8 "/m" ["A"] (node_new "system" NFT_DIRECTORY)
      false zero_stats).2.1 ["d", "c"]
      = some (module_leaf "c" NFT_REGULAR "/m/A/system/d/c" "A") ∧
    merge_world.lstat "/m/B/system/d/c" = some { mode := FileMode.lnk, rdev := 0 } ∧
    ∃ n', lookup (collect_modules merge_world 8 "/m" ([".", ".."] ++ "A" :: ["B"])
        (node_new "system" NFT_DIRECTORY) false zero_stats).2.1 ["d", "c"] = some n' ∧
      same_identity (module_leaf "c" NFT_REGULAR "/m/A/system/d/c" "A") n' :=
  ⟨rfl, rfl, rfl, rfl,
    (first_writer_wins merge_world 8 "/m" "A" [".", ".."] ["B"]
      (node_new "system" NFT_DIRECTORY) (node_new "system" NFT_DIRECTORY) false false
      zero_stats zero_stats ["d", "c"]
      (module_leaf "c" NFT_REGULAR "/m/A/system/d/c" "A") rfl rfl rfl).2⟩

/-- C7 (amended): when `node_collect` visits a module entry `d` whose name
already has a node `c` among the children of the current node, the existing
node is kept. If `c` is not a directory, nothing is read beneath the entry and
the tree is unchanged. If `c` is a directory, the visit does recurse into this
module's copy: the tree after the visit has, in the place of `c`, the result
of `node_collect` on `c` and the module's `dir/d`; every node that was beneath
`c` is still there with its name, kind, `module_path`, `module_name` and
`replace` flag, and every node new beneath `c` comes from this module. -/
theorem merge_rule_existing (w : World) (fuel : Nat) (dir d path : String)
    (mn : Option String) (self c : Node) (any : Bool) (st : MountStats)
    (hd : ¬ (d = "." ∨ d = "..")) (hj : w.path_join dir d = some path)
    (hc : node_find_child self d = some c) :
    (c.type ≠ NFT_DIRECTORY →
      collect_entries w (fun c p s => node_collect w fuel c p mn s) dir mn [d] self any st
        = (Rc.ok, self, true, st)) ∧
    (c.type = NFT_DIRECTORY →
      (collect_entries w (fun c p s => node_collect w fuel c p mn s) dir mn [d] self any
          st).2.1 = set_child self d (node_collect w fuel c path mn st).2.1 ∧
      Ext c (node_collect w fuel c path mn st).2.1 ∧
      Fresh w path mn c (node_collect w fuel c path mn st).2.1) := by
  constructor
  · intro ht
    rw [collect_entries_existing_leaf w _ dir d path mn [] self c any st hd hj hc ht]
    rfl
  · intro ht
    refine ⟨?_, (node_collect_keeps w mn fuel c path st).1,
      (node_collect_keeps w mn fuel c path st).2⟩
    rw [collect_entries_existing_dir w _ dir d path mn [] self c any st hd hj hc ht]
    rcases hr : node_collect w fuel c path mn st with ⟨rc, c1, sub, st1⟩
    cases rc <;> rfl

/-- C7 (witness): in `merge_world`, the visit of the entry `d` of module `B`
while the node `d` of module `A` exists keeps everything beneath that node. -/
theorem merge_rule_existing_witness :
    merge_world.path_join "/m/B/system" "d" = some "/m/B/system/d" ∧
    node_find_child merge_after_A "d" = some merge_d_node ∧
    merge_d_node.type = NFT_DIRECTORY ∧
    Ext merge_d_node
      (node_collect merge_world 7 merge_d_node "/m/B/system/d" (some "B") zero_stats).2.1 :=
  ⟨rfl, rfl, rfl,
    ((merge_rule_existing merge_world 7 "/m/B/system" "d" "/m/B/system/d" (some "B")
      merge_after_A merge_d_node false zero_stats (by decide) rfl rfl).2 rfl).2.1⟩

/-- C6 (amended): kind conflict between modules. When the node already in the
tree for an entry `d` is not a directory, the later module's entry, directory
or not, is dropped and collection goes on with the tree as it was. When the
node already in the tree is a directory and the later module's entry cannot be
opened as a directory (it is a regular file), `node_collect` returns -1 at
that entry with the tree as it was; a -1 from the recursive call on a
directory child makes the enclosing `node_collect` loop return -1; and once
the module loop has returned -1, `collect_root` returns `NULL`. -/
theorem kind_conflict (w : World) (fuel : Nat) (dir d path : String)
    (mn : Option String) (ds : List String) (self c : Node) (any : Bool) (st : MountStats)
    (hd : ¬ (d = "." ∨ d = "..")) (hj : w.path_join dir d = some path)
    (hc : node_find_child self d = some c) :
    (c.type ≠ NFT_DIRECTORY →
      collect_entries w (fun c p s => node_collect w fuel c p mn s) dir mn (d :: ds) self
          any st =
        collect_entries w (fun c p s => node_collect w fuel c p mn s) dir mn ds self true
          st) ∧
    (c.type = NFT_DIRECTORY → w.readdir path = none →
      collect_entries w (fun c p s => node_collect w (fuel + 1) c p mn s) dir mn (d :: ds)
          self any st = (Rc.err, self, any, st)) ∧
    (c.type = NFT_DIRECTORY →
      ∀ rec : Node → String → MountStats → Rc × Node × Bool × MountStats,
        (rec c path st).1 = Rc.err →
        (collect_entries w rec dir mn (d :: ds) self any st).1 = Rc.err) ∧
    (∀ (mdir : String) (extra_parts ents : List String) (st0 : MountStats),
      (collect_modules w fuel mdir ents (node_new "system" NFT_DIRECTORY) false st0).1
          = Rc.err →
        (collect_listing w fuel mdir extra_parts ents st0).1.is_null = true) := by
  refine ⟨?_, ?_, ?_, ?_⟩
  · intro ht
    exact collect_entries_existing_leaf w _ dir d path mn ds self c any st hd hj hc ht
  · intro ht hr
    rw [collect_entries_existing_dir w _ dir d path mn ds self c any st hd hj hc ht]
    simp only [node_collect, hr, set_child_self hc]
  · intro ht rec hrec
    rw [collect_entries_existing_dir w _ dir d path mn ds self c any st hd hj hc ht]
    rcases hr : rec c path st with ⟨rc, c1, sub, st1⟩
    rw [hr] at hrec
    simp only [] at hrec
    subst hrec
    rfl
  · intro mdir extra_parts ents st0 h
    unfold collect_listing
    simp only []
    rcases hr : collect_modules w fuel mdir ents (node_new "system" NFT_DIRECTORY) false st0
      with ⟨rc, s1, a1, st1⟩
    rw [hr] at h
    simp only [] at h
    subst h
    rfl

/-- C6 (witness): in `conflict_world`, the visit of the entry `x` of module `B`
(a regular file) while the node `x` of module `A` (a directory) exists
returns -1 and leaves the tree as it was. -/
theorem kind_conflict_witness :
    conflict_world.path_join "/m/B/system" "x" = some "/m/B/system/x" ∧
    node_find_child conflict_after_A "x" = some conflict_x_node ∧
    conflict_x_node.type = NFT_DIRECTORY ∧
    conflict_world.lstat "/m/B/system/x" = some reg_stat ∧
    conflict_world.readdir "/m/B/system/x" = none ∧
    collect_entries conflict_world
        (fun c p s => node_collect conflict_world (6 + 1) c p (some "B") s)
        "/m/B/system" (some "B") ["x"] conflict_after_A false zero_stats =
      (Rc.err, conflict_after_A, false, zero_stats) :=
  ⟨rfl, rfl, rfl, rfl, rfl,
    (kind_conflict conflict_world 6 "/m/B/system" "x" "/m/B/system/x" (some "B") []
      conflict_after_A conflict_x_node false zero_stats (by decide) rfl rfl).2.1 rfl rfl⟩

/-! ## Distinct names -/

theorem Uniq_of_children {n : Node} (h1 : (n.children.map Node.name).Nodup)
    (h2 : ∀ c ∈ n.children, Uniq c) : Uniq n := by
  intro ps m hl
  cases ps with
  | nil =>
    simp only [lookup_nil, Option.some.injEq] at hl
    subst hl
    exact h1
  | cons p ps =>
    cases hf : node_find_child n p with
    | none => rw [lookup_cons_none ps hf] at hl; cases hl
    | some c =>
      rw [lookup_cons_some ps hf] at hl
      exact h2 c (List.mem_of_find?_eq_some hf) ps m hl

theorem Uniq_names {n : Node} (h : Uniq n) : (n.children.map Node.name).Nodup :=
  h [] n rfl

theorem Uniq_child {n c : Node} {d : String} (h : Uniq n)
    (hf : node_find_child n d = some c) : Uniq c := by
  intro ps m hl
  exact h (d :: ps) m (by rw [lookup_cons_some ps hf]; exact hl)

theorem find_of_mem_nodup {n c : Node} (h : (n.children.map Node.name).Nodup)
    (hc : c ∈ n.children) : node_find_child n c.name = some c := by
  unfold node_find_child
  cases hf : n.children.find? (fun x => decide (x.name = c.name)) with
  | none =>
    have := List.find?_eq_none.1 hf c hc
    simp at this
  | some x =>
    have hx := List.mem_of_find?_eq_some hf
    have hn : x.name = c.name := by simpa using List.find?_some hf
    rw [List.inj_on_of_nodup_map h hx hc hn]

theorem Uniq_mem {n c : Node} (h : Uniq n) (hc : c ∈ n.children) : Uniq c :=
  Uniq_child h (find_of_mem_nodup (Uniq_names h) hc)

theorem names_set_child_list {d : String} {c c1 : Node} (hn : c1.name = c.name) :
    ∀ (l : List Node), l.find? (fun x => decide (x.name = d)) = some c →
      (set_child_list d c1 l).map Node.name = l.map Node.name
  | [], h => by simp at h
  | x :: xs, h => by
    by_cases hx : x.name = d
    · simp only [List.find?_cons, hx, decide_True, Option.some.injEq] at h
      subst h
      simp [set_child_list, hx, hn]
    · simp only [List.find?_cons, hx, decide_False] at h
      simp [set_child_list, hx, names_set_child_list hn xs h]

theorem mem_set_child_list {d : String} {c1 : Node} :
    ∀ (l : List Node) (x : Node), x ∈ set_child_list d c1 l → x = c1 ∨ x ∈ l
  | [], x, h => by simp [set_child_list] at h
  | y :: ys, x, h => by
    by_cases hy : y.name = d
    · simp only [set_child_list, hy, if_true, List.mem_cons] at h
      rcases h with h | h
      · exact Or.inl h
      · exact Or.inr (List.mem_cons_of_mem y h)
    · simp only [set_child_list, hy, if_false, List.mem_cons] at h
      rcases h with h | h
      · exact Or.inr (h ▸ List.mem_cons_self y ys)
      · rcases mem_set_child_list ys x h with h2 | h2
        · exact Or.inl h2
        · exact Or.inr (List.mem_cons_of_mem y h2)

theorem Uniq_set_child {self c c1 : Node} {d : String} (h : Uniq self)
    (hf : node_find_child self d = some c) (hn : c1.name = c.name) (h1 : Uniq c1) :
    Uniq (set_child self d c1) := by
  apply Uniq_of_children
  · show ((set_child_list d c1 self.children).map Node.name).Nodup
    rw [names_set_child_list hn self.children hf]
    exact Uniq_names h
  · intro x hx
    rcases mem_set_child_list self.children x hx with h2 | h2
    · rw [h2]; exact h1
    · exact Uniq_mem h h2

theorem Uniq_leaf {n : Node} (h : n.children = []) : Uniq n := by
  apply Uniq_of_children
  · rw [h]; exact List.nodup_nil
  · intro c hc; rw [h] at hc; cases hc

theorem Uniq_add_child {self n : Node} {d : String} (h : Uniq self)
    (hf : node_find_child self d = none) (hn : n.name = d) (hl : n.children = []) :
    Uniq (node_add_child self n) := by
  apply Uniq_of_children
  · show ((self.children ++ [n]).map Node.name).Nodup
    rw [List.map_append, List.nodup_append]
    refine ⟨Uniq_names h, by simp, ?_⟩
    intro a ha
    obtain ⟨x, hx, rfl⟩ := List.mem_map.1 ha
    have := List.find?_eq_none.1 hf x hx
    simp only [decide_eq_true_eq] at this
    simp only [List.map_cons, List.map_nil, List.mem_singleton] at *
    intro b
    exact this (b.trans hn)
  · intro x hx
    rcases List.mem_append.1 hx with h2 | h2
    · exact Uniq_mem h h2
    · simp only [List.mem_singleton] at h2
      rw [h2]; exact Uniq_leaf hl

theorem obtain_child_uniq {w : World} {self self0 : Node} {d path : String}
    {mn : Option String} {st st0 : MountStats} {oc : Option Node} (h : Uniq self)
    (ho : obtain_child w self d path mn st = (oc, self0, st0)) : Uniq self0 := by
  unfold obtain_child at ho
  cases hf : node_find_child self d with
  | some x =>
    simp only [hf, Prod.mk.injEq] at ho
    rw [← ho.2.1]; exact h
  | none =>
    simp only [hf] at ho
    rcases hn : node_new_module w d path mn st with ⟨onode, st1⟩
    cases onode with
    | none =>
      simp only [hn, Prod.mk.injEq] at ho
      rw [← ho.2.1]; exact h
    | some n =>
      simp only [hn, Prod.mk.injEq] at ho
      obtain ⟨n1, n2, _⟩ := node_new_module_spec hn
      rw [← ho.2.1]
      exact Uniq_add_child h hf n1 n2

theorem collect_entries_uniq (w : World)
    (rec : Node → String → MountStats → Rc × Node × Bool × MountStats)
    (dir : String) (mn : Option String)
    (hrec : ∀ c p s, (rec c p s).2.1.name = c.name ∧ (Uniq c → Uniq (rec c p s).2.1)) :
    ∀ (ents : List String) (self : Node) (any : Bool) (st : MountStats), Uniq self →
      Uniq (collect_entries w rec dir mn ents self any st).2.1 := by
  intro ents
  induction ents with
  | nil => intro self any st h; exact h
  | cons d ds ih =>
    intro self any st h
    rw [collect_entries]
    split
    · exact ih self any st h
    · cases hj : w.path_join dir d with
      | none => exact h
      | some path =>
        simp only []
        rcases ho : obtain_child w self d path mn st with ⟨oc, self0, st0⟩
        have h0 : Uniq self0 := obtain_child_uniq h ho
        cases oc with
        | none => exact ih self0 any st0 h0
        | some c =>
          obtain ⟨hfind, _, _⟩ := obtain_child_some hj ho
          simp only []
          split
          · have hc := hrec c path st0
            rcases hr : rec c path st0 with ⟨rc, c1, sub, st1⟩
            rw [hr] at hc
            simp only [] at hc
            have h1 : Uniq (set_child self0 d c1) :=
              Uniq_set_child h0 hfind hc.1 (hc.2 (Uniq_child h0 hfind))
            cases rc with
            | ok => exact ih _ _ _ h1
            | err => exact h1
            | fuel => exact h1
          · exact ih self0 true st0 h0

/-- `node_collect` keeps the names of the children of every node distinct. -/
theorem node_collect_uniq (w : World) (mn : Option String) :
    ∀ (fuel : Nat) (self : Node) (dir : String) (st : MountStats), Uniq self →
      Uniq (node_collect w fuel self dir mn st).2.1 := by
  intro fuel
  induction fuel with
  | zero => intro self dir st h; exact h
  | succ f ih =>
    intro self dir st h
    rw [node_collect]
    cases hr : w.readdir dir with
    | none => exact h
    | some ents =>
      refine collect_entries_uniq w _ dir mn (fun c p s => ⟨?_, ih c p s⟩) ents self false st h
      obtain ⟨n', hn', sid⟩ := (node_collect_keeps w mn f c p s).1 [] c rfl
      simp only [lookup_nil, Option.some.injEq] at hn'
      rw [hn']
      exact sid.1.symm

/-- The module loop of `collect_root` keeps the names of the children of every
node distinct. -/
theorem collect_modules_uniq (w : World) (fuel : Nat) (mdir : String) :
    ∀ (ents : List String) (system : Node) (any : Bool) (st : MountStats), Uniq system →
      Uniq (collect_modules w fuel mdir ents system any st).2.1 := by
  intro ents
  induction ents with
  | nil => intro system any st h; exact h
  | cons d ds ih =>
    intro system any st h
    rw [collect_modules]
    split
    · exact ih _ _ _ h
    · split
      · exact h
      · split
        · exact ih _ _ _ h
        · split
          · exact ih _ _ _ h
          · split
            · exact h
            · split
              · exact ih _ _ _ h
              · rename_i ms _ _
                simp only []
                have hk := node_collect_uniq w (some d) fuel system ms
                  { st with modules_total := st.modules_total + 1 } h
                split
                · rename_i heq
                  rw [heq] at hk
                  exact ih _ _ _ hk
                · rename_i heq
                  rw [heq] at hk
                  exact hk

theorem take_child_none {system system1 : Node} {name : String}
    (ht : node_take_child system name = (none, system1)) : system1 = system := by
  unfold node_take_child at ht
  split at ht
  · simp only [Prod.mk.injEq, true_and] at ht
    exact ht.symm
  · simp at ht

theorem take_child_inv {allowed : List String} {root system child system1 : Node}
    {name : String} (h : PromoteInv allowed root system)
    (ht : node_take_child system name = (some child, system1)) (ha : name ∈ allowed) :
    PromoteInv allowed (node_add_child root child) system1 := by
  obtain ⟨hu, hr, hn, hal⟩ := h
  unfold node_take_child at ht
  cases hf : system.children.find? (fun c => decide (c.name = name)) with
  | none => simp [hf] at ht
  | some n =>
    simp only [hf, Prod.mk.injEq, Option.some.injEq] at ht
    obtain ⟨h1, h2⟩ := ht
    subst h1
    have hmem : n ∈ system.children := List.mem_of_find?_eq_some hf
    have hname : n.name = name := by simpa using List.find?_some hf
    obtain ⟨a, l1, l2, hl1, hpa, hsplit, herase⟩ :=
      List.exists_of_eraseP (p := fun c => decide (c.name = name)) hmem
        (by simpa using hname)
    have han : a = n := by
      have : system.children.find? (fun c => decide (c.name = name)) = some a := by
        rw [hsplit, List.find?_append]
        have : List.find? (fun c => decide (c.name = name)) l1 = none :=
          List.find?_eq_none.2 (fun b hb => by simpa using hl1 b hb)
        simp only [this, Option.none_or, List.find?_cons]
        simp only [hpa]
      rw [hf] at this
      exact (Option.some.inj this).symm
    subst han
    have hsys1 : system1.children = l1 ++ l2 := by rw [← h2]; exact herase
    have hsub : ∀ x ∈ system1.children, x ∈ system.children := by
      intro x hx
      rw [hsys1] at hx
      rw [hsplit]
      rcases List.mem_append.1 hx with h3 | h3
      · exact List.mem_append_left _ h3
      · exact List.mem_append_right _ (List.mem_cons_of_mem _ h3)
    have hperm : ((root.children ++ [a]).map Node.name ++ (l1 ++ l2).map Node.name).Perm
        (root.children.map Node.name ++ (l1 ++ a :: l2).map Node.name) := by
      simp only [List.map_append, List.map_cons, List.map_nil, List.append_assoc]
      refine List.Perm.append_left _ ?_
      exact (@List.perm_middle String a.name (l1.map Node.name) (l2.map Node.name)).symm
    have hn2 : ((root.children ++ [a]).map Node.name ++ (l1 ++ l2).map Node.name).Nodup := by
      rw [hsplit] at hn
      exact hperm.nodup_iff.2 hn
    refine ⟨?_, ?_, ?_, ?_⟩
    · apply Uniq_of_children
      · rw [hsys1]
        exact List.Nodup.of_append_right hn2
      · intro x hx
        exact Uniq_mem hu (hsub x hx)
    · intro x hx
      rcases List.mem_append.1 hx with h3 | h3
      · exact hr x h3
      · simp only [List.mem_singleton] at h3
        rw [h3]
        exact Uniq_mem hu hmem
    · show ((root.children ++ [a]).map Node.name ++ system1.children.map Node.name).Nodup
      rw [hsys1]
      exact hn2
    · intro x hx
      rcases List.mem_append.1 hx with h3 | h3
      · exact hal x h3
      · simp only [List.mem_singleton] at h3
        rw [h3, hname]
        exact ha

theorem promote_builtin_inv (w : World) (allowed : List String) :
    ∀ (ps : List (String × Bool)) (root system r s : Node),
      (∀ q ∈ ps, q.1 ∈ allowed) → PromoteInv allowed root system →
      promote_builtin w ps root system = some (r, s) → PromoteInv allowed r s := by
  intro ps
  induction ps with
  | nil =>
    intro root system r s _ h hp
    simp only [promote_builtin, Option.some.injEq, Prod.mk.injEq] at hp
    rw [← hp.1, ← hp.2]; exact h
  | cons q qs ih =>
    intro root system r s hall h hp
    obtain ⟨name, need⟩ := q
    have hall' : ∀ q ∈ qs, q.1 ∈ allowed := fun q hq => hall q (List.mem_cons_of_mem _ hq)
    have hname : name ∈ allowed := hall (name, need) (List.mem_cons_self _ _)
    rw [promote_builtin] at hp
    split at hp
    · split at hp
      · exact ih _ _ _ _ hall' h hp
      · split at hp
        · exact ih _ _ _ _ hall' h hp
        · split at hp
          · rename_i child system1 heq
            exact ih _ _ _ _ hall' (take_child_inv h heq hname) hp
          · rename_i system1 heq
            rw [take_child_none heq] at hp
            exact ih _ _ _ _ hall' h hp
    · cases hp

theorem promote_extra_inv (w : World) (allowed : List String) :
    ∀ (ps : List String) (root system r s : Node),
      (∀ q ∈ ps, q ∈ allowed) → PromoteInv allowed root system →
      promote_extra w ps root system = some (r, s) → PromoteInv allowed r s := by
  intro ps
  induction ps with
  | nil =>
    intro root system r s _ h hp
    simp only [promote_extra, Option.some.injEq, Prod.mk.injEq] at hp
    rw [← hp.1, ← hp.2]; exact h
  | cons name qs ih =>
    intro root system r s hall h hp
    have hall' : ∀ q ∈ qs, q ∈ allowed := fun q hq => hall q (List.mem_cons_of_mem _ hq)
    have hname : name ∈ allowed := hall name (List.mem_cons_self _ _)
    rw [promote_extra] at hp
    split at hp
    · cases hp
    · split at hp
      · exact ih _ _ _ _ hall' h hp
      · split at hp
        · rename_i child system1 heq
          exact ih _ _ _ _ hall' (take_child_inv h heq hname) hp
        · rename_i system1 heq
          rw [take_child_none heq] at hp
          exact ih _ _ _ _ hall' h hp

theorem promote_builtin_system_name (w : World) :
    ∀ (ps : List (String × Bool)) (root system r s : Node),
      promote_builtin w ps root system = some (r, s) →
      r.name = root.name ∧ r.type = root.type ∧ s.name = system.name := by
  intro ps
  induction ps with
  | nil =>
    intro root system r s hp
    simp only [promote_builtin, Option.some.injEq, Prod.mk.injEq] at hp
    rw [← hp.1, ← hp.2]; exact ⟨rfl, rfl, rfl⟩
  | cons q qs ih =>
    intro root system r s hp
    obtain ⟨name, need⟩ := q
    rw [promote_builtin] at hp
    split at hp
    · split at hp
      · exact ih _ _ _ _ hp
      · split at hp
        · exact ih _ _ _ _ hp
        · split at hp
          · rename_i child system1 heq
            have := ih _ _ _ _ hp
            unfold node_take_child at heq
            split at heq
            · simp at heq
            · simp only [Prod.mk.injEq] at heq
              rw [← heq.2] at this
              exact this
          · rename_i system1 heq
            rw [take_child_none heq] at hp
            exact ih _ _ _ _ hp
    · cases hp

theorem promote_extra_system_name (w : World) :
    ∀ (ps : List String) (root system r s : Node),
      promote_extra w ps root system = some (r, s) →
      r.name = root.name ∧ r.type = root.type ∧ s.name = system.name := by
  intro ps
  induction ps with
  | nil =>
    intro root system r s hp
    simp only [promote_extra, Option.some.injEq, Prod.mk.injEq] at hp
    rw [← hp.1, ← hp.2]; exact ⟨rfl, rfl, rfl⟩
  | cons name qs ih =>
    intro root system r s hp
    rw [promote_extra] at hp
    split at hp
    · cases hp
    · split at hp
      · exact ih _ _ _ _ hp
      · split at hp
        · rename_i child system1 heq
          have := ih _ _ _ _ hp
          unfold node_take_child at heq
          split at heq
          · simp at heq
          · simp only [Prod.mk.injEq] at heq
            rw [← heq.2] at this
            exact this
        · rename_i system1 heq
          rw [take_child_none heq] at hp
          exact ih _ _ _ _ hp

/-- When `system` is not among the extra partitions, every tree that
`collect_root` returns has distinct names among the children of each node;
its root has the empty name and kind `Directory`, and exactly one child of
the root is named `system`. -/
theorem collected_tree_unique (w : World) (fuel : Nat) (mdir : String)
    (extra_parts ents : List String) (st : MountStats) (root : Node)
    (hx : "system" ∉ extra_parts)
    (h : (collect_listing w fuel mdir extra_parts ents st).1.root? = some root) :
    Uniq root ∧ root.name = "" ∧ root.type = NFT_DIRECTORY ∧
    (root.children.filter (fun c => decide (c.name = "system"))).length = 1 := by
  unfold collect_listing at h
  simp only [] at h
  have hsys0 : Uniq (node_new "system" NFT_DIRECTORY) := Uniq_leaf rfl
  have hu := collect_modules_uniq w fuel mdir ents (node_new "system" NFT_DIRECTORY) false st
    hsys0
  rcases hc : collect_modules w fuel mdir ents (node_new "system" NFT_DIRECTORY) false st
    with ⟨rc, system1, has_any, st1⟩
  rw [hc] at h hu
  simp only [] at hu
  have hs1name : system1.name = "system" := by
    obtain ⟨n', hn', sid⟩ := collect_modules_keeps w fuel mdir ents
      (node_new "system" NFT_DIRECTORY) false st [] _ rfl
    rw [hc] at hn'
    simp only [lookup_nil, Option.some.injEq] at hn'
    rw [hn']
    exact sid.1.symm
  cases rc
  · simp only [] at h
    split at h
    · cases h
    · let allowed := builtin_parts.map Prod.fst ++ extra_parts
      have hinv0 : PromoteInv allowed (node_new "" NFT_DIRECTORY) system1 :=
        ⟨hu, fun c hc => (by cases hc), (by simpa [node_new] using Uniq_names hu),
          fun c hc => (by cases hc)⟩
      cases hb : promote_builtin w builtin_parts (node_new "" NFT_DIRECTORY) system1 with
      | none => simp [hb, Collected.root?] at h
      | some p1 =>
        obtain ⟨root1, system2⟩ := p1
        simp only [hb] at h
        have hinv1 := promote_builtin_inv w allowed builtin_parts _ _ _ _
          (fun q hq => List.mem_append_left _ (List.mem_map.2 ⟨q, hq, rfl⟩)) hinv0 hb
        have hnm1 := promote_builtin_system_name w builtin_parts _ _ _ _ hb
        cases he : promote_extra w extra_parts root1 system2 with
        | none => simp [he, Collected.root?] at h
        | some p2 =>
          obtain ⟨root2, system3⟩ := p2
          simp only [he, Collected.root?, Option.some.injEq] at h
          have hinv2 := promote_extra_inv w allowed extra_parts _ _ _ _
            (fun q hq => List.mem_append_right _ hq) hinv1 he
          have hnm2 := promote_extra_system_name w extra_parts _ _ _ _ he
          obtain ⟨hu3, hr3, hn3, hal3⟩ := hinv2
          have hs3name : system3.name = "system" :=
            hnm2.2.2.trans (hnm1.2.2.trans hs1name)
          have hnot : ∀ c ∈ root2.children, c.name ≠ "system" := by
            intro c hc heq
            have := hal3 c hc
            rw [heq] at this
            rcases List.mem_append.1 this with h1 | h1
            · revert h1; decide
            · exact hx h1
          subst h
          refine ⟨?_, ?_, ?_, ?_⟩
          · apply Uniq_of_children
            · show ((root2.children ++ [system3]).map Node.name).Nodup
              rw [List.map_append, List.nodup_append]
              refine ⟨List.Nodup.of_append_left hn3, by simp, ?_⟩
              intro a ha1 hb1
              obtain ⟨c, hc1, rfl⟩ := List.mem_map.1 ha1
              simp only [List.map_cons, List.map_nil, List.mem_singleton] at hb1
              exact hnot c hc1 (hb1.trans hs3name)
            · intro c hc1
              rcases List.mem_append.1 hc1 with h1 | h1
              · exact hr3 c h1
              · simp only [List.mem_singleton] at h1
                rw [h1]; exact hu3
          · exact hnm2.1.trans hnm1.1
          · exact hnm2.2.1.trans hnm1.2.1
          · show ((root2.children ++ [system3]).filter
                (fun c => decide (c.name = "system"))).length = 1
            rw [List.filter_append]
            have : root2.children.filter (fun c => decide (c.name = "system")) = [] :=
              List.filter_eq_nil_iff.2 (fun c hc1 => by simpa using hnot c hc1)
            rw [this]
            simp [hs3name]
  · simp [Collected.root?] at h
  · simp [Collected.root?] at h

/-! ## Traces of the executor -/

theorem Emits_refl (P : Ev → Prop) (st : MState) : Emits P st st :=
  ⟨[], by simp, by simp⟩

theorem Emits_trans {P : Ev → Prop} {a b c : MState} (h1 : Emits P a b)
    (h2 : Emits P b c) : Emits P a c := by
  obtain ⟨e1, t1, p1⟩ := h1
  obtain ⟨e2, t2, p2⟩ := h2
  refine ⟨e1 ++ e2, by rw [t2, t1, List.append_assoc], ?_⟩
  intro e he
  rcases List.mem_append.1 he with h | h
  · exact p1 e h
  · exact p2 e h

theorem Emits_mono {P Q : Ev → Prop} {a b : MState} (h : ∀ e, P e → Q e)
    (h1 : Emits P a b) : Emits Q a b := by
  obtain ⟨e1, t1, p1⟩ := h1
  exact ⟨e1, t1, fun e he => h e (p1 e he)⟩

theorem Emits_same_trace {P : Ev → Prop} {a b c : MState} (h1 : Emits P a b)
    (h : c.trace = b.trace) : Emits P a c := by
  obtain ⟨e1, t1, p1⟩ := h1
  exact ⟨e1, h.trans t1, p1⟩

theorem Emits_emit {P : Ev → Prop} {a b : MState} {who : List String} {op : Op}
    {ok : Bool} (h1 : Emits P a b) (h : P { who := who, op := op, ok := ok }) :
    Emits P a (emit b who op ok) := by
  obtain ⟨e1, t1, p1⟩ := h1
  refine ⟨e1 ++ [{ who := who, op := op, ok := ok }], ?_, ?_⟩
  · simp [emit, t1]
  · intro e he
    rcases List.mem_append.1 he with h2 | h2
    · exact p1 e h2
    · simp only [List.mem_singleton] at h2
      subst h2
      exact h

theorem Emits_sys_eq {P : Ev → Prop} {w : World} {a b c : MState} {who : List String}
    {op : Op} {ok : Bool} (heq : sys w b who op = (ok, c))
    (h : ∀ o, P { who := who, op := op, ok := o }) (h1 : Emits P a b) : Emits P a c := by
  unfold sys at heq
  simp only [Prod.mk.injEq] at heq
  rw [← heq.2]
  exact Emits_emit h1 (h _)

theorem Emits_clone_eq {P : Ev → Prop} {w : World} {a b c : MState} {who : List String}
    {src dst : String} {ok : Bool} (heq : clone_symlink w b who src dst = (ok, c))
    (h : ∀ o, P { who := who, op := Op.clone_symlink src dst, ok := o })
    (h1 : Emits P a b) : Emits P a c :=
  Emits_sys_eq heq h h1

theorem Emits_bump_mounted {P : Ev → Prop} {a b : MState} (h1 : Emits P a b) :
    Emits P a (bump_mounted b) :=
  Emits_same_trace h1 rfl

theorem Emits_bump_whiteout {P : Ev → Prop} {a b : MState} (h1 : Emits P a b) :
    Emits P a (bump_whiteout b) :=
  Emits_same_trace h1 rfl

theorem Emits_fail_child {P : Ev → Prop} {a b : MState} (x y : Option String)
    (h1 : Emits P a b) : Emits P a (fail_child b x y) :=
  Emits_same_trace h1 rfl

theorem Emits_set_failed {P : Ev → Prop} {a b : MState} (f : List String)
    (h1 : Emits P a b) : Emits P a { b with failed := f } :=
  Emits_same_trace h1 rfl

theorem Emits_set_stats {P : Ev → Prop} {a b : MState} (f : MountStats)
    (h1 : Emits P a b) : Emits P a { b with stats := f } :=
  Emits_same_trace h1 rfl

theorem magic_regular_emits (P : Ev → Prop) (w : World) (me : List String)
    (path wbase wpath : String) (node : Node) (has_tmpfs : Bool) (st : MState)
    (hme : ∀ op ok, P { who := me, op := op, ok := ok }) :
    Emits P st (magic_regular w me path wbase wpath node has_tmpfs st).2 := by
  unfold magic_regular
  simp only []
  repeat' split
  all_goals
    repeat (first
      | exact Emits_refl _ _
      | with_reducible apply Emits_bump_mounted
      | with_reducible refine Emits_emit ?_ (hme _ _)
      | refine Emits_sys_eq (by assumption) (fun o => hme _ o) ?_)

theorem magic_symlink_emits (P : Ev → Prop) (w : World) (me : List String)
    (wpath : String) (node : Node) (st : MState)
    (hme : ∀ op ok, P { who := me, op := op, ok := ok }) :
    Emits P st (magic_symlink w me wpath node st).2 := by
  unfold magic_symlink
  repeat' split
  all_goals
    repeat (first
      | exact Emits_refl _ _
      | with_reducible apply Emits_bump_mounted
      | with_reducible refine Emits_emit ?_ (hme _ _)
      | refine Emits_clone_eq (by assumption) (fun o => hme _ o) ?_)

theorem prepare_tmp_emits (P : Ev → Prop) (w : World) (me : List String)
    (path wpath : String) (node : Node) (st : MState)
    (hme : ∀ op ok, P { who := me, op := op, ok := ok }) :
    Emits P st (prepare_tmp w me path wpath node st).2 := by
  unfold prepare_tmp
  repeat' split
  all_goals
    repeat (first
      | exact Emits_refl _ _
      | with_reducible refine Emits_emit ?_ (hme _ _)
      | refine Emits_sys_eq (by assumption) (fun o => hme _ o) ?_)

theorem finish_directory_emits (P : Ev → Prop) (w : World) (me : List String)
    (path wpath : String) (node : Node) (create_tmp : Bool) (st : MState)
    (hme : ∀ op ok, P { who := me, op := op, ok := ok }) :
    Emits P st (finish_directory w me path wpath node create_tmp st).2.2 := by
  unfold finish_directory
  split <;> (try simp only [])
  all_goals repeat' split
  all_goals
    repeat (first
      | exact Emits_refl _ _
      | with_reducible apply Emits_bump_mounted
      | with_reducible refine Emits_emit ?_ (hme _ _)
      | refine Emits_sys_eq (by assumption) (fun o => hme _ o) ?_
      | (refine Emits_set_failed _ ?_
         refine Emits_sys_eq (by assumption) (fun o => hme _ o) ?_))

theorem finish_directory_node (w : World) (me : List String)
    (path wpath : String) (node : Node) (create_tmp : Bool) (st : MState) :
    (finish_directory w me path wpath node create_tmp st).2.1 = node := by
  unfold finish_directory
  split
  · simp only []
    split <;> rfl
  · rfl

theorem mirror_entries_emits (P : Ev → Prop) (mir : String → MState → Rc × MState)
    (hmir : ∀ d s, Emits P s (mir d s).2) :
    ∀ (ents : List String) (st : MState), Emits P st (mirror_entries mir ents st).2
  | [], st => Emits_refl _ _
  | d :: ds, st => by
    rw [mirror_entries]
    split
    · exact mirror_entries_emits P mir hmir ds st
    · have h := hmir d st
      rcases hr : mir d st with ⟨rc, st1⟩
      rw [hr] at h
      cases rc
      · exact Emits_trans h (mirror_entries_emits P mir hmir ds st1)
      · exact h
      · exact h

theorem prefix_append_singleton {who : List String} {n : String} {l : List String}
    (h : (who ++ [n]) <+: l) : who <+: l :=
  List.IsPrefix.trans (List.prefix_append who [n]) h

/-- Every event of a call of `mirror` is tagged at or beneath the entry it was
called for. -/
theorem mirror_tagged (w : World) :
    ∀ (fuel : Nat) (who : List String) (path work name : String) (st : MState),
      Emits (fun e => (who ++ [name]) <+: e.who) st (mirror w fuel who path work name st).2 := by
  intro fuel
  induction fuel with
  | zero => intro who path work name st; exact Emits_refl _ _
  | succ f ih =>
    intro who path work name st
    have hme : ∀ (op : Op) (ok : Bool),
        (fun e : Ev => (who ++ [name]) <+: e.who) { who := who ++ [name], op := op, ok := ok } :=
      fun _ _ => List.prefix_refl _
    rw [mirror]
    split
    · rename_i src dst _ _
      simp only []
      split
      · exact Emits_emit (Emits_refl _ _) (hme _ _)
      · split
        · repeat' split
          all_goals
            repeat (first
              | exact Emits_refl _ _
              | with_reducible refine Emits_emit ?_ (hme _ _)
              | refine Emits_sys_eq (by assumption) (fun o => hme _ o) ?_)
        · split
          · split
            · repeat (first
                | exact Emits_refl _ _
                | with_reducible refine Emits_emit ?_ (hme _ _)
                | refine Emits_sys_eq (by assumption) (fun o => hme _ o) ?_)
            · rename_i st1 hs
              have h1 : Emits (fun e => (who ++ [name]) <+: e.who) st
                  (emit st1 (who ++ [name]) (Op.set_meta dst src) true) := by
                repeat (first
                  | exact Emits_refl _ _
                  | with_reducible refine Emits_emit ?_ (hme _ _)
                  | refine Emits_sys_eq (by assumption) (fun o => hme _ o) ?_)
              split
              · exact h1
              · refine Emits_trans h1 (mirror_entries_emits _ _ ?_ _ _)
                intro d s
                exact Emits_mono (fun e he => prefix_append_singleton he)
                  (ih (who ++ [name]) src dst d s)
          · split
            · repeat' split
              all_goals
                repeat (first
                  | exact Emits_refl _ _
                  | with_reducible refine Emits_emit ?_ (hme _ _)
                  | refine Emits_clone_eq (by assumption) (fun o => hme _ o) ?_)
            · exact Emits_emit (Emits_refl _ _) (hme _ _)
    · exact Emits_refl _ _

theorem sig_set_child_list {d : String} {c c1 : Node} (hn : c1.name = c.name)
    (ht : c1.type = c.type) :
    ∀ (l : List Node), l.find? (fun x => decide (x.name = d)) = some c →
      sig (set_child_list d c1 l) = sig l
  | [], h => by simp at h
  | x :: xs, h => by
    by_cases hx : x.name = d
    · simp only [List.find?_cons, hx, decide_True, Option.some.injEq] at h
      subst h
      simp [set_child_list, hx, sig, hn, ht]
    · simp only [List.find?_cons, hx, decide_False] at h
      have := sig_set_child_list hn ht xs h
      simp only [sig] at this ⊢
      simp [set_child_list, hx, this]

theorem mem_sig_of_find {l : List Node} {d : String} {c : Node}
    (h : l.find? (fun x => decide (x.name = d)) = some c) : (c.name, c.type) ∈ sig l := by
  have := List.mem_of_find?_eq_some h
  exact List.mem_map.2 ⟨c, this, rfl⟩

theorem sig_no_name_of_find_none {l : List Node} {d : String}
    (h : l.find? (fun x => decide (x.name = d)) = none) : ∀ p ∈ sig l, p.1 ≠ d := by
  intro p hp
  obtain ⟨x, hx, rfl⟩ := List.mem_map.1 hp
  have := List.find?_eq_none.1 h x hx
  simpa using this

/-- The live-side enumeration keeps the names and kinds of the children; its
events are those of `rec` on children and of `mir` on names no child bears. -/
theorem live_entries_emits (P : Ev → Prop) (rec : Node → MState → Rc × Node × MState)
    (mir : String → MState → Rc × MState) (now_tmp : Bool)
    (S : List (String × NodeFileType))
    (hid : ∀ x s, (rec x s).2.1.name = x.name ∧ (rec x s).2.1.type = x.type)
    (hrec : ∀ x s, (x.name, x.type) ∈ S → Emits P s (rec x s).2.2)
    (hmir : ∀ d s, (∀ p ∈ S, p.1 ≠ d) → Emits P s (mir d s).2) :
    ∀ (ents : List String) (node : Node) (st : MState), sig node.children = S →
      Emits P st (live_entries rec mir now_tmp ents node st).2.2 ∧
      same_identity node (live_entries rec mir now_tmp ents node st).2.1 ∧
      sig (live_entries rec mir now_tmp ents node st).2.1.children = S := by
  intro ents
  induction ents with
  | nil => intro node st hS; exact ⟨Emits_refl _ _, same_identity_refl _, hS⟩
  | cons d ds ih =>
    intro node st hS
    rw [live_entries]
    split
    · exact ih node st hS
    · cases hf : node_find_child node d with
      | none =>
        simp only []
        split
        · have hm := hmir d st (hS ▸ sig_no_name_of_find_none hf)
          rcases hr : mir d st with ⟨rc, st1⟩
          rw [hr] at hm
          cases rc
          · obtain ⟨a, b, c⟩ := ih node st1 hS
            exact ⟨Emits_trans hm a, b, c⟩
          · exact ⟨Emits_fail_child _ _ hm, same_identity_refl _, hS⟩
          · exact ⟨hm, same_identity_refl _, hS⟩
        · exact ih node st hS
      | some c =>
        simp only []
        have hcS : (c.name, c.type) ∈ S := hS ▸ mem_sig_of_find hf
        split
        · have hS1 : sig (set_child node d { c with done := true }).children = S := by
            rw [← hS]
            exact @sig_set_child_list d c { c with done := true } rfl rfl node.children hf
          obtain ⟨a, b, c2⟩ := ih (set_child node d { c with done := true }) st hS1
          exact ⟨a, same_identity_trans (same_identity_set_child _ _ _) b, c2⟩
        · have hi := hid { c with done := true } st
          have he := hrec { c with done := true } st hcS
          rcases hr : rec { c with done := true } st with ⟨rc, c1, st1⟩
          rw [hr] at hi he
          simp only [] at hi he
          have hS1 : sig (set_child node d c1).children = S := by
            rw [← hS]
            exact sig_set_child_list hi.1 hi.2 node.children hf
          cases rc
          · obtain ⟨a, b, c2⟩ := ih (set_child node d c1) st1 hS1
            exact ⟨Emits_trans he a, same_identity_trans (same_identity_set_child _ _ _) b, c2⟩
          · simp only []
            split
            · exact ⟨Emits_fail_child _ _ he, same_identity_set_child _ _ _, hS1⟩
            · obtain ⟨a, b, c2⟩ := ih (set_child node d c1)
                (fail_child st1 c1.module_name node.module_name) hS1
              exact ⟨Emits_trans (Emits_fail_child _ _ he) a,
                same_identity_trans (same_identity_set_child _ _ _) b, c2⟩
          · exact ⟨he, same_identity_set_child _ _ _, hS1⟩

/-- The pass over the remaining children keeps their names and kinds; its
events are those of `rec` on children. -/
theorem rest_children_emits (P : Ev → Prop) (rec : Node → MState → Rc × Node × MState)
    (now_tmp : Bool) (pmn : Option String) (S : List (String × NodeFileType))
    (hid : ∀ x s, (rec x s).2.1.name = x.name ∧ (rec x s).2.1.type = x.type)
    (hrec : ∀ x s, (x.name, x.type) ∈ S → Emits P s (rec x s).2.2) :
    ∀ (cs : List Node) (st : MState), (∀ x ∈ cs, (x.name, x.type) ∈ S) →
      Emits P st (rest_children rec now_tmp pmn cs st).2.2 ∧
      sig (rest_children rec now_tmp pmn cs st).2.1 = sig cs := by
  intro cs
  induction cs with
  | nil => intro st _; exact ⟨Emits_refl _ _, rfl⟩
  | cons c cs ih =>
    intro st hS
    have hS' : ∀ x ∈ cs, (x.name, x.type) ∈ S := fun x hx => hS x (List.mem_cons_of_mem c hx)
    rw [rest_children]
    split
    · obtain ⟨a, b⟩ := ih st hS'
      exact ⟨a, by simp only [sig, List.map_cons] at b ⊢; rw [b]⟩
    · have hi := hid c st
      have he := hrec c st (hS c (List.mem_cons_self c cs))
      rcases hr : rec c st with ⟨rc, c1, st1⟩
      rw [hr] at hi he
      simp only [] at hi he
      cases rc
      · obtain ⟨a, b⟩ := ih st1 hS'
        exact ⟨Emits_trans he a, by simp only [sig, List.map_cons] at b ⊢; rw [b, hi.1, hi.2]⟩
      · simp only []
        split
        · exact ⟨Emits_fail_child _ _ he, by simp only [sig, List.map_cons]; rw [hi.1, hi.2]⟩
        · obtain ⟨a, b⟩ := ih (fail_child st1 c1.module_name pmn) hS'
          exact ⟨Emits_trans (Emits_fail_child _ _ he) a,
            by simp only [sig, List.map_cons] at b ⊢; rw [b, hi.1, hi.2]⟩
      · exact ⟨he, by simp only [sig, List.map_cons]; rw [hi.1, hi.2]⟩

theorem scan_children_sig (w : World) (path : String) (hmp : Bool) :
    ∀ (cs : List Node) (st : MountStats),
      sig (scan_children w path hmp cs st).2.2.1 = sig cs := by
  intro cs
  induction cs with
  | nil => intro st; rfl
  | cons c cs ih =>
    intro st
    rw [scan_children]
    split
    · rfl
    · split
      · split
        · have := ih { st with nodes_skipped := st.nodes_skipped + 1 }
          simp only [sig, List.map_cons] at this ⊢
          rw [this]
        · rfl
      · have := ih st
        simp only [sig, List.map_cons] at this ⊢
        rw [this]

theorem decide_tmp_sig (w : World) (path : String) (node : Node) (has_tmpfs : Bool)
    (stats : MountStats) :
    sig (decide_tmp w path node has_tmpfs stats).2.2.1 = sig node.children := by
  unfold decide_tmp
  simp only []
  split
  · exact scan_children_sig w path _ node.children stats
  · rfl

theorem second_pass_emits (P : Ev → Prop) (w : World)
    (rec : Node → Bool → MState → Rc × Node × MState) (me : List String)
    (path wpath : String) (create_tmp now_tmp : Bool) (S : List (String × NodeFileType))
    (hme : ∀ op ok, P { who := me, op := op, ok := ok })
    (hid : ∀ x b s, (rec x b s).2.1.name = x.name ∧ (rec x b s).2.1.type = x.type)
    (hrec : ∀ x s, (x.name, x.type) ∈ S → Emits P s (rec x now_tmp s).2.2)
    (node : Node) (st : MState) (hS : sig node.children = S) :
    Emits P st (second_pass w rec me path wpath node create_tmp now_tmp st).2.2 := by
  unfold second_pass
  have h := (rest_children_emits P (fun c s => rec c now_tmp s) now_tmp node.module_name S
    (fun x s => hid x now_tmp s) hrec node.children st
    (fun x hx => hS ▸ List.mem_map.2 ⟨x, hx, rfl⟩)).1
  rcases hr : rest_children (fun c s => rec c now_tmp s) now_tmp node.module_name
    node.children st with ⟨rc, cs, st1⟩
  rw [hr] at h
  cases rc
  · exact Emits_trans h (finish_directory_emits P w me path wpath _ create_tmp st1 hme)
  · exact h
  · exact h

theorem directory_passes_emits (P : Ev → Prop) (w : World)
    (rec : Node → Bool → MState → Rc × Node × MState)
    (mir : String → MState → Rc × MState) (me : List String)
    (path wpath : String) (create_tmp now_tmp : Bool) (S : List (String × NodeFileType))
    (hme : ∀ op ok, P { who := me, op := op, ok := ok })
    (hid : ∀ x b s, (rec x b s).2.1.name = x.name ∧ (rec x b s).2.1.type = x.type)
    (hrec : ∀ x s, (x.name, x.type) ∈ S → Emits P s (rec x now_tmp s).2.2)
    (hmir : ∀ d s, (∀ p ∈ S, p.1 ≠ d) → Emits P s (mir d s).2)
    (node : Node) (st : MState) (hS : sig node.children = S) :
    Emits P st (directory_passes w rec mir me path wpath node create_tmp now_tmp st).2.2 := by
  have hsec := second_pass_emits P w rec me path wpath create_tmp now_tmp S hme hid hrec
  unfold directory_passes
  split
  · split
    · split
      · exact Emits_refl _ _
      · exact hsec node st hS
    · rename_i ents _
      obtain ⟨a, _, c⟩ := live_entries_emits P (fun c s => rec c now_tmp s) mir now_tmp S
        (fun x s => hid x now_tmp s) hrec hmir ents node st hS
      rcases hr : live_entries (fun c s => rec c now_tmp s) mir now_tmp ents node st
        with ⟨rc, node1, st1⟩
      rw [hr] at a c
      cases rc
      · exact Emits_trans a (hsec node1 st1 c)
      · exact a
      · exact a
  · exact hsec node st hS

/-- The events of the directory case of `do_magic` satisfy `P` when the events
tagged with the directory itself do, those of `do_magic` on each child do (for
the `now_tmp` that `decide_tmp` yields, as constrained by `B`), and those of
`mirror` on each name that no child bears do. -/
theorem magic_directory_emits (P : Ev → Prop) (w : World)
    (rec : Node → Bool → MState → Rc × Node × MState)
    (mir : String → MState → Rc × MState) (me : List String)
    (path wpath : String) (node : Node) (has_tmpfs : Bool) (st : MState)
    (B : Bool → Prop)
    (hme : ∀ op ok, P { who := me, op := op, ok := ok })
    (hid : ∀ x b s, (rec x b s).2.1.name = x.name ∧ (rec x b s).2.1.type = x.type)
    (hB : ∀ ct cs s1, decide_tmp w path node has_tmpfs st.stats = (Rc.ok, ct, cs, s1) →
      B (has_tmpfs || ct))
    (hrec : ∀ x b s, (x.name, x.type) ∈ sig node.children → B b →
      Emits P s (rec x b s).2.2)
    (hmir : ∀ d s, (∀ p ∈ sig node.children, p.1 ≠ d) → Emits P s (mir d s).2) :
    Emits P st (magic_directory w rec mir me path wpath node has_tmpfs st).2.2 := by
  unfold magic_directory
  have hsig := decide_tmp_sig w path node has_tmpfs st.stats
  rcases hd : decide_tmp w path node has_tmpfs st.stats with ⟨rc, ct, cs, s1⟩
  rw [hd] at hsig
  simp only [] at hsig
  cases rc
  · simp only []
    have hb := hB ct cs s1 hd
    have hpass : ∀ s, Emits P s (directory_passes w rec mir me path wpath
        { node with children := cs } ct (has_tmpfs || ct) s).2.2 := fun s =>
      directory_passes_emits P w rec mir me path wpath ct (has_tmpfs || ct)
        (sig node.children) hme hid (fun x s hx => hrec x _ s hx hb) hmir _ s hsig
    have h0 : Emits P st { st with stats := s1 } := Emits_set_stats _ (Emits_refl _ _)
    have hprep : Emits P st
        (if (has_tmpfs || ct) = true then
          prepare_tmp w me path wpath { node with children := cs } { st with stats := s1 }
        else (Rc.ok, { st with stats := s1 })).2 := by
      split
      · exact Emits_trans h0 (prepare_tmp_emits P w me path wpath _ _ hme)
      · exact h0
    rcases hp : (if (has_tmpfs || ct) = true then
          prepare_tmp w me path wpath { node with children := cs } { st with stats := s1 }
        else (Rc.ok, { st with stats := s1 })) with ⟨rc2, st2⟩
    rw [hp] at hprep
    cases rc2
    · simp only []
      split
      · rename_i st3 hbnd
        split at hbnd
        · exact Emits_sys_eq hbnd (fun o => hme _ o) hprep
        · cases hbnd
      · rename_i st3 hbnd
        split at hbnd
        · exact Emits_trans (Emits_sys_eq hbnd (fun o => hme _ o) hprep) (hpass st3)
        · simp only [Prod.mk.injEq, true_and] at hbnd
          subst hbnd
          exact Emits_trans hprep (hpass _)
    · exact hprep
    · exact hprep
  · exact Emits_set_stats _ (Emits_refl _ _)
  · exact Emits_set_stats _ (Emits_refl _ _)

theorem live_entries_identity (rec : Node → MState → Rc × Node × MState)
    (mir : String → MState → Rc × MState) (now_tmp : Bool) :
    ∀ (ents : List String) (node : Node) (st : MState),
      same_identity node (live_entries rec mir now_tmp ents node st).2.1 := by
  intro ents
  induction ents with
  | nil => intro node st; exact same_identity_refl _
  | cons d ds ih =>
    intro node st
    rw [live_entries]
    repeat' split
    all_goals
      first
        | exact ih _ _
        | exact same_identity_refl _
        | exact same_identity_set_child _ _ _
        | exact same_identity_trans (same_identity_set_child _ _ _) (ih _ _)

theorem second_pass_identity (w : World)
    (rec : Node → Bool → MState → Rc × Node × MState) (me : List String)
    (path wpath : String) (node : Node) (create_tmp now_tmp : Bool) (st : MState) :
    same_identity node (second_pass w rec me path wpath node create_tmp now_tmp st).2.1 := by
  unfold second_pass
  split
  · rw [finish_directory_node]
    exact ⟨rfl, rfl, rfl, rfl, rfl⟩
  · exact ⟨rfl, rfl, rfl, rfl, rfl⟩

theorem directory_passes_identity (w : World)
    (rec : Node → Bool → MState → Rc × Node × MState)
    (mir : String → MState → Rc × MState) (me : List String)
    (path wpath : String) (node : Node) (create_tmp now_tmp : Bool) (st : MState) :
    same_identity node
      (directory_passes w rec mir me path wpath node create_tmp now_tmp st).2.1 := by
  unfold directory_passes
  split
  · split
    · split
      · exact same_identity_refl _
      · exact second_pass_identity _ _ _ _ _ _ _ _ _
    · rename_i ents _
      have h := live_entries_identity (fun c s => rec c now_tmp s) mir now_tmp ents node st
      split
      · rename_i node1 st1 heq
        rw [heq] at h
        exact same_identity_trans h (second_pass_identity _ _ _ _ _ _ _ _ _)
      · rename_i rc node1 st1 _ heq
        rw [heq] at h
        exact h
  · exact second_pass_identity _ _ _ _ _ _ _ _ _

theorem magic_directory_identity (w : World)
    (rec : Node → Bool → MState → Rc × Node × MState)
    (mir : String → MState → Rc × MState) (me : List String)
    (path wpath : String) (node : Node) (has_tmpfs : Bool) (st : MState) :
    same_identity node (magic_directory w rec mir me path wpath node has_tmpfs st).2.1 := by
  unfold magic_directory
  split
  · simp only []
    split
    · split
      · exact ⟨rfl, rfl, rfl, rfl, rfl⟩
      · exact same_identity_trans (b := { node with children := _ }) ⟨rfl, rfl, rfl, rfl, rfl⟩
          (directory_passes_identity _ _ _ _ _ _ _ _ _ _)
    · exact ⟨rfl, rfl, rfl, rfl, rfl⟩
  · exact ⟨rfl, rfl, rfl, rfl, rfl⟩

/-- `do_magic` returns the node it was given, up to the flags of its
descendants. -/
theorem do_magic_identity (w : World) (fuel : Nat) (who : List String)
    (base wbase : String) (node : Node) (has_tmpfs : Bool) (st : MState) :
    same_identity node (do_magic w fuel who base wbase node has_tmpfs st).2.1 := by
  cases fuel with
  | zero => exact same_identity_refl _
  | succ f =>
    rw [do_magic]
    split
    · simp only []
      split
      · exact same_identity_refl _
      · exact same_identity_refl _
      · exact same_identity_refl _
      · exact magic_directory_identity _ _ _ _ _ _ _ _ _
    · exact same_identity_refl _

/-- Every event of a call of `do_magic` is tagged at or beneath the node it
was called for. -/
theorem do_magic_tagged (w : World) :
    ∀ (fuel : Nat) (who : List String) (base wbase : String) (node : Node)
      (has_tmpfs : Bool) (st : MState),
      Emits (fun e => (who ++ [node.name]) <+: e.who) st
        (do_magic w fuel who base wbase node has_tmpfs st).2.2 := by
  intro fuel
  induction fuel with
  | zero => intro who base wbase node ht st; exact Emits_refl _ _
  | succ f ih =>
    intro who base wbase node ht st
    have hme : ∀ (op : Op) (ok : Bool),
        (fun e : Ev => (who ++ [node.name]) <+: e.who)
          { who := who ++ [node.name], op := op, ok := ok } :=
      fun _ _ => List.prefix_refl _
    rw [do_magic]
    split
    · rename_i path wpath _ _
      simp only []
      have h0 : Emits (fun e => (who ++ [node.name]) <+: e.who) st
          (emit st (who ++ [node.name]) (Op.call node.type ht) true) :=
        Emits_emit (Emits_refl _ _) (hme _ _)
      split
      · exact Emits_trans h0 (magic_regular_emits _ w _ path wbase wpath node ht _ hme)
      · exact Emits_trans h0 (magic_symlink_emits _ w _ wpath node _ hme)
      · exact Emits_bump_whiteout h0
      · refine Emits_trans h0 (magic_directory_emits _ w _ _ _ path wpath node ht _
          (fun _ => True) hme ?_ (fun _ _ _ _ => trivial) ?_ ?_)
        · intro x b s
          have := do_magic_identity w f (who ++ [node.name]) path wpath x b s
          exact ⟨this.1.symm, this.2.1.symm⟩
        · intro x b s _ _
          exact Emits_mono (fun e he => prefix_append_singleton he)
            (ih (who ++ [node.name]) path wpath x b s)
        · intro d s _
          exact Emits_mono (fun e he => prefix_append_singleton he)
            (mirror_tagged w f (who ++ [node.name]) path wpath d s)
    · exact Emits_refl _ _

/-! ## Grafts -/

theorem finish_directory_ok_graft (w : World) (me : List String) (path wpath : String)
    (node : Node) (st : MState)
    (hok : (finish_directory w me path wpath node true st).1 = Rc.ok) :
    (finish_directory w me path wpath node true st).2.2.trace =
      st.trace ++ graft_events me path wpath := by
  unfold finish_directory at hok ⊢
  simp only [if_true] at hok ⊢
  rcases hsys : sys w (emit st me (Op.remount_ro wpath) true) me (Op.move wpath path)
    with ⟨okm, st2⟩
  rw [hsys] at hok
  cases okm
  · cases hok
  · simp only [sys, Prod.mk.injEq] at hsys
    rw [← hsys.2, hsys.1]
    simp [emit, bump_mounted, graft_events]

theorem second_pass_ok_graft (P : Ev → Prop) (w : World)
    (rec : Node → Bool → MState → Rc × Node × MState) (me : List String)
    (path wpath : String) (now_tmp : Bool) (S : List (String × NodeFileType))
    (hid : ∀ x b s, (rec x b s).2.1.name = x.name ∧ (rec x b s).2.1.type = x.type)
    (hrec : ∀ x s, (x.name, x.type) ∈ S → Emits P s (rec x now_tmp s).2.2)
    (node : Node) (st : MState) (hS : sig node.children = S)
    (hok : (second_pass w rec me path wpath node true now_tmp st).1 = Rc.ok) :
    ∃ st1, Emits P st st1 ∧
      (second_pass w rec me path wpath node true now_tmp st).2.2.trace =
        st1.trace ++ graft_events me path wpath := by
  unfold second_pass at hok ⊢
  have h := (rest_children_emits P (fun c s => rec c now_tmp s) now_tmp node.module_name S
    (fun x s => hid x now_tmp s) hrec node.children st
    (fun x hx => hS ▸ List.mem_map.2 ⟨x, hx, rfl⟩)).1
  rcases hr : rest_children (fun c s => rec c now_tmp s) now_tmp node.module_name
    node.children st with ⟨rc, cs, st1⟩
  rw [hr] at h hok
  cases rc
  · exact ⟨st1, h, finish_directory_ok_graft w me path wpath _ st1 hok⟩
  · cases hok
  · cases hok

theorem directory_passes_ok_graft (P : Ev → Prop) (w : World)
    (rec : Node → Bool → MState → Rc × Node × MState)
    (mir : String → MState → Rc × MState) (me : List String)
    (path wpath : String) (S : List (String × NodeFileType))
    (hid : ∀ x b s, (rec x b s).2.1.name = x.name ∧ (rec x b s).2.1.type = x.type)
    (hrec : ∀ x s, (x.name, x.type) ∈ S → Emits P s (rec x true s).2.2)
    (hmir : ∀ d s, (∀ p ∈ S, p.1 ≠ d) → Emits P s (mir d s).2)
    (node : Node) (st : MState) (hS : sig node.children = S)
    (hok : (directory_passes w rec mir me path wpath node true true st).1 = Rc.ok) :
    ∃ st1, Emits P st st1 ∧
      (directory_passes w rec mir me path wpath node true true st).2.2.trace =
        st1.trace ++ graft_events me path wpath := by
  have hsec := second_pass_ok_graft P w rec me path wpath true S hid hrec
  unfold directory_passes at hok ⊢
  split at hok
  · rename_i hcond
    simp only [hcond, if_true]
    cases hrd : w.readdir path with
    | none => simp [hrd] at hok
    | some ents =>
      simp only [hrd] at hok ⊢
      obtain ⟨a, _, c⟩ := live_entries_emits P (fun c s => rec c true s) mir true S
        (fun x s => hid x true s) hrec hmir ents node st hS
      rcases hr : live_entries (fun c s => rec c true s) mir true ents node st
        with ⟨rc, node1, st1⟩
      rw [hr] at a c hok
      cases rc
      · obtain ⟨st2, e2, t2⟩ := hsec node1 st1 c hok
        exact ⟨st2, Emits_trans a e2, t2⟩
      · cases hok
      · cases hok
  · rename_i hcond
    simp only [hcond, if_false]
    exact hsec node st hS hok

theorem magic_directory_ok_graft (P : Ev → Prop) (w : World)
    (rec : Node → Bool → MState → Rc × Node × MState)
    (mir : String → MState → Rc × MState) (me : List String)
    (path wpath : String) (node : Node) (has_tmpfs : Bool) (st : MState)
    (hme : ∀ op ok, P { who := me, op := op, ok := ok })
    (hid : ∀ x b s, (rec x b s).2.1.name = x.name ∧ (rec x b s).2.1.type = x.type)
    (hct : (decide_tmp w path node has_tmpfs st.stats).1 = Rc.ok →
      (decide_tmp w path node has_tmpfs st.stats).2.1 = true)
    (hrec : ∀ x s, (x.name, x.type) ∈ sig node.children → Emits P s (rec x true s).2.2)
    (hmir : ∀ d s, (∀ p ∈ sig node.children, p.1 ≠ d) → Emits P s (mir d s).2)
    (hok : (magic_directory w rec mir me path wpath node has_tmpfs st).1 = Rc.ok) :
    ∃ st1, Emits P st st1 ∧
      (magic_directory w rec mir me path wpath node has_tmpfs st).2.2.trace =
        st1.trace ++ graft_events me path wpath := by
  unfold magic_directory at hok ⊢
  have hsig := decide_tmp_sig w path node has_tmpfs st.stats
  rcases hd : decide_tmp w path node has_tmpfs st.stats with ⟨rc, ct, cs, s1⟩
  rw [hd] at hsig hct hok
  simp only [] at hsig hct
  cases rc
  · have hct1 : ct = true := hct rfl
    subst hct1
    simp only [Bool.or_true, if_true] at hok ⊢
    have h0 : Emits P st { st with stats := s1 } := Emits_set_stats _ (Emits_refl _ _)
    have hprep := Emits_trans h0
      (prepare_tmp_emits P w me path wpath { node with children := cs }
        { st with stats := s1 } hme)
    rcases hp : prepare_tmp w me path wpath { node with children := cs }
        { st with stats := s1 } with ⟨rc2, st2⟩
    rw [hp] at hprep hok
    cases rc2
    · simp only [] at hok ⊢
      rcases hb : sys w st2 me (Op.bind wpath wpath) with ⟨okb, st3⟩
      rw [hb] at hok
      cases okb
      · cases hok
      · simp only [] at hok ⊢
        obtain ⟨st4, e4, t4⟩ := directory_passes_ok_graft P w rec mir me path wpath
          (sig node.children) hid hrec hmir { node with children := cs } st3 hsig hok
        exact ⟨st4, Emits_trans (Emits_sys_eq hb (fun o => hme _ o) hprep) e4, t4⟩
    · cases hok
    · cases hok
  · cases hok
  · cases hok

theorem mem_new_events_of_append {a b c : MState} {P : Ev → Prop} {evs : List Ev} {e : Ev}
    (h1 : Emits P a b) (h2 : c.trace = b.trace ++ evs) (he : e ∈ evs) :
    e ∈ new_events a c := by
  obtain ⟨ev1, t1, _⟩ := h1
  unfold new_events
  rw [h2, t1, List.append_assoc, List.drop_left]
  exact List.mem_append_right _ he

/-- A directory node for which `decide_tmp`, when it completes, sets
`create_tmp`: when `do_magic` returns 0 on it, the run has moved its work
directory onto its live path. -/
theorem do_magic_ok_graft (w : World) (fuel : Nat) (who : List String)
    (base wbase path wpath : String) (node : Node) (has_tmpfs : Bool) (st : MState)
    (htype : node.type = NFT_DIRECTORY)
    (hpath : w.path_join base node.name = some path)
    (hwpath : w.path_join wbase node.name = some wpath)
    (hct : (decide_tmp w path node has_tmpfs st.stats).1 = Rc.ok →
      (decide_tmp w path node has_tmpfs st.stats).2.1 = true)
    (hok : (do_magic w (fuel + 1) who base wbase node has_tmpfs st).1 = Rc.ok) :
    { who := who ++ [node.name], op := Op.move wpath path, ok := true } ∈
      new_events st (do_magic w (fuel + 1) who base wbase node has_tmpfs st).2.2 := by
  rw [do_magic] at hok ⊢
  simp only [hpath, hwpath, htype] at hok ⊢
  obtain ⟨st1, e1, t1⟩ := magic_directory_ok_graft (fun _ => True) w _ _ (who ++ [node.name])
    path wpath node has_tmpfs
    (emit st (who ++ [node.name]) (Op.call NFT_DIRECTORY has_tmpfs) true) (fun _ _ => trivial)
    (fun x b s => by
      have := do_magic_identity w fuel (who ++ [node.name]) path wpath x b s
      exact ⟨this.1.symm, this.2.1.symm⟩)
    hct
    (fun x s _ => Emits_mono (fun _ _ => trivial)
      (do_magic_tagged w fuel (who ++ [node.name]) path wpath x true s))
    (fun d s _ => Emits_mono (fun _ _ => trivial)
      (mirror_tagged w fuel (who ++ [node.name]) path wpath d s))
    hok
  have e0 : Emits (fun _ => True) st
      (emit st (who ++ [node.name]) (Op.call NFT_DIRECTORY has_tmpfs) true) :=
    Emits_emit (Emits_refl _ _) trivial
  refine mem_new_events_of_append (Emits_trans e0 e1) t1 ?_
  simp [graft_events]

/-! ## Whiteouts -/

theorem new_events_of_emits {P : Ev → Prop} {a b : MState} (h : Emits P a b) :
    ∀ e ∈ new_events a b, P e := by
  obtain ⟨evs, t, p⟩ := h
  intro e he
  unfold new_events at he
  rw [t, List.drop_left] at he
  exact p e he

theorem scan_children_finds (w : World) (path rp : String) (c : Node)
    (hrp : w.path_join path c.name = some rp) (hneed : child_needs_tmpfs w c rp = true) :
    ∀ (cs : List Node) (st : MountStats), c ∈ cs →
      (scan_children w path true cs st).1 = Rc.ok →
      (scan_children w path true cs st).2.1 = true := by
  intro cs
  induction cs with
  | nil => intro st h; cases h
  | cons x xs ih =>
    intro st hmem hok
    rw [scan_children] at hok ⊢
    cases hj : w.path_join path x.name with
    | none => simp [hj] at hok
    | some q =>
      simp only [hj] at hok ⊢
      by_cases hn : child_needs_tmpfs w x q = true
      · simp [hn]
      · simp only [hn, if_false] at hok ⊢
        rcases List.mem_cons.1 hmem with h | h
        · subst h
          rw [hrp] at hj
          simp only [Option.some.injEq] at hj
          subst hj
          exact absurd hneed hn
        · exact ih st h hok

theorem whiteout_needs_tmpfs (w : World) (c : Node) (rp : String)
    (hct : c.type = NFT_WHITEOUT) (hex : w.path_exists rp = true) :
    child_needs_tmpfs w c rp = true := by
  simp [child_needs_tmpfs, hct, hex]

/-- With a `module_path`, no tmpfs above, and a whiteout child whose live entry
exists, a tmpfs decision that completes sets `create_tmp`. -/
theorem decide_tmp_whiteout (w : World) (path rp : String) (node c : Node)
    (stats : MountStats) (hmp : node.module_path.isSome = true) (hc : c ∈ node.children)
    (hct : c.type = NFT_WHITEOUT) (hrp : w.path_join path c.name = some rp)
    (hex : w.path_exists rp = true)
    (hok : (decide_tmp w path node false stats).1 = Rc.ok) :
    (decide_tmp w path node false stats).2.1 = true := by
  unfold decide_tmp at hok ⊢
  simp only [hmp] at hok ⊢
  by_cases hr : node.replace = true
  · simp [hr]
  · simp only [hr, Bool.not_false, Bool.true_and, Bool.and_true, Bool.not_true,
      Bool.false_eq_true, if_true, Bool.false_or] at hok ⊢
    have := scan_children_finds w path rp c hrp (whiteout_needs_tmpfs w c rp hct hex)
      node.children stats hc
    rcases hs : scan_children w path true node.children stats with ⟨rc, ct, cs, s1⟩
    rw [hs] at this hok
    exact this hok

theorem prefix_snoc_inj {l : List String} {a b : String} {m : List String}
    (h1 : (l ++ [a]) <+: m) (h2 : (l ++ [b]) <+: m) : a = b := by
  have h := List.prefix_of_prefix_length_le h1 h2 (by simp)
  have := List.IsPrefix.eq_of_length h (by simp)
  simpa using this

theorem not_prefix_snoc (l : List String) (a : String) : ¬ (l ++ [a]) <+: l := by
  intro h
  have := List.IsPrefix.length_le h
  simp at this

/-- What `do_magic` does for a whiteout node whose path joins succeed. -/
theorem do_magic_whiteout (w : World) (fuel : Nat) (who : List String)
    (base wbase p wp : String) (c : Node) (ht : Bool) (s : MState)
    (hct : c.type = NFT_WHITEOUT) (hp : w.path_join base c.name = some p)
    (hwp : w.path_join wbase c.name = some wp) :
    do_magic w (fuel + 1) who base wbase c ht s =
      (Rc.ok, c,
        { s with
          stats := { s.stats with nodes_whiteout := s.stats.nodes_whiteout + 1 },
          trace := s.trace ++
            [{ who := who ++ [c.name], op := Op.call NFT_WHITEOUT ht, ok := true }] }) := by
  rw [do_magic]
  simp only [hp, hwp, hct]
  rfl

theorem do_magic_whiteout_emits (w : World) (fuel : Nat) (who : List String)
    (base wbase : String) (c : Node) (ht : Bool) (s : MState)
    (hct : c.type = NFT_WHITEOUT) :
    Emits (fun e => e.op = Op.call NFT_WHITEOUT ht) s
      (do_magic w fuel who base wbase c ht s).2.2 := by
  cases fuel with
  | zero => exact Emits_refl _ _
  | succ f =>
    cases hp : w.path_join base c.name with
    | none =>
      rw [do_magic]
      simp only [hp]
      exact Emits_refl _ _
    | some p =>
      cases hwp : w.path_join wbase c.name with
      | none =>
        rw [do_magic]
        simp only [hp, hwp]
        exact Emits_refl _ _
      | some wp =>
        rw [do_magic_whiteout w f who base wbase p wp c ht s hct hp hwp]
        exact ⟨[{ who := who ++ [c.name], op := Op.call NFT_WHITEOUT ht, ok := true }], rfl,
          fun e he => by
            simp only [List.mem_singleton] at he
            subst he
            rfl⟩

theorem type_of_sig_name {cs : List Node} {c x : Node} (hu : (cs.map Node.name).Nodup)
    (hc : c ∈ cs) (hx : (x.name, x.type) ∈ sig cs) (hn : x.name = c.name) :
    x.type = c.type := by
  obtain ⟨y, hy, hyx⟩ := List.mem_map.1 hx
  simp only [Prod.mk.injEq] at hyx
  have : y = c := List.inj_on_of_nodup_map hu hy hc (hyx.1.trans hn)
  rw [← hyx.2, this]

/-- C2: a whiteout child `c` whose live entry exists, under a directory node
that has a `module_path` and is processed with `parent_uses_tmpfs = false`,
the names of the children being distinct. (a) Whenever the tmpfs decision
completes (no path join of the scan fails) it sets `create_tmp`, and whenever
`do_magic` on the directory returns 0 the work directory has been moved onto
the live path: the directory is a tmpfs graft. (b) In the whole run of
`do_magic` on the directory, the only events issued on behalf of the entry
named like the whiteout, or of anything beneath it, are the ghost marks of
`do_magic` entering a whiteout under tmpfs: nothing is mirrored, created or
bound for that name. (c) `do_magic` on the whiteout returns 0, adds exactly
one to `nodes_whiteout`, leaves every other counter and the failed list
alone, and issues no system call. -/
theorem whiteout_child (w : World) (fuel : Nat) (who : List String)
    (base wbase path wpath rp : String) (node c : Node) (st : MState)
    (htype : node.type = NFT_DIRECTORY) (hmp : node.module_path.isSome = true)
    (hpath : w.path_join base node.name = some path)
    (hwpath : w.path_join wbase node.name = some wpath)
    (hc : c ∈ node.children) (hct : c.type = NFT_WHITEOUT)
    (hrp : w.path_join path c.name = some rp) (hex : w.path_exists rp = true)
    (huniq : (node.children.map Node.name).Nodup) :
    ((decide_tmp w path node false st.stats).1 = Rc.ok →
      (decide_tmp w path node false st.stats).2.1 = true) ∧
    ((do_magic w (fuel + 1) who base wbase node false st).1 = Rc.ok →
      { who := who ++ [node.name], op := Op.move wpath path, ok := true } ∈
        new_events st (do_magic w (fuel + 1) who base wbase node false st).2.2) ∧
    (∀ e ∈ new_events st (do_magic w (fuel + 1) who base wbase node false st).2.2,
      (who ++ [node.name, c.name]) <+: e.who → e.op = Op.call NFT_WHITEOUT true) ∧
    (∀ (who2 : List String) (base2 wbase2 p2 wp2 : String) (ht : Bool) (s : MState),
      w.path_join base2 c.name = some p2 → w.path_join wbase2 c.name = some wp2 →
      do_magic w (fuel + 1) who2 base2 wbase2 c ht s =
        (Rc.ok, c,
          { s with
            stats := { s.stats with nodes_whiteout := s.stats.nodes_whiteout + 1 },
            trace := s.trace ++
              [{ who := who2 ++ [c.name], op := Op.call NFT_WHITEOUT ht, ok := true }] })) := by
  refine ⟨decide_tmp_whiteout w path rp node c st.stats hmp hc hct hrp hex,
    do_magic_ok_graft w fuel who base wbase path wpath node false st htype hpath hwpath
      (decide_tmp_whiteout w path rp node c st.stats hmp hc hct hrp hex), ?_, ?_⟩
  · apply new_events_of_emits
    have hwho : who ++ [node.name, c.name] = (who ++ [node.name]) ++ [c.name] := by simp
    rw [hwho]
    have hme : ∀ (op : Op) (ok : Bool),
        (fun e : Ev => ((who ++ [node.name]) ++ [c.name]) <+: e.who →
            e.op = Op.call NFT_WHITEOUT true)
          { who := who ++ [node.name], op := op, ok := ok } :=
      fun _ _ h => absurd h (not_prefix_snoc _ _)
    rw [do_magic]
    simp only [hpath, hwpath, htype]
    refine Emits_trans (Emits_emit (Emits_refl _ _) (hme _ _))
      (magic_directory_emits _ w _ _ _ path wpath node false _ (fun b => b = true) hme
        ?_ ?_ ?_ ?_)
    · intro x b s
      have := do_magic_identity w fuel (who ++ [node.name]) path wpath x b s
      exact ⟨this.1.symm, this.2.1.symm⟩
    · intro ct cs s1 hd
      have := decide_tmp_whiteout w path rp node c st.stats hmp hc hct hrp hex
      simp only [emit] at hd
      rw [hd] at this
      simpa using this rfl
    · intro x b s hx hb
      subst hb
      by_cases hn : x.name = c.name
      · have hxt : x.type = NFT_WHITEOUT := (type_of_sig_name huniq hc hx hn).trans hct
        exact Emits_mono (fun e he _ => he)
          (do_magic_whiteout_emits w fuel (who ++ [node.name]) path wpath x true s hxt)
      · exact Emits_mono (fun e he h2 => absurd (prefix_snoc_inj he h2) hn)
          (do_magic_tagged w fuel (who ++ [node.name]) path wpath x true s)
    · intro d s hd
      have hn : d ≠ c.name := fun h =>
        hd (c.name, c.type) (List.mem_map.2 ⟨c, hc, rfl⟩) h.symm
      exact Emits_mono (fun e he h2 => absurd (prefix_snoc_inj he h2) hn)
        (mirror_tagged w fuel (who ++ [node.name]) path wpath d s)
  · intro who2 base2 wbase2 p2 wp2 ht s h1 h2
    exact do_magic_whiteout w fuel who2 base2 wbase2 p2 wp2 c ht s hct h1 h2

/-- C2 (witness): the `etc` node of `whiteout_world` with its whiteout child
`badfile`, whose live entry `/system/etc/badfile` exists: the decision
completes, the run enters the whiteout under tmpfs, returns 0, and has moved
the work directory onto `/system/etc`. -/
theorem whiteout_child_witness :
    etc_node.type = NFT_DIRECTORY ∧ etc_node.module_path.isSome = true ∧
    badfile_node ∈ etc_node.children ∧ badfile_node.type = NFT_WHITEOUT ∧
    whiteout_world.path_join "/system/etc" badfile_node.name = some "/system/etc/badfile" ∧
    whiteout_world.path_exists "/system/etc/badfile" = true ∧
    (etc_node.children.map Node.name).Nodup ∧
    (decide_tmp whiteout_world "/system/etc" etc_node false init_state.stats).1 = Rc.ok ∧
    { who := ["", "system", "etc", "badfile"], op := Op.call NFT_WHITEOUT true, ok := true } ∈
      new_events init_state
        (do_magic whiteout_world (3 + 1) ["", "system"] "/system"
          "/tmp/.magic_mount/workdir/system" etc_node false init_state).2.2 ∧
    (do_magic whiteout_world (3 + 1) ["", "system"] "/system"
      "/tmp/.magic_mount/workdir/system" etc_node false init_state).1 = Rc.ok ∧
    { who := ["", "system"] ++ [etc_node.name],
      op := Op.move "/tmp/.magic_mount/workdir/system/etc" "/system/etc", ok := true } ∈
      new_events init_state
        (do_magic whiteout_world (3 + 1) ["", "system"] "/system"
          "/tmp/.magic_mount/workdir/system" etc_node false init_state).2.2 :=
  ⟨rfl, rfl, List.Mem.head _, rfl, rfl, rfl, by decide, rfl, by decide, rfl,
    (whiteout_child whiteout_world 3 ["", "system"] "/system"
      "/tmp/.magic_mount/workdir/system" "/system/etc" "/tmp/.magic_mount/workdir/system/etc"
      "/system/etc/badfile" etc_node badfile_node init_state rfl rfl rfl rfl
      (List.Mem.head _) rfl rfl rfl (by decide)).2.1 rfl⟩

/-! ## Segments of the trace -/

theorem Seg_refl {S : List Ev → Prop} (hS : SegClosed S) (st : MState) : Seg S st st :=
  ⟨[], by simp, hS.1⟩

theorem Seg_trans {S : List Ev → Prop} (hS : SegClosed S) {a b c : MState}
    (h1 : Seg S a b) (h2 : Seg S b c) : Seg S a c := by
  obtain ⟨e1, t1, p1⟩ := h1
  obtain ⟨e2, t2, p2⟩ := h2
  exact ⟨e1 ++ e2, by rw [t2, t1, List.append_assoc], hS.2 _ _ p1 p2⟩

theorem Seg_same_trace {S : List Ev → Prop} {a b c : MState} (h1 : Seg S a b)
    (h : c.trace = b.trace) : Seg S a c := by
  obtain ⟨e1, t1, p1⟩ := h1
  exact ⟨e1, h.trans t1, p1⟩

theorem Seg_from_same {S : List Ev → Prop} {a b c : MState} (h1 : Seg S b c)
    (h : a.trace = b.trace) : Seg S a c := by
  obtain ⟨e1, t1, p1⟩ := h1
  exact ⟨e1, by rw [t1, h], p1⟩

theorem SegClosed_all (P : Ev → Prop) : SegClosed (fun evs => ∀ e ∈ evs, P e) := by
  refine ⟨by simp, ?_⟩
  intro a b ha hb e he
  rcases List.mem_append.1 he with h | h
  · exact ha e h
  · exact hb e h

theorem magic_directory_enter (w : World)
    (rec : Node → Bool → MState → Rc × Node × MState)
    (mir : String → MState → Rc × MState) (me : List String)
    (path wpath : String) (node : Node) (has_tmpfs : Bool) (st : MState) :
    magic_directory w rec mir me path wpath node has_tmpfs st =
      match decide_tmp w path node has_tmpfs st.stats with
      | (Rc.ok, ct, cs, s1) =>
        match enter_directory w me path wpath { node with children := cs } ct
            (has_tmpfs || ct) { st with stats := s1 } with
        | (Rc.ok, st3) =>
          directory_passes w rec mir me path wpath { node with children := cs } ct
            (has_tmpfs || ct) st3
        | (rc, st3) => (rc, { node with children := cs }, st3)
      | (rc, _, cs, s1) => (rc, { node with children := cs }, { st with stats := s1 }) := by
  unfold magic_directory enter_directory
  rcases decide_tmp w path node has_tmpfs st.stats with ⟨rc, ct, cs, s1⟩
  cases rc
  · simp only []
    rcases (if (has_tmpfs || ct) = true then
          prepare_tmp w me path wpath { node with children := cs } { st with stats := s1 }
        else (Rc.ok, { st with stats := s1 })) with ⟨rc2, st2⟩
    cases rc2
    · simp only []
      rcases (if ct = true then sys w st2 me (Op.bind wpath wpath) else (true, st2))
        with ⟨b, st3⟩
      cases b <;> rfl
    · rfl
    · rfl
  · rfl
  · rfl

/-- The live-side enumeration: its events form a segment with `S` when those of
`rec` on each child that is not marked skip do and those of `mir` on each name
that no child bears do; the names and kinds of the children are kept, and so
is any property `E` of name and kind that the unskipped children have. -/
theorem live_entries_seg (S : List Ev → Prop) (hS : SegClosed S)
    (rec : Node → MState → Rc × Node × MState)
    (mir : String → MState → Rc × MState) (now_tmp : Bool)
    (G : List (String × NodeFileType)) (E : String → NodeFileType → Prop)
    (hid : ∀ x s, (rec x s).2.1.name = x.name ∧ (rec x s).2.1.type = x.type)
    (hrec : ∀ x s, x.skip = false → E x.name x.type → Seg S s (rec x s).2.2)
    (hmir : ∀ d s, now_tmp = true → (∀ p ∈ G, p.1 ≠ d) → Seg S s (mir d s).2) :
    ∀ (ents : List String) (node : Node) (st : MState), sig node.children = G →
      (∀ x ∈ node.children, x.skip = false → E x.name x.type) →
      Seg S st (live_entries rec mir now_tmp ents node st).2.2 ∧
      sig (live_entries rec mir now_tmp ents node st).2.1.children = G ∧
      (∀ x ∈ (live_entries rec mir now_tmp ents node st).2.1.children,
        x.skip = false → E x.name x.type) := by
  intro ents
  induction ents with
  | nil => intro node st hG hE; exact ⟨Seg_refl hS _, hG, hE⟩
  | cons d ds ih =>
    intro node st hG hE
    rw [live_entries]
    split
    · exact ih node st hG hE
    · cases hf : node_find_child node d with
      | none =>
        simp only []
        split
        · rename_i hnow
          have hm := hmir d st hnow (hG ▸ sig_no_name_of_find_none hf)
          rcases hr : mir d st with ⟨rc, st1⟩
          rw [hr] at hm
          cases rc
          · obtain ⟨a, b, c⟩ := ih node st1 hG hE
            exact ⟨Seg_trans hS hm a, b, c⟩
          · exact ⟨Seg_same_trace hm rfl, hG, hE⟩
          · exact ⟨hm, hG, hE⟩
        · exact ih node st hG hE
      | some c =>
        simp only []
        have hcm : c ∈ node.children := List.mem_of_find?_eq_some hf
        split
        · rename_i hskip
          have hG1 : sig (set_child node d { c with done := true }).children = G := by
            rw [← hG]
            exact @sig_set_child_list d c { c with done := true } rfl rfl node.children hf
          refine ih (set_child node d { c with done := true }) st hG1 ?_
          intro x hx hxs
          rcases mem_set_child_list node.children x hx with h2 | h2
          · subst h2
            simp only [hskip] at hxs
            cases hxs
          · exact hE x h2 hxs
        · rename_i hskip
          have hcs : c.skip = false := by simpa using hskip
          have hEc := hE c hcm hcs
          have hi := hid { c with done := true } st
          have he := hrec { c with done := true } st hcs hEc
          rcases hr : rec { c with done := true } st with ⟨rc, c1, st1⟩
          rw [hr] at hi he
          simp only [] at hi he
          have hG1 : sig (set_child node d c1).children = G := by
            rw [← hG]
            exact sig_set_child_list hi.1 hi.2 node.children hf
          have hE1 : ∀ x ∈ (set_child node d c1).children, x.skip = false →
              E x.name x.type := by
            intro x hx hxs
            rcases mem_set_child_list node.children x hx with h2 | h2
            · subst h2
              rw [hi.1, hi.2]
              exact hEc
            · exact hE x h2 hxs
          cases rc
          · obtain ⟨a, b, c2⟩ := ih (set_child node d c1) st1 hG1 hE1
            exact ⟨Seg_trans hS he a, b, c2⟩
          · simp only []
            split
            · exact ⟨Seg_same_trace he rfl, hG1, hE1⟩
            · obtain ⟨a, b, c2⟩ := ih (set_child node d c1)
                (fail_child st1 c1.module_name node.module_name) hG1 hE1
              exact ⟨Seg_trans hS (Seg_same_trace he rfl) a, b, c2⟩
          · exact ⟨he, hG1, hE1⟩

/-- The pass over the remaining children: its events form a segment with `S`
when those of `rec` on each child that is not marked skip do. -/
theorem rest_children_seg (S : List Ev → Prop) (hS : SegClosed S)
    (rec : Node → MState → Rc × Node × MState)
    (now_tmp : Bool) (pmn : Option String) (E : String → NodeFileType → Prop)
    (hrec : ∀ x s, x.skip = false → E x.name x.type → Seg S s (rec x s).2.2) :
    ∀ (cs : List Node) (st : MState), (∀ x ∈ cs, x.skip = false → E x.name x.type) →
      Seg S st (rest_children rec now_tmp pmn cs st).2.2 := by
  intro cs
  induction cs with
  | nil => intro st _; exact Seg_refl hS _
  | cons c cs ih =>
    intro st hE
    have hE1 : ∀ x ∈ cs, x.skip = false → E x.name x.type :=
      fun x hx => hE x (List.mem_cons_of_mem c hx)
    rw [rest_children]
    split
    · exact ih st hE1
    · rename_i hsd
      have hcs : c.skip = false := by
        cases h : c.skip
        · rfl
        · exact absurd (Or.inl h) hsd
      have he := hrec c st hcs (hE c (List.mem_cons_self c cs) hcs)
      rcases hr : rec c st with ⟨rc, c1, st1⟩
      rw [hr] at he
      simp only [] at he
      cases rc
      · exact Seg_trans hS he (ih st1 hE1)
      · simp only []
        split
        · exact Seg_same_trace he rfl
        · exact Seg_trans hS (Seg_same_trace he rfl) (ih _ hE1)
      · exact he

theorem second_pass_seg (S : List Ev → Prop) (hS : SegClosed S) (w : World)
    (rec : Node → Bool → MState → Rc × Node × MState) (me : List String)
    (path wpath : String) (create_tmp now_tmp : Bool) (E : String → NodeFileType → Prop)
    (hfin : ∀ nd s, Seg S s (finish_directory w me path wpath nd create_tmp s).2.2)
    (hrec : ∀ x s, x.skip = false → E x.name x.type → Seg S s (rec x now_tmp s).2.2)
    (node : Node) (st : MState)
    (hE : ∀ x ∈ node.children, x.skip = false → E x.name x.type) :
    Seg S st (second_pass w rec me path wpath node create_tmp now_tmp st).2.2 := by
  unfold second_pass
  have h := rest_children_seg S hS (fun c s => rec c now_tmp s) now_tmp node.module_name E
    hrec node.children st hE
  rcases hr : rest_children (fun c s => rec c now_tmp s) now_tmp node.module_name
    node.children st with ⟨rc, cs, st1⟩
  rw [hr] at h
  cases rc
  · exact Seg_trans hS h (hfin _ st1)
  · exact h
  · exact h

theorem directory_passes_seg (S : List Ev → Prop) (hS : SegClosed S) (w : World)
    (rec : Node → Bool → MState → Rc × Node × MState)
    (mir : String → MState → Rc × MState) (me : List String)
    (path wpath : String) (create_tmp now_tmp : Bool)
    (G : List (String × NodeFileType)) (E : String → NodeFileType → Prop)
    (hfin : ∀ nd s, Seg S s (finish_directory w me path wpath nd create_tmp s).2.2)
    (hid : ∀ x b s, (rec x b s).2.1.name = x.name ∧ (rec x b s).2.1.type = x.type)
    (hrec : ∀ x s, x.skip = false → E x.name x.type → Seg S s (rec x now_tmp s).2.2)
    (hmir : ∀ d s, now_tmp = true → (∀ p ∈ G, p.1 ≠ d) → Seg S s (mir d s).2)
    (node : Node) (st : MState) (hG : sig node.children = G)
    (hE : ∀ x ∈ node.children, x.skip = false → E x.name x.type) :
    Seg S st (directory_passes w rec mir me path wpath node create_tmp now_tmp st).2.2 := by
  have hsec := second_pass_seg S hS w rec me path wpath create_tmp now_tmp E hfin hrec
  unfold directory_passes
  split
  · split
    · split
      · exact Seg_refl hS _
      · exact hsec node st hE
    · rename_i ents _
      obtain ⟨a, _, c⟩ := live_entries_seg S hS (fun c s => rec c now_tmp s) mir now_tmp G E
        (fun x s => hid x now_tmp s) hrec hmir ents node st hG hE
      rcases hr : live_entries (fun c s => rec c now_tmp s) mir now_tmp ents node st
        with ⟨rc, node1, st1⟩
      rw [hr] at a c
      cases rc
      · exact Seg_trans hS a (hsec node1 st1 c)
      · exact a
      · exact a
  · exact hsec node st hE

/-- The events of the directory case of `do_magic` form a segment with `S`
when, for the decision `ct` that `decide_tmp` takes, the events of entering and
of finishing the directory do, those of `do_magic` on each child that is not
marked skip do (`E` being what the decision tells about such a child), and
those of `mirror` on each name that no child bears do. -/
theorem magic_directory_seg (S : List Ev → Prop) (hS : SegClosed S) (w : World)
    (rec : Node → Bool → MState → Rc × Node × MState)
    (mir : String → MState → Rc × MState) (me : List String)
    (path wpath : String) (node : Node) (has_tmpfs : Bool) (st : MState)
    (E : Bool → String → NodeFileType → Prop)
    (hid : ∀ x b s, (rec x b s).2.1.name = x.name ∧ (rec x b s).2.1.type = x.type)
    (hE : ∀ ct cs s1, decide_tmp w path node has_tmpfs st.stats = (Rc.ok, ct, cs, s1) →
      ∀ x ∈ cs, x.skip = false → E (has_tmpfs || ct) x.name x.type)
    (henter : ∀ ct cs s1, decide_tmp w path node has_tmpfs st.stats = (Rc.ok, ct, cs, s1) →
      ∀ nd s, Seg S s (enter_directory w me path wpath nd ct (has_tmpfs || ct) s).2)
    (hfin : ∀ ct cs s1, decide_tmp w path node has_tmpfs st.stats = (Rc.ok, ct, cs, s1) →
      ∀ nd s, Seg S s (finish_directory w me path wpath nd ct s).2.2)
    (hrec : ∀ b x s, x.skip = false → E b x.name x.type → Seg S s (rec x b s).2.2)
    (hmir : ∀ d s, (∀ p ∈ sig node.children, p.1 ≠ d) → Seg S s (mir d s).2) :
    Seg S st (magic_directory w rec mir me path wpath node has_tmpfs st).2.2 := by
  rw [magic_directory_enter]
  have hsig := decide_tmp_sig w path node has_tmpfs st.stats
  rcases hd : decide_tmp w path node has_tmpfs st.stats with ⟨rc, ct, cs, s1⟩
  rw [hd] at hsig
  simp only [] at hsig
  cases rc
  · simp only []
    have h1 := henter ct cs s1 hd { node with children := cs } { st with stats := s1 }
    rcases hr : enter_directory w me path wpath { node with children := cs } ct
      (has_tmpfs || ct) { st with stats := s1 } with ⟨rc2, st3⟩
    rw [hr] at h1
    have h2 : Seg S st st3 := Seg_from_same h1 rfl
    cases rc2
    · simp only []
      exact Seg_trans hS h2 (directory_passes_seg S hS w rec mir me path wpath ct
        (has_tmpfs || ct) (sig node.children) (E (has_tmpfs || ct)) (hfin ct cs s1 hd) hid
        (fun x s => hrec _ x s) (fun d s _ => hmir d s) _ st3 hsig (hE ct cs s1 hd))
    · exact h2
    · exact h2
  · exact Seg_same_trace (Seg_refl hS st) rfl
  · exact Seg_same_trace (Seg_refl hS st) rfl

/-! ## The scan for children that demand tmpfs -/

theorem child_needs_tmpfs_congr (w : World) (c x : Node) (rp : String)
    (ht : x.type = c.type) : child_needs_tmpfs w x rp = child_needs_tmpfs w c rp := by
  unfold child_needs_tmpfs
  rw [ht]

/-- The scan of a directory without module path never asks for a tmpfs; when
it completes, every child path joined, the children that demand tmpfs are
marked skip and counted in `nodes_skipped`, and nothing else changes. -/
theorem scan_children_structural (w : World) (path : String) :
    ∀ (cs : List Node) (st : MountStats),
      (scan_children w path false cs st).2.1 = false ∧
      (scan_children w path false cs st).1 ≠ Rc.fuel ∧
      ((scan_children w path false cs st).1 = Rc.ok →
        (∀ c ∈ cs, (w.path_join path c.name).isSome) ∧
        (scan_children w path false cs st).2.2.1 = cs.map (mark_skip w path) ∧
        (scan_children w path false cs st).2.2.2 =
          { st with nodes_skipped :=
              st.nodes_skipped + (cs.filter (demands_tmpfs w path)).length }) ∧
      ((∀ c ∈ cs, (w.path_join path c.name).isSome) →
        (scan_children w path false cs st).1 = Rc.ok) := by
  intro cs
  induction cs with
  | nil => intro st; simp [scan_children]
  | cons c cs ih =>
    intro st
    rw [scan_children]
    cases hj : w.path_join path c.name with
    | none => simp [hj]
    | some rp =>
      simp only []
      have hd : demands_tmpfs w path c = child_needs_tmpfs w c rp := by
        simp [demands_tmpfs, hj]
      cases hn : child_needs_tmpfs w c rp
      · obtain ⟨h1, h2, h3, h4⟩ := ih st
        simp only [Bool.false_eq_true, if_false]
        refine ⟨h1, h2, ?_, ?_⟩
        · intro hok
          obtain ⟨a, b, c2⟩ := h3 hok
          refine ⟨?_, ?_, ?_⟩
          · intro x hx
            rcases List.mem_cons.1 hx with h | h
            · rw [h, hj]; rfl
            · exact a x h
          · simp [b, mark_skip, hd, hn]
          · rw [c2]
            simp [hd, hn]
        · intro hall
          exact h4 (fun x hx => hall x (List.mem_cons_of_mem c hx))
      · obtain ⟨h1, h2, h3, h4⟩ := ih { st with nodes_skipped := st.nodes_skipped + 1 }
        simp only [if_true, Bool.false_eq_true, not_false_eq_true]
        refine ⟨h1, h2, ?_, ?_⟩
        · intro hok
          obtain ⟨a, b, c2⟩ := h3 hok
          refine ⟨?_, ?_, ?_⟩
          · intro x hx
            rcases List.mem_cons.1 hx with h | h
            · rw [h, hj]; rfl
            · exact a x h
          · simp [b, mark_skip, hd, hn]
          · rw [c2]
            simp [hd, hn, Nat.add_assoc, Nat.add_comm 1]
        · intro hall
          exact h4 (fun x hx => hall x (List.mem_cons_of_mem c hx))

/-- The scan of a directory with a module path changes neither the children nor
the counters; when it completes, it asks for a tmpfs exactly when some child
demands one. -/
theorem scan_children_module (w : World) (path : String) :
    ∀ (cs : List Node) (st : MountStats),
      (scan_children w path true cs st).2.2.1 = cs ∧
      (scan_children w path true cs st).2.2.2 = st ∧
      (scan_children w path true cs st).1 ≠ Rc.fuel ∧
      ((scan_children w path true cs st).1 = Rc.ok →
        ((scan_children w path true cs st).2.1 = true ↔
          ∃ c ∈ cs, demands_tmpfs w path c = true)) := by
  intro cs
  induction cs with
  | nil => intro st; simp [scan_children]
  | cons c cs ih =>
    intro st
    rw [scan_children]
    cases hj : w.path_join path c.name with
    | none => simp
    | some rp =>
      simp only []
      have hd : demands_tmpfs w path c = child_needs_tmpfs w c rp := by
        simp [demands_tmpfs, hj]
      cases hn : child_needs_tmpfs w c rp
      · obtain ⟨h1, h2, h3, h4⟩ := ih st
        simp only [Bool.false_eq_true, if_false]
        refine ⟨by rw [h1], h2, h3, ?_⟩
        intro hok
        rw [h4 hok]
        simp [hd, hn]
      · simp [hd, hn]

/-- When the scan completes without asking for a tmpfs, every child that is not
marked skip has a live path that joined and does not demand tmpfs. -/
theorem scan_children_quiet (w : World) (path : String) (hmp : Bool) :
    ∀ (cs : List Node) (st : MountStats),
      (scan_children w path hmp cs st).1 = Rc.ok →
      (scan_children w path hmp cs st).2.1 = false →
      ∀ x ∈ (scan_children w path hmp cs st).2.2.1, x.skip = false →
        ∃ rp, w.path_join path x.name = some rp ∧ child_needs_tmpfs w x rp = false := by
  intro cs
  induction cs with
  | nil => intro st _ _ x hx; simp [scan_children] at hx
  | cons c cs ih =>
    intro st
    rw [scan_children]
    cases hj : w.path_join path c.name with
    | none => intro h; simp at h
    | some rp =>
      simp only []
      cases hn : child_needs_tmpfs w c rp
      · simp only [Bool.false_eq_true, if_false]
        intro hok hct x hx hxs
        rcases List.mem_cons.1 hx with h | h
        · subst h
          exact ⟨rp, hj, hn⟩
        · exact ih st hok hct x h hxs
      · simp only [if_true]
        cases hmp
        · simp only [Bool.false_eq_true, not_false_eq_true, if_true]
          intro hok hct x hx hxs
          rcases List.mem_cons.1 hx with h | h
          · subst h
            simp at hxs
          · exact ih _ hok hct x h hxs
        · simp

theorem decide_tmp_quiet (w : World) (path : String) (node : Node) (has_tmpfs : Bool)
    (stats : MountStats) (ct : Bool) (cs : List Node) (s1 : MountStats)
    (hd : decide_tmp w path node has_tmpfs stats = (Rc.ok, ct, cs, s1))
    (hq : (has_tmpfs || ct) = false) :
    ∀ x ∈ cs, x.skip = false →
      ∃ rp, w.path_join path x.name = some rp ∧ child_needs_tmpfs w x rp = false := by
  have hh : has_tmpfs = false := by cases has_tmpfs <;> simp_all
  have hc : ct = false := by cases ct <;> simp_all
  subst hh hc
  unfold decide_tmp at hd
  simp only [Bool.not_false, Bool.true_and] at hd
  split at hd
  · have hq := scan_children_quiet w path node.module_path.isSome node.children stats
    rcases hs : scan_children w path node.module_path.isSome node.children stats
      with ⟨rc, found, cs1, st1⟩
    rw [hs] at hd hq
    simp only [Prod.mk.injEq, Bool.or_eq_false_iff] at hd
    obtain ⟨h1, h2, h3, _⟩ := hd
    subst h1 h3
    exact hq rfl h2.2
  · rename_i hne
    simp only [Prod.mk.injEq] at hd
    have := hd.2.1
    simp [this] at hne

/-- A tmpfs starts at a directory only when its parent does not use one and the
node has a module path. -/
theorem decide_tmp_create (w : World) (path : String) (node : Node) (has_tmpfs : Bool)
    (stats : MountStats) (rc : Rc) (cs : List Node) (s1 : MountStats)
    (hd : decide_tmp w path node has_tmpfs stats = (rc, true, cs, s1)) :
    has_tmpfs = false ∧ node.module_path.isSome = true := by
  unfold decide_tmp at hd
  simp only [] at hd
  cases has_tmpfs
  · refine ⟨rfl, ?_⟩
    cases hm : node.module_path.isSome
    · exfalso
      simp only [hm, Bool.and_false, Bool.not_false, Bool.true_and, if_true,
        Bool.false_or] at hd
      have := (scan_children_structural w path node.children stats).1
      rcases hs : scan_children w path false node.children stats with ⟨r, f, c, s⟩
      rw [hs] at hd this
      simp only [Prod.mk.injEq] at hd
      simp only [] at this
      rw [this] at hd
      exact absurd hd.2.1 (by decide)
    · rfl
  · simp at hd

/-! ## Events of each case -/

/-- Every event of a call of `mirror` is one of the operations of `mirror_op`;
in particular `mirror` issues no read-only remount, no `MS_MOVE` and no
notification. -/
theorem mirror_ops (w : World) :
    ∀ (fuel : Nat) (who : List String) (path work name : String) (st : MState),
      Emits (fun e => mirror_op e.op = true) st (mirror w fuel who path work name st).2 := by
  intro fuel
  induction fuel with
  | zero => intro who path work name st; exact Emits_refl _ _
  | succ f ih =>
    intro who path work name st
    rw [mirror]
    split
    · rename_i src dst _ _
      simp only []
      split
      · exact Emits_emit (Emits_refl _ _) rfl
      · split
        · repeat' split
          all_goals
            repeat (first
              | exact Emits_refl _ _
              | exact rfl
              | exact fun _ => rfl
              | with_reducible refine Emits_emit ?_ ?_
              | refine Emits_sys_eq (by assumption) ?_ ?_)
        · split
          · split
            · repeat (first
                | exact Emits_refl _ _
                | exact rfl
                | exact fun _ => rfl
                | with_reducible refine Emits_emit ?_ ?_
                | refine Emits_sys_eq (by assumption) ?_ ?_)
            · rename_i st1 hs
              have h1 : Emits (fun e => mirror_op e.op = true) st
                  (emit st1 (who ++ [name]) (Op.set_meta dst src) true) := by
                repeat (first
                  | exact Emits_refl _ _
                  | exact rfl
                  | exact fun _ => rfl
                  | with_reducible refine Emits_emit ?_ ?_
                  | refine Emits_sys_eq (by assumption) ?_ ?_)
              split
              · exact h1
              · refine Emits_trans h1 (mirror_entries_emits _ _ ?_ _ _)
                intro d s
                exact ih (who ++ [name]) src dst d s
          · split
            · repeat' split
              all_goals
                repeat (first
                  | exact Emits_refl _ _
                  | exact rfl
                  | exact fun _ => rfl
                  | with_reducible refine Emits_emit ?_ ?_
                  | refine Emits_clone_eq (by assumption) ?_ ?_)
            · exact Emits_emit (Emits_refl _ _) rfl
    · exact Emits_refl _ _

theorem magic_regular_events (w : World) (me : List String)
    (path wbase wpath : String) (node : Node) (has_tmpfs : Bool) (st : MState) :
    Emits (regular_event me wbase wpath (if has_tmpfs then wpath else path)) st
      (magic_regular w me path wbase wpath node has_tmpfs st).2 := by
  unfold magic_regular
  simp only []
  repeat' split
  all_goals
    repeat (first
      | exact Emits_refl _ _
      | with_reducible apply Emits_bump_mounted
      | with_reducible refine Emits_emit ?_ (by simp [regular_event])
      | refine Emits_sys_eq (by assumption) (fun o => by simp [regular_event]) ?_)

theorem magic_symlink_events (w : World) (me : List String)
    (wpath : String) (node : Node) (st : MState) :
    Emits (fun e => e.who = me ∧ ∃ mp, e.op = Op.clone_symlink mp wpath) st
      (magic_symlink w me wpath node st).2 := by
  unfold magic_symlink
  repeat' split
  all_goals
    repeat (first
      | exact Emits_refl _ _
      | with_reducible apply Emits_bump_mounted
      | refine Emits_clone_eq (by assumption) (fun o => by simp) ?_)

theorem prepare_tmp_events (w : World) (me : List String)
    (path wpath : String) (node : Node) (st : MState) :
    Emits (fun e => e.who = me ∧ (e.op = Op.mkdir_p wpath ∨ ∃ m, e.op = Op.set_meta wpath m))
      st (prepare_tmp w me path wpath node st).2 := by
  unfold prepare_tmp
  repeat' split
  all_goals
    repeat (first
      | exact Emits_refl _ _
      | with_reducible refine Emits_emit ?_ (by simp)
      | refine Emits_sys_eq (by assumption) (fun o => by simp) ?_)

theorem enter_directory_events (w : World) (me : List String)
    (path wpath : String) (node : Node) (create_tmp now_tmp : Bool) (st : MState) :
    Emits (enter_event me wpath create_tmp now_tmp) st
      (enter_directory w me path wpath node create_tmp now_tmp st).2 := by
  unfold enter_directory
  have hp : Emits (enter_event me wpath create_tmp now_tmp) st
      (if now_tmp = true then prepare_tmp w me path wpath node st else (Rc.ok, st)).2 := by
    split
    · rename_i hn
      refine Emits_mono ?_ (prepare_tmp_events w me path wpath node st)
      intro e he
      exact ⟨he.1, Or.inl ⟨hn, he.2⟩⟩
    · exact Emits_refl _ _
  rcases hr : (if now_tmp = true then prepare_tmp w me path wpath node st else (Rc.ok, st))
    with ⟨rc, st2⟩
  rw [hr] at hp
  cases rc
  · simp only []
    have hb : Emits (enter_event me wpath create_tmp now_tmp) st
        (if create_tmp = true then sys w st2 me (Op.bind wpath wpath) else (true, st2)).2 := by
      split
      · rename_i hc
        rcases hs : sys w st2 me (Op.bind wpath wpath) with ⟨ok, st3⟩
        exact Emits_sys_eq hs (fun o => ⟨rfl, Or.inr ⟨hc, rfl⟩⟩) hp
      · exact hp
    rcases hr2 : (if create_tmp = true then sys w st2 me (Op.bind wpath wpath)
      else (true, st2)) with ⟨ok, st3⟩
    rw [hr2] at hb
    cases ok <;> exact hb
  · exact hp
  · exact hp

theorem finish_directory_events (w : World) (me : List String)
    (path wpath : String) (node : Node) (create_tmp : Bool) (st : MState) :
    Emits (finish_event me path wpath create_tmp) st
      (finish_directory w me path wpath node create_tmp st).2.2 := by
  unfold finish_directory
  split
  · rename_i hc
    simp only []
    split
    · refine Emits_set_failed _ ?_
      refine Emits_sys_eq (by assumption) (fun o => by simp [finish_event, hc]) ?_
      exact Emits_emit (Emits_refl _ _) (by simp [finish_event, hc])
    · apply Emits_bump_mounted
      refine Emits_emit ?_ (by simp [finish_event, hc])
      refine Emits_emit ?_ (by simp [finish_event, hc])
      refine Emits_sys_eq (by assumption) (fun o => by simp [finish_event, hc]) ?_
      exact Emits_emit (Emits_refl _ _) (by simp [finish_event, hc])
  · exact Emits_bump_mounted (Emits_refl _ _)

/-- A pointwise property of events holds of a segment when it holds of each
event that was issued. -/
theorem Seg_of_emits {P Q : Ev → Prop} {a b : MState} (h : ∀ e, P e → Q e)
    (h1 : Emits P a b) : Seg (fun evs => ∀ e ∈ evs, Q e) a b :=
  Emits_mono h h1

/-! ## Symlinks -/

theorem symlink_needs_tmpfs (w : World) (c : Node) (rp : String)
    (hct : c.type = NFT_SYMLINK) : child_needs_tmpfs w c rp = true := by
  simp [child_needs_tmpfs, hct]

theorem do_magic_name_type (w : World) (fuel : Nat) (who : List String)
    (base wbase : String) (x : Node) (b : Bool) (s : MState) :
    (do_magic w fuel who base wbase x b s).2.1.name = x.name ∧
    (do_magic w fuel who base wbase x b s).2.1.type = x.type := by
  have := do_magic_identity w fuel who base wbase x b s
  exact ⟨this.1.symm, this.2.1.symm⟩

/-- A symlink node is entered only under tmpfs, provided the node the run
starts at is not a symlink on the live tree. -/
theorem do_magic_symlink_calls (w : World) :
    ∀ (fuel : Nat) (who : List String) (base wbase : String) (node : Node)
      (ht : Bool) (st : MState), (node.type = NFT_SYMLINK → ht = true) →
      Emits (fun e => ∀ b, e.op = Op.call NFT_SYMLINK b → b = true) st
        (do_magic w fuel who base wbase node ht st).2.2 := by
  intro fuel
  induction fuel with
  | zero => intro who base wbase node ht st _; exact Emits_refl _ _
  | succ f ih =>
    intro who base wbase node ht st hroot
    rw [do_magic]
    split
    · rename_i path wpath _ _
      simp only []
      have h0 : Emits (fun e => ∀ b, e.op = Op.call NFT_SYMLINK b → b = true) st
          (emit st (who ++ [node.name]) (Op.call node.type ht) true) := by
        refine Emits_emit (Emits_refl _ _) ?_
        intro b hb
        simp only [Op.call.injEq] at hb
        rw [← hb.2]
        exact hroot hb.1
      split
      · refine Emits_trans h0 (Emits_mono ?_
          (magic_regular_events w _ path wbase wpath node ht _))
        intro e he b hb
        rcases he with ⟨_, h | h | ⟨mp, h⟩ | h | h⟩ <;> rw [h] at hb <;> cases hb
      · refine Emits_trans h0 (Emits_mono ?_ (magic_symlink_events w _ wpath node _))
        intro e he b hb
        rcases he with ⟨_, mp, h⟩
        rw [h] at hb
        cases hb
      · exact Emits_bump_whiteout h0
      · refine Emits_trans h0 (magic_directory_seg _ (SegClosed_all _) w _ _ _ path wpath
          node ht _ (fun b _ t => t = NFT_SYMLINK → b = true)
          (fun x b s => do_magic_name_type w f _ path wpath x b s) ?_ ?_ ?_ ?_ ?_)
        · intro ct cs s1 hd x hx hxs hsym
          cases hq : (ht || ct)
          · obtain ⟨rp, _, hn⟩ := decide_tmp_quiet w path node ht _ ct cs s1 hd hq x hx hxs
            rw [symlink_needs_tmpfs w x rp hsym] at hn
            cases hn
          · rfl
        · intro ct cs s1 _ nd s
          refine Seg_of_emits ?_ (enter_directory_events w _ path wpath nd ct _ s)
          intro e he b hb
          rcases he with ⟨_, ⟨_, h | ⟨m, h⟩⟩ | ⟨_, h⟩⟩ <;> rw [h] at hb <;> cases hb
        · intro ct cs s1 _ nd s
          refine Seg_of_emits ?_ (finish_directory_events w _ path wpath nd ct s)
          intro e he b hb
          rcases he with ⟨_, _, h | h | h | h⟩ <;> rw [h] at hb <;> cases hb
        · intro b x s _ hE
          exact ih _ path wpath x b s hE
        · intro d s _
          refine Seg_of_emits ?_ (mirror_ops w f _ path wpath d s)
          intro e he b hb
          rw [hb] at he
          cases he
    · exact Emits_refl _ _

/-- C17: in every execution of `do_magic` started on a Directory node with
`parent_uses_tmpfs = false`, every entry of `do_magic` into a Symlink node, at
any depth, has `parent_uses_tmpfs = true`: a symlink is only processed for a
directory that is being assembled as tmpfs, never for one left on the live
tree. -/
theorem symlinks_only_under_tmpfs (w : World) (fuel : Nat) (who : List String)
    (base wbase : String) (node : Node) (st : MState)
    (hdir : node.type = NFT_DIRECTORY) :
    ∀ e ∈ new_events st (do_magic w fuel who base wbase node false st).2.2,
      ∀ b, e.op = Op.call NFT_SYMLINK b → b = true :=
  new_events_of_emits (do_magic_symlink_calls w fuel who base wbase node false st
    (fun h => by rw [hdir] at h; cases h))

/-- C17 (witness): the run on the tree collected in `symlink_world` enters the
symlink `link` under tmpfs. -/
theorem symlinks_only_under_tmpfs_witness :
    symlink_root.type = NFT_DIRECTORY ∧
    { who := ["", "system", "etc", "link"], op := Op.call NFT_SYMLINK true, ok := true } ∈
      new_events init_state
        (do_magic symlink_world 8 [] "/" "/tmp/.magic_mount/workdir" symlink_root false
          init_state).2.2 ∧
    ∀ e ∈ new_events init_state
        (do_magic symlink_world 8 [] "/" "/tmp/.magic_mount/workdir" symlink_root false
          init_state).2.2,
      ∀ b, e.op = Op.call NFT_SYMLINK b → b = true :=
  ⟨rfl, by decide,
    symlinks_only_under_tmpfs symlink_world 8 [] "/" "/tmp/.magic_mount/workdir"
      symlink_root init_state rfl⟩

/-! ## Graft targets -/

theorem stat_directory_mode (s : Stat) (h : node_type_from_stat s = NFT_DIRECTORY) :
    s.mode = FileMode.dir := by
  unfold node_type_from_stat at h
  split at h
  · cases h
  · split at h
    · cases h
    · split at h
      · assumption
      · split at h <;> cases h

theorem directory_child_quiet (w : World) (x : Node) (rp : String)
    (hn : child_needs_tmpfs w x rp = false) (ht : x.type = NFT_DIRECTORY) :
    live_directory w rp := by
  unfold child_needs_tmpfs at hn
  rw [ht] at hn
  simp only [reduceCtorEq, if_false] at hn
  cases hl : w.lstat rp with
  | none => simp [hl] at hn
  | some s =>
    simp only [hl, decide_eq_false_iff_not, not_or, not_not] at hn
    exact ⟨s, hl, stat_directory_mode s hn.1⟩

/-- Every `MS_MOVE` of a run of `do_magic` has a live directory as its target,
provided the node the run starts at, if it is a directory with a module path
processed on the live tree, sits on a live directory. -/
theorem do_magic_moves (w : World) :
    ∀ (fuel : Nat) (who : List String) (base wbase : String) (node : Node)
      (ht : Bool) (st : MState),
      (ht = false → node.type = NFT_DIRECTORY → node.module_path.isSome = true →
        ∀ p, w.path_join base node.name = some p → live_directory w p) →
      Emits (fun e => ∀ src tgt, e.op = Op.move src tgt → live_directory w tgt) st
        (do_magic w fuel who base wbase node ht st).2.2 := by
  intro fuel
  induction fuel with
  | zero => intro who base wbase node ht st _; exact Emits_refl _ _
  | succ f ih =>
    intro who base wbase node ht st hroot
    rw [do_magic]
    split
    · rename_i path wpath hpath _
      simp only []
      have h0 : Emits (fun e => ∀ src tgt, e.op = Op.move src tgt → live_directory w tgt) st
          (emit st (who ++ [node.name]) (Op.call node.type ht) true) := by
        refine Emits_emit (Emits_refl _ _) ?_
        intro s t hb
        cases hb
      split
      · refine Emits_trans h0 (Emits_mono ?_
          (magic_regular_events w _ path wbase wpath node ht _))
        intro e he s t hb
        rcases he with ⟨_, h | h | ⟨mp, h⟩ | h | h⟩ <;> rw [h] at hb <;> cases hb
      · refine Emits_trans h0 (Emits_mono ?_ (magic_symlink_events w _ wpath node _))
        intro e he s t hb
        rcases he with ⟨_, mp, h⟩
        rw [h] at hb
        cases hb
      · exact Emits_bump_whiteout h0
      · rename_i htype
        refine Emits_trans h0 (magic_directory_seg _ (SegClosed_all _) w _ _ _ path wpath
          node ht _
          (fun b n t => b = false → t = NFT_DIRECTORY →
            ∃ rp, w.path_join path n = some rp ∧ live_directory w rp)
          (fun x b s => do_magic_name_type w f _ path wpath x b s) ?_ ?_ ?_ ?_ ?_)
        · intro ct cs s1 hd x hx hxs hq hxt
          obtain ⟨rp, hj, hn⟩ := decide_tmp_quiet w path node ht _ ct cs s1 hd hq x hx hxs
          exact ⟨rp, hj, directory_child_quiet w x rp hn hxt⟩
        · intro ct cs s1 _ nd s
          refine Seg_of_emits ?_ (enter_directory_events w _ path wpath nd ct _ s)
          intro e he s t hb
          rcases he with ⟨_, ⟨_, h | ⟨m, h⟩⟩ | ⟨_, h⟩⟩ <;> rw [h] at hb <;> cases hb
        · intro ct cs s1 hd nd s
          refine Seg_of_emits ?_ (finish_directory_events w _ path wpath nd ct s)
          intro e he s t hb
          rcases he with ⟨_, hct, h | h | h | h⟩ <;> rw [h] at hb <;> cases hb
          subst hct
          obtain ⟨h1, h2⟩ := decide_tmp_create w path node ht _ _ cs s1 hd
          exact hroot h1 htype h2 path hpath
        · intro b x s _ hE
          refine ih _ path wpath x b s ?_
          intro hb hxt _ p hp
          obtain ⟨rp, hj, hl⟩ := hE hb hxt
          rw [hj] at hp
          cases hp
          exact hl
        · intro d s _
          refine Seg_of_emits ?_ (mirror_ops w f _ path wpath d s)
          intro e he s t hb
          rw [hb] at he
          cases he
    · exact Emits_refl _ _

theorem promote_builtin_module_path (w : World) :
    ∀ (ps : List (String × Bool)) (root system r s : Node),
      promote_builtin w ps root system = some (r, s) →
      r.module_path = root.module_path ∧ s.module_path = system.module_path := by
  intro ps
  induction ps with
  | nil =>
    intro root system r s hp
    simp only [promote_builtin, Option.some.injEq, Prod.mk.injEq] at hp
    rw [← hp.1, ← hp.2]; exact ⟨rfl, rfl⟩
  | cons q qs ih =>
    intro root system r s hp
    obtain ⟨name, need⟩ := q
    rw [promote_builtin] at hp
    split at hp
    · split at hp
      · exact ih _ _ _ _ hp
      · split at hp
        · exact ih _ _ _ _ hp
        · split at hp
          · rename_i child system1 heq
            have := ih _ _ _ _ hp
            unfold node_take_child at heq
            split at heq
            · simp at heq
            · simp only [Prod.mk.injEq] at heq
              rw [← heq.2] at this
              exact this
          · rename_i system1 heq
            rw [take_child_none heq] at hp
            exact ih _ _ _ _ hp
    · cases hp

theorem promote_extra_module_path (w : World) :
    ∀ (ps : List String) (root system r s : Node),
      promote_extra w ps root system = some (r, s) →
      r.module_path = root.module_path ∧ s.module_path = system.module_path := by
  intro ps
  induction ps with
  | nil =>
    intro root system r s hp
    simp only [promote_extra, Option.some.injEq, Prod.mk.injEq] at hp
    rw [← hp.1, ← hp.2]; exact ⟨rfl, rfl⟩
  | cons name qs ih =>
    intro root system r s hp
    rw [promote_extra] at hp
    split at hp
    · cases hp
    · split at hp
      · exact ih _ _ _ _ hp
      · split at hp
        · rename_i child system1 heq
          have := ih _ _ _ _ hp
          unfold node_take_child at heq
          split at heq
          · simp at heq
          · simp only [Prod.mk.injEq] at heq
            rw [← heq.2] at this
            exact this
        · rename_i system1 heq
          rw [take_child_none heq] at hp
          exact ih _ _ _ _ hp

/-- The root that `collect_root` returns is a directory without module path,
and so is the `system` node, its last child. -/
theorem collected_root_plain (w : World) (fuel : Nat) (mdir : String)
    (extra_parts : List String) (st st1 : MountStats) (root : Node)
    (h : collect_root w fuel mdir extra_parts st = (Collected.tree root, st1)) :
    root.type = NFT_DIRECTORY ∧ root.module_path = none ∧
    ∃ system, root.children.getLast? = some system ∧ system.name = "system" ∧
      system.module_path = none := by
  unfold collect_root at h
  split at h
  · cases h
  · rename_i ents _
    unfold collect_listing at h
    simp only [] at h
    have hk := collect_modules_keeps w fuel mdir ents (node_new "system" NFT_DIRECTORY)
      false st [] _ rfl
    rcases hc : collect_modules w fuel mdir ents (node_new "system" NFT_DIRECTORY) false st
      with ⟨rc, system1, has_any, st2⟩
    rw [hc] at h hk
    obtain ⟨n', hn', sid⟩ := hk
    simp only [lookup_nil, Option.some.injEq] at hn'
    subst hn'
    cases rc
    · simp only [] at h
      split at h
      · cases h
      · cases hb : promote_builtin w builtin_parts (node_new "" NFT_DIRECTORY) system1 with
        | none => simp [hb] at h
        | some p1 =>
          obtain ⟨root1, system2⟩ := p1
          simp only [hb] at h
          cases he : promote_extra w extra_parts root1 system2 with
          | none => simp [he] at h
          | some p2 =>
            obtain ⟨root2, system3⟩ := p2
            simp only [he, Prod.mk.injEq, Collected.tree.injEq] at h
            obtain ⟨hroot, _⟩ := h
            subst hroot
            have b1 := promote_builtin_module_path w _ _ _ _ _ hb
            have b2 := promote_builtin_system_name w _ _ _ _ _ hb
            have e1 := promote_extra_module_path w _ _ _ _ _ he
            have e2 := promote_extra_system_name w _ _ _ _ _ he
            refine ⟨?_, ?_, system3, ?_, ?_, ?_⟩
            · show root2.type = NFT_DIRECTORY
              rw [e2.2.1, b2.2.1]; rfl
            · show root2.module_path = none
              rw [e1.1, b1.1]; rfl
            · simp [node_add_child]
            · rw [e2.2.2, b2.2.2]; exact sid.1.symm
            · rw [e1.2, b1.2]; exact sid.2.2.1.symm
    · simp at h
    · simp at h

/-- C12: in every execution of `do_magic` that the orchestrator starts on a
root built by the collector, with `parent_uses_tmpfs = false`, every `MS_MOVE`
issued, at any depth, has as its target a path for which `lstat` succeeded and
reported a directory (in the file system as it was read during the run): no
graft is attempted onto a missing path, a symlink or a non-directory. -/
theorem graft_target_is_live_directory (w : World) (cfuel fuel : Nat) (mdir : String)
    (extra_parts : List String) (stats stats1 : MountStats) (root : Node)
    (tmp_dir : String) (st : MState)
    (hroot : collect_root w cfuel mdir extra_parts stats = (Collected.tree root, stats1)) :
    ∀ e ∈ new_events st (do_magic w fuel [] "/" tmp_dir root false st).2.2,
      ∀ src tgt, e.op = Op.move src tgt →
        ∃ s, w.lstat tgt = some s ∧ s.mode = FileMode.dir := by
  have hp := collected_root_plain w cfuel mdir extra_parts stats stats1 root hroot
  exact new_events_of_emits (do_magic_moves w fuel [] "/" tmp_dir root false st
    (fun _ _ h => by rw [hp.2.1] at h; cases h))

/-- C12 (witness): the run on the tree collected in `replace_world`; it moves
the work directory of `MyApp` onto the live directory `/system/app/MyApp`. -/
theorem graft_target_is_live_directory_witness :
    collect_root replace_world 8 "/m" [] zero_stats =
      (Collected.tree replace_root, (collect_root replace_world 8 "/m" [] zero_stats).2) ∧
    { who := ["", "system", "app", "MyApp"],
      op := Op.move "/tmp/.magic_mount/workdir/system/app/MyApp" "/system/app/MyApp",
      ok := true } ∈
      new_events init_state
        (do_magic replace_world 8 [] "/" "/tmp/.magic_mount/workdir" replace_root false
          init_state).2.2 ∧
    ∀ e ∈ new_events init_state
        (do_magic replace_world 8 [] "/" "/tmp/.magic_mount/workdir" replace_root false
          init_state).2.2,
      ∀ src tgt, e.op = Op.move src tgt →
        ∃ s, replace_world.lstat tgt = some s ∧ s.mode = FileMode.dir :=
  ⟨rfl, by decide,
    graft_target_is_live_directory replace_world 8 8 "/m" [] zero_stats _ replace_root
      "/tmp/.magic_mount/workdir" init_state rfl⟩

/-! ## Read-only binds -/

theorem locked_after_append {who : List String} {tgt : String} {post : List Ev}
    (b : List Ev) (h : locked_after who tgt post) : locked_after who tgt (post ++ b) := by
  rcases h with ⟨r, h⟩ | ⟨r, h⟩
  · exact Or.inl ⟨r ++ b, by rw [h]; rfl⟩
  · exact Or.inr ⟨r ++ b, by rw [h]; rfl⟩

theorem regular_bind_prepend {who : List String} {tgt : String} {pre : List Ev}
    (a : List Ev) (h : regular_bind who tgt pre) : regular_bind who tgt (a ++ pre) := by
  rcases h with ⟨p, h⟩ | ⟨p, wb, h⟩
  · exact Or.inl ⟨a ++ p, by rw [h, List.append_assoc]⟩
  · exact Or.inr ⟨a ++ p, wb, by rw [h, List.append_assoc]⟩

theorem mirror_bind_prepend {who : List String} {tgt : String} {pre : List Ev}
    (a : List Ev) (h : mirror_bind who tgt pre) : mirror_bind who tgt (a ++ pre) := by
  obtain ⟨p, h⟩ := h
  exact ⟨a ++ p, by rw [h, List.append_assoc]⟩

theorem self_bind_prepend {who : List String} {src tgt : String} {pre : List Ev}
    (a : List Ev) (h : self_bind who src tgt pre) : self_bind who src tgt (a ++ pre) := by
  obtain ⟨hs, p, m, h⟩ := h
  exact ⟨hs, a ++ p, m, by rw [h, List.append_assoc]⟩

theorem binds_classified_closed : SegClosed binds_classified := by
  refine ⟨?_, ?_⟩
  · intro pre who src tgt post h
    simp at h
  · intro a b ha hb pre who src tgt post h
    rcases List.append_eq_append_iff.1 h with ⟨a', h1, h2⟩ | ⟨c', h1, h2⟩
    · rcases hb a' who src tgt post h2 with ⟨x, y⟩ | x | x
      · exact Or.inl ⟨h1 ▸ regular_bind_prepend a x, y⟩
      · exact Or.inr (Or.inl (h1 ▸ mirror_bind_prepend a x))
      · exact Or.inr (Or.inr (h1 ▸ self_bind_prepend a x))
    · cases c' with
      | nil =>
        simp only [List.nil_append] at h2
        simp only [List.append_nil] at h1
        rcases hb [] who src tgt post (by rw [← h2]; rfl) with ⟨x, y⟩ | x | x
        · exact Or.inl ⟨by simpa [h1] using regular_bind_prepend a x, y⟩
        · exact Or.inr (Or.inl (by simpa [h1] using mirror_bind_prepend a x))
        · exact Or.inr (Or.inr (by simpa [h1] using self_bind_prepend a x))
      | cons e c'' =>
        simp only [List.cons_append, List.cons.injEq] at h2
        obtain ⟨he, hp⟩ := h2
        subst he
        rcases ha pre who src tgt c'' h1 with ⟨x, y⟩ | x | x
        · exact Or.inl ⟨x, hp ▸ locked_after_append b y⟩
        · exact Or.inr (Or.inl x)
        · exact Or.inr (Or.inr x)

/-- A segment without successful bind is classified. -/
theorem binds_classified_of_none {evs : List Ev}
    (h : ∀ e ∈ evs, ∀ s t, ¬ (e.op = Op.bind s t ∧ e.ok = true)) : binds_classified evs := by
  intro pre who src tgt post he
  have hm : ({ who := who, op := Op.bind src tgt, ok := true } : Ev) ∈ evs := by
    rw [he]; simp
  exact absurd ⟨rfl, rfl⟩ (h _ hm src tgt)

/-- A segment with a single successful bind is classified when that bind is. -/
theorem binds_classified_one (pre0 post0 : List Ev) (who : List String) (src tgt : String)
    (hpre : ∀ e ∈ pre0, ∀ s t, ¬ (e.op = Op.bind s t ∧ e.ok = true))
    (hpost : ∀ e ∈ post0, ∀ s t, ¬ (e.op = Op.bind s t ∧ e.ok = true))
    (hcl : (regular_bind who tgt pre0 ∧ locked_after who tgt post0) ∨
      mirror_bind who tgt pre0 ∨ self_bind who src tgt pre0) :
    binds_classified (pre0 ++ { who := who, op := Op.bind src tgt, ok := true } :: post0) := by
  intro pre who1 src1 tgt1 post h
  rcases List.append_eq_append_iff.1 h with ⟨a', h1, h2⟩ | ⟨c', h1, h2⟩
  · cases a' with
    | nil =>
      simp only [List.nil_append, List.cons.injEq, Ev.mk.injEq, Op.bind.injEq,
        and_true] at h2
      obtain ⟨⟨hw, hs, ht⟩, hp⟩ := h2
      subst hw hs ht hp
      simpa [h1] using hcl
    | cons x a'' =>
      simp only [List.cons_append, List.cons.injEq] at h2
      exfalso
      refine hpost { who := who1, op := Op.bind src1 tgt1, ok := true } ?_ src1 tgt1
        ⟨rfl, rfl⟩
      rw [h2.2]; simp
  · cases c' with
    | nil =>
      simp only [List.nil_append, List.cons.injEq, Ev.mk.injEq, Op.bind.injEq,
        and_true] at h2
      obtain ⟨⟨hw, hs, ht⟩, hp⟩ := h2
      subst hw hs ht hp
      simp only [List.append_nil] at h1
      rw [← h1]
      exact hcl
    | cons x c'' =>
      simp only [List.cons_append, List.cons.injEq] at h2
      exfalso
      refine hpre { who := who1, op := Op.bind src1 tgt1, ok := true } ?_ src1 tgt1
        ⟨rfl, rfl⟩
      rw [h1, ← h2.1]; simp

/-- The events of the regular-file case, with the entry mark before them, are
classified: a bind that succeeded is followed by the read-only remount of its
target, with at most the notification in between. -/
theorem magic_regular_classified (w : World) (me : List String)
    (path wbase wpath : String) (node : Node) (ht : Bool) (st : MState) :
    Seg binds_classified st
      (magic_regular w me path wbase wpath node ht
        (emit st me (Op.call NFT_REGULAR ht) true)).2 := by
  unfold magic_regular
  simp only [sys, emit]
  cases ht
  · simp only [Bool.false_eq_true, if_false]
    cases node.module_path with
    | none =>
      exact ⟨_, rfl, binds_classified_of_none (by simp)⟩
    | some mp =>
      simp only []
      cases w.sys_ok (st.trace ++ [{ who := me, op := Op.call NFT_REGULAR false, ok := true }])
        (Op.bind mp path)
      · simp only []
        refine ⟨_, by simp only [List.append_assoc, List.singleton_append]; rfl,
          binds_classified_of_none (by simp)⟩
      · simp only []
        split
        · refine ⟨_, by simp only [bump_mounted, List.append_assoc, List.singleton_append]; rfl,
            ?_⟩
          exact binds_classified_one
            [{ who := me, op := Op.call NFT_REGULAR false, ok := true }]
            [{ who := me, op := Op.notify path, ok := true },
             { who := me, op := Op.remount_ro path, ok := true }] me mp path
            (by simp) (by simp) (Or.inl ⟨Or.inl ⟨[], rfl⟩, Or.inr ⟨_, rfl⟩⟩)
        · refine ⟨_, by simp only [bump_mounted, List.append_assoc, List.singleton_append]; rfl,
            ?_⟩
          exact binds_classified_one
            [{ who := me, op := Op.call NFT_REGULAR false, ok := true }]
            [{ who := me, op := Op.remount_ro path, ok := true }] me mp path
            (by simp) (by simp) (Or.inl ⟨Or.inl ⟨[], rfl⟩, Or.inl ⟨_, rfl⟩⟩)
  · simp only [if_true]
    cases w.sys_ok (st.trace ++ [{ who := me, op := Op.call NFT_REGULAR true, ok := true }])
      (Op.mkdir_p wbase)
    · simp only []
      refine ⟨_, by simp only [List.append_assoc, List.singleton_append]; rfl,
        binds_classified_of_none (by simp)⟩
    · simp only []
      cases w.sys_ok (st.trace ++ [{ who := me, op := Op.call NFT_REGULAR true, ok := true }] ++
        [{ who := me, op := Op.mkdir_p wbase, ok := true }]) (Op.creat wpath)
      · simp only []
        refine ⟨_, by simp only [List.append_assoc, List.singleton_append]; rfl,
          binds_classified_of_none (by simp)⟩
      · simp only []
        cases node.module_path with
        | none =>
          simp only []
          refine ⟨_, by simp only [List.append_assoc, List.singleton_append]; rfl,
            binds_classified_of_none (by simp)⟩
        | some mp =>
          simp only []
          cases w.sys_ok (st.trace ++
            [{ who := me, op := Op.call NFT_REGULAR true, ok := true }] ++
            [{ who := me, op := Op.mkdir_p wbase, ok := true }] ++
            [{ who := me, op := Op.creat wpath, ok := true }]) (Op.bind mp wpath)
          · simp only []
            refine ⟨_, by simp only [List.append_assoc, List.singleton_append]; rfl,
              binds_classified_of_none (by simp)⟩
          · simp only []
            split
            · refine ⟨_, by
                simp only [bump_mounted, List.append_assoc, List.singleton_append]; rfl, ?_⟩
              exact binds_classified_one
                [{ who := me, op := Op.call NFT_REGULAR true, ok := true },
                 { who := me, op := Op.mkdir_p wbase, ok := true },
                 { who := me, op := Op.creat wpath, ok := true }]
                [{ who := me, op := Op.notify wpath, ok := true },
                 { who := me, op := Op.remount_ro wpath, ok := true }] me mp wpath
                (by simp) (by simp) (Or.inl ⟨Or.inr ⟨[], wbase, rfl⟩, Or.inr ⟨_, rfl⟩⟩)
            · refine ⟨_, by
                simp only [bump_mounted, List.append_assoc, List.singleton_append]; rfl, ?_⟩
              exact binds_classified_one
                [{ who := me, op := Op.call NFT_REGULAR true, ok := true },
                 { who := me, op := Op.mkdir_p wbase, ok := true },
                 { who := me, op := Op.creat wpath, ok := true }]
                [{ who := me, op := Op.remount_ro wpath, ok := true }] me mp wpath
                (by simp) (by simp) (Or.inl ⟨Or.inr ⟨[], wbase, rfl⟩, Or.inl ⟨_, rfl⟩⟩)

theorem Seg_classified_of_emits {P : Ev → Prop} {a b : MState}
    (h : ∀ e, P e → ∀ s t, ¬ (e.op = Op.bind s t ∧ e.ok = true)) (h1 : Emits P a b) :
    Seg binds_classified a b := by
  obtain ⟨evs, t, p⟩ := h1
  exact ⟨evs, t, binds_classified_of_none (fun e he => h e (p e he))⟩

/-- When `prepare_tmp` succeeds it has created the work directory and set its
metadata, in that order, and nothing else. -/
theorem prepare_tmp_ok (w : World) (me : List String) (path wpath : String) (node : Node)
    (st st1 : MState) (h : prepare_tmp w me path wpath node st = (Rc.ok, st1)) :
    ∃ m, st1.trace = st.trace ++ [{ who := me, op := Op.mkdir_p wpath, ok := true },
      { who := me, op := Op.set_meta wpath m, ok := true }] := by
  unfold prepare_tmp at h
  simp only [sys, emit] at h
  cases hk : w.sys_ok st.trace (Op.mkdir_p wpath)
  · simp [hk] at h
  · simp only [hk] at h
    split at h
    · simp only [Prod.mk.injEq, true_and] at h
      exact ⟨path, by rw [← h]; simp⟩
    · split at h
      · simp at h
      · split at h
        · rename_i mp _ _
          simp only [Prod.mk.injEq, true_and] at h
          exact ⟨mp, by rw [← h]; simp⟩
        · simp at h

/-- The events of entering a directory are classified: the only bind is the
self-bind of the work directory, right after its metadata were set. -/
theorem enter_directory_classified (w : World) (me : List String)
    (path wpath : String) (node : Node) (ct ht : Bool) (st : MState) :
    Seg binds_classified st (enter_directory w me path wpath node ct (ht || ct) st).2 := by
  cases ct
  · refine Seg_classified_of_emits ?_
      (enter_directory_events w me path wpath node false (ht || false) st)
    intro e he s t hb
    rcases he with ⟨_, ⟨_, h | ⟨m, h⟩⟩ | ⟨h, _⟩⟩
    · rw [h] at hb; cases hb.1
    · rw [h] at hb; cases hb.1
    · cases h
  · unfold enter_directory
    simp only [Bool.or_true, if_true]
    have hp := prepare_tmp_events w me path wpath node st
    rcases hr : prepare_tmp w me path wpath node st with ⟨rc, st2⟩
    rw [hr] at hp
    have hnb : Seg binds_classified st st2 := by
      refine Seg_classified_of_emits ?_ hp
      intro e he s t hb
      rcases he with ⟨_, h | ⟨m, h⟩⟩ <;> rw [h] at hb <;> cases hb.1
    cases rc
    · simp only []
      obtain ⟨m, htr⟩ := prepare_tmp_ok w me path wpath node st st2 hr
      simp only [sys, emit]
      cases w.sys_ok st2.trace (Op.bind wpath wpath)
      · simp only []
        refine ⟨_, by rw [htr, List.append_assoc], binds_classified_of_none (by simp)⟩
      · simp only []
        refine ⟨_, by rw [htr, List.append_assoc], ?_⟩
        exact binds_classified_one
          [{ who := me, op := Op.mkdir_p wpath, ok := true },
           { who := me, op := Op.set_meta wpath m, ok := true }] [] me wpath wpath
          (by simp) (by simp)
          (Or.inr (Or.inr ⟨rfl, [{ who := me, op := Op.mkdir_p wpath, ok := true }], m, rfl⟩))
    · exact hnb
    · exact hnb

theorem mirror_entries_seg (S : List Ev → Prop) (hS : SegClosed S)
    (mir : String → MState → Rc × MState)
    (hmir : ∀ d s, Seg S s (mir d s).2) :
    ∀ (ents : List String) (st : MState), Seg S st (mirror_entries mir ents st).2
  | [], st => Seg_refl hS _
  | d :: ds, st => by
    rw [mirror_entries]
    split
    · exact mirror_entries_seg S hS mir hmir ds st
    · have h := hmir d st
      rcases hr : mir d st with ⟨rc, st1⟩
      rw [hr] at h
      cases rc
      · exact Seg_trans hS h (mirror_entries_seg S hS mir hmir ds st1)
      · exact h
      · exact h

/-- The events of a call of `mirror` are classified: its only bind is that of a
live regular file onto the work file created just before, and nothing follows
it. -/
theorem mirror_classified (w : World) :
    ∀ (fuel : Nat) (who : List String) (path work name : String) (st : MState),
      Seg binds_classified st (mirror w fuel who path work name st).2 := by
  intro fuel
  induction fuel with
  | zero => intro who path work name st; exact Seg_refl binds_classified_closed _
  | succ f ih =>
    intro who path work name st
    rw [mirror]
    split
    · rename_i src dst _ _
      simp only [sys, emit, clone_symlink]
      split
      · exact ⟨_, rfl, binds_classified_of_none (by simp)⟩
      · split
        · cases w.sys_ok (st.trace ++ [{ who := who ++ [name], op := Op.mirror_call, ok := true }])
            (Op.creat dst)
          · simp only []
            refine ⟨_, by simp only [List.append_assoc, List.singleton_append]; rfl,
              binds_classified_of_none (by simp)⟩
          · simp only []
            cases w.sys_ok (st.trace ++
              [{ who := who ++ [name], op := Op.mirror_call, ok := true }] ++
              [{ who := who ++ [name], op := Op.creat dst, ok := true }]) (Op.bind src dst)
            · simp only []
              refine ⟨_, by simp only [List.append_assoc, List.singleton_append]; rfl,
                binds_classified_of_none (by simp)⟩
            · simp only []
              refine ⟨_, by simp only [List.append_assoc, List.singleton_append]; rfl, ?_⟩
              exact binds_classified_one
                [{ who := who ++ [name], op := Op.mirror_call, ok := true },
                 { who := who ++ [name], op := Op.creat dst, ok := true }] []
                (who ++ [name]) src dst (by simp) (by simp) (Or.inr (Or.inl ⟨[], rfl⟩))
        · split
          · cases w.sys_ok (st.trace ++
              [{ who := who ++ [name], op := Op.mirror_call, ok := true }]) (Op.mkdir dst)
            · simp only []
              refine ⟨_, by simp only [List.append_assoc, List.singleton_append]; rfl,
                binds_classified_of_none (by simp)⟩
            · simp only []
              have h1 : Seg binds_classified st
                  { stats := st.stats, failed := st.failed,
                    trace := st.trace ++
                      [{ who := who ++ [name], op := Op.mirror_call, ok := true }] ++
                      [{ who := who ++ [name], op := Op.mkdir dst, ok := true }] ++
                      [{ who := who ++ [name], op := Op.set_meta dst src, ok := true }] } :=
                ⟨_, by simp only [List.append_assoc, List.singleton_append]; rfl,
                  binds_classified_of_none (by simp)⟩
              split
              · exact h1
              · exact Seg_trans binds_classified_closed h1
                  (mirror_entries_seg _ binds_classified_closed _
                    (fun d s => ih (who ++ [name]) src dst d s) _ _)
          · split
            · cases w.sys_ok (st.trace ++
                [{ who := who ++ [name], op := Op.mirror_call, ok := true }])
                (Op.clone_symlink src dst)
              · simp only []
                refine ⟨_, by simp only [List.append_assoc, List.singleton_append]; rfl,
                  binds_classified_of_none (by simp)⟩
              · simp only []
                refine ⟨_, by simp only [List.append_assoc, List.singleton_append]; rfl,
                  binds_classified_of_none (by simp)⟩
            · exact ⟨_, rfl, binds_classified_of_none (by simp)⟩
    · exact Seg_refl binds_classified_closed _

theorem new_events_of_seg {S : List Ev → Prop} {a b : MState} (h : Seg S a b) :
    S (new_events a b) := by
  obtain ⟨evs, t, p⟩ := h
  unfold new_events
  rw [t, List.drop_left]
  exact p

/-- The events of a run of `do_magic` are classified. -/
theorem do_magic_classified (w : World) :
    ∀ (fuel : Nat) (who : List String) (base wbase : String) (node : Node)
      (ht : Bool) (st : MState),
      Seg binds_classified st (do_magic w fuel who base wbase node ht st).2.2 := by
  intro fuel
  induction fuel with
  | zero => intro who base wbase node ht st; exact Seg_refl binds_classified_closed _
  | succ f ih =>
    intro who base wbase node ht st
    rw [do_magic]
    split
    · rename_i path wpath _ _
      simp only []
      have h0 : Seg binds_classified st
          (emit st (who ++ [node.name]) (Op.call node.type ht) true) :=
        ⟨_, rfl, binds_classified_of_none (by simp)⟩
      split
      · rename_i htype
        have := magic_regular_classified w (who ++ [node.name]) path wbase wpath node ht st
        rw [← htype] at this
        exact this
      · refine Seg_trans binds_classified_closed h0
          (Seg_classified_of_emits ?_ (magic_symlink_events w _ wpath node _))
        intro e he s t hb
        rcases he with ⟨_, mp, h⟩
        rw [h] at hb
        cases hb.1
      · exact Seg_same_trace h0 rfl
      · refine Seg_trans binds_classified_closed h0
          (magic_directory_seg _ binds_classified_closed w _ _ _ path wpath
          node ht _ (fun _ _ _ => True)
          (fun x b s => do_magic_name_type w f _ path wpath x b s) ?_ ?_ ?_ ?_ ?_)
        · intro ct cs s1 _ x _ _
          trivial
        · intro ct cs s1 _ nd s
          exact enter_directory_classified w _ path wpath nd ct ht s
        · intro ct cs s1 _ nd s
          refine Seg_classified_of_emits ?_ (finish_directory_events w _ path wpath nd ct s)
          intro e he s t hb
          rcases he with ⟨_, _, h | h | h | h⟩ <;> rw [h] at hb <;> cases hb.1
        · intro b x s _ _
          exact ih _ path wpath x b s
        · intro d s _
          exact mirror_classified w f _ path wpath d s
    · exact Seg_refl binds_classified_closed _

/-- C11 (counterexample): in the whiteout scenario `mirror` binds the live file
`/system/etc/hosts` onto its work file, and the whole run issues no read-only
remount of that target. -/
theorem mirror_bind_not_remounted :
    { who := ["", "system", "etc", "hosts"],
      op := Op.bind "/system/etc/hosts" "/tmp/.magic_mount/workdir/system/etc/hosts",
      ok := true } ∈ whiteout_run.2.trace ∧
    ∀ e ∈ whiteout_run.2.trace,
      e.op ≠ Op.remount_ro "/tmp/.magic_mount/workdir/system/etc/hosts" := by
  refine ⟨by decide, by decide⟩

/-- C11 (amended): in every run of `do_magic`, each bind that succeeded is of
one of three kinds, told apart by the events right before it. A bind of the
regular-file case of `do_magic` (a module file bound onto the live path, or
onto the work file just created) is followed at once by the read-only remount
of the same target by the same call, with at most the notification of that
target in between. The other two kinds are the bind that `mirror` makes of a
live file onto the work file it just created, and the self-bind of a work
directory. `mirror` itself issues no read-only remount at all. -/
theorem regular_binds_read_only (w : World) (fuel : Nat) (who : List String)
    (base wbase : String) (node : Node) (ht : Bool) (st : MState) :
    binds_classified (new_events st (do_magic w fuel who base wbase node ht st).2.2) ∧
    ∀ (path work name : String) (s : MState),
      ∀ e ∈ new_events s (mirror w fuel who path work name s).2,
        ∀ t, e.op ≠ Op.remount_ro t := by
  refine ⟨new_events_of_seg (do_magic_classified w fuel who base wbase node ht st), ?_⟩
  intro path work name s e he t hop
  have := new_events_of_emits (mirror_ops w fuel who path work name s) e he
  rw [hop] at this
  cases this

/-! ## Notification -/

theorem new_events_append (st st1 : MState) (evs : List Ev)
    (h : st1.trace = st.trace ++ evs) : new_events st st1 = evs := by
  unfold new_events
  rw [h, List.drop_left]

/-- C13 (counterexample): with the temp root `/tmp/mm` the module file `x.apk`
of the replace-directory scenario is processed under tmpfs, bound onto its
work path inside `/tmp/mm/workdir`, and that work path is notified. -/
theorem work_path_notified :
    { who := ["", "system", "app", "MyApp", "x.apk"], op := Op.call NFT_REGULAR true,
      ok := true } ∈ replace_run_mm.2.trace ∧
    { who := ["", "system", "app", "MyApp", "x.apk"],
      op := Op.bind "/m/A/system/app/MyApp/x.apk" "/tmp/mm/workdir/system/app/MyApp/x.apk",
      ok := true } ∈ replace_run_mm.2.trace ∧
    { who := ["", "system", "app", "MyApp", "x.apk"],
      op := Op.notify "/tmp/mm/workdir/system/app/MyApp/x.apk", ok := true } ∈
      replace_run_mm.2.trace := by
  refine ⟨by decide, by decide, by decide⟩

/-- C13 (amended): for a Regular node with a module path whose two paths join,
`do_magic` notifies only the bind target (the work path under tmpfs, the live
path otherwise) and only after the bind succeeded; after a successful bind it
notifies the target if and only if the target does not contain the substring
`.magic_mount/workdir/`, whatever the temp root and whether or not the parent
uses tmpfs. -/
theorem notify_iff_no_workdir_substring (w : World) (fuel : Nat) (who : List String)
    (base wbase path wpath mp : String) (node : Node) (ht : Bool) (st : MState)
    (htype : node.type = NFT_REGULAR) (hmp : node.module_path = some mp)
    (hpath : w.path_join base node.name = some path)
    (hwpath : w.path_join wbase node.name = some wpath) :
    ({ who := who ++ [node.name], op := Op.bind mp (if ht then wpath else path),
       ok := true } ∈ new_events st (do_magic w (fuel + 1) who base wbase node ht st).2.2 →
      ({ who := who ++ [node.name], op := Op.notify (if ht then wpath else path),
         ok := true } ∈ new_events st (do_magic w (fuel + 1) who base wbase node ht st).2.2 ↔
        strstr (if ht then wpath else path) ".magic_mount/workdir/" = false)) ∧
    (∀ e ∈ new_events st (do_magic w (fuel + 1) who base wbase node ht st).2.2,
      ∀ t, e.op = Op.notify t →
        t = (if ht then wpath else path) ∧
        { who := who ++ [node.name], op := Op.bind mp (if ht then wpath else path),
          ok := true } ∈ new_events st (do_magic w (fuel + 1) who base wbase node ht st).2.2) := by
  rw [do_magic]
  simp only [hpath, hwpath, htype]
  unfold magic_regular
  simp only [sys, emit, hmp]
  cases ht
  · simp only [Bool.false_eq_true, if_false]
    cases w.sys_ok
      (st.trace ++ [{ who := who ++ [node.name], op := Op.call NFT_REGULAR false, ok := true }])
      (Op.bind mp path)
    · simp only []
      rw [new_events_append st _ _ (by
        simp only [List.append_assoc, List.singleton_append]; rfl)]
      simp
    · simp only []
      split
      · rename_i hs
        rw [new_events_append st _ _ (by
          simp only [bump_mounted, List.append_assoc, List.singleton_append]; rfl)]
        simp [hs]
      · rename_i hs
        rw [new_events_append st _ _ (by
          simp only [bump_mounted, List.append_assoc, List.singleton_append]; rfl)]
        have hs1 : strstr path ".magic_mount/workdir/" = true := by simpa using hs
        simp [hs1]
  · simp only [if_true]
    cases w.sys_ok
      (st.trace ++ [{ who := who ++ [node.name], op := Op.call NFT_REGULAR true, ok := true }])
      (Op.mkdir_p wbase)
    · simp only []
      rw [new_events_append st _ _ (by
        simp only [List.append_assoc, List.singleton_append]; rfl)]
      simp
    · simp only []
      cases w.sys_ok
        (st.trace ++ [{ who := who ++ [node.name], op := Op.call NFT_REGULAR true, ok := true }] ++
          [{ who := who ++ [node.name], op := Op.mkdir_p wbase, ok := true }])
        (Op.creat wpath)
      · simp only []
        rw [new_events_append st _ _ (by
          simp only [List.append_assoc, List.singleton_append]; rfl)]
        simp
      · simp only []
        cases w.sys_ok
          (st.trace ++ [{ who := who ++ [node.name], op := Op.call NFT_REGULAR true, ok := true }] ++
            [{ who := who ++ [node.name], op := Op.mkdir_p wbase, ok := true }] ++
            [{ who := who ++ [node.name], op := Op.creat wpath, ok := true }])
          (Op.bind mp wpath)
        · simp only []
          rw [new_events_append st _ _ (by
            simp only [List.append_assoc, List.singleton_append]; rfl)]
          simp
        · simp only []
          split
          · rename_i hs
            rw [new_events_append st _ _ (by
              simp only [bump_mounted, List.append_assoc, List.singleton_append]; rfl)]
            simp [hs]
          · rename_i hs
            rw [new_events_append st _ _ (by
              simp only [bump_mounted, List.append_assoc, List.singleton_append]; rfl)]
            have hs1 : strstr wpath ".magic_mount/workdir/" = true := by simpa using hs
            simp [hs1]

/-- C13 (witness): the module file `x.apk` of the replace-directory scenario,
processed under tmpfs below the temp root `/tmp/.magic_mount`: the bind onto the
work path succeeds and the work path, which contains `.magic_mount/workdir/`,
is not notified. -/
theorem notify_iff_no_workdir_substring_witness :
    apk_node.type = NFT_REGULAR ∧
    apk_node.module_path = some "/m/A/system/app/MyApp/x.apk" ∧
    replace_world.path_join "/system/app/MyApp" apk_node.name =
      some "/system/app/MyApp/x.apk" ∧
    replace_world.path_join "/tmp/.magic_mount/workdir/system/app/MyApp" apk_node.name =
      some "/tmp/.magic_mount/workdir/system/app/MyApp/x.apk" ∧
    { who := ["", "system", "app", "MyApp"] ++ [apk_node.name],
      op := Op.bind "/m/A/system/app/MyApp/x.apk"
        "/tmp/.magic_mount/workdir/system/app/MyApp/x.apk", ok := true } ∈
      new_events init_state
        (do_magic replace_world (0 + 1) ["", "system", "app", "MyApp"] "/system/app/MyApp"
          "/tmp/.magic_mount/workdir/system/app/MyApp" apk_node true init_state).2.2 ∧
    ¬ { who := ["", "system", "app", "MyApp"] ++ [apk_node.name],
        op := Op.notify "/tmp/.magic_mount/workdir/system/app/MyApp/x.apk", ok := true } ∈
      new_events init_state
        (do_magic replace_world (0 + 1) ["", "system", "app", "MyApp"] "/system/app/MyApp"
          "/tmp/.magic_mount/workdir/system/app/MyApp" apk_node true init_state).2.2 :=
  ⟨rfl, rfl, rfl, rfl, by decide, fun h => absurd
    (((notify_iff_no_workdir_substring replace_world 0 ["", "system", "app", "MyApp"]
      "/system/app/MyApp" "/tmp/.magic_mount/workdir/system/app/MyApp"
      "/system/app/MyApp/x.apk" "/tmp/.magic_mount/workdir/system/app/MyApp/x.apk"
      "/m/A/system/app/MyApp/x.apk" apk_node true init_state rfl rfl rfl rfl).1
      (by decide)).1 h) (by decide)⟩

/-! ## Failure accounting -/

/-- The run of `marker_fails_world` returns 0 although two failures were
counted (the marker file, and `MyApp` through it) and module `A` is registered
as failed; nothing was moved and `x.apk` was never processed. -/
theorem marker_fails_eval :
    marker_fails_run.1 = Rc.ok ∧ marker_fails_run.2.stats.nodes_fail = 2 ∧
    marker_fails_run.2.failed = ["A"] ∧
    (∀ e ∈ marker_fails_run.2.trace, is_move e.op = false) ∧
    (∀ e ∈ marker_fails_run.2.trace, ¬ ["", "system", "app", "MyApp", "x.apk"] <+: e.who) := by
  refine ⟨by rfl, by rfl, by rfl, ?_, by decide⟩
  decide

/-- The failed list after `register_module_failure`: the name is a member, added
at the end if it was absent, the list unchanged otherwise. -/
theorem register_module_failure_spec (failed : List String) (m : String) :
    m ∈ register_module_failure failed (some m) ∧
    register_module_failure failed (some m) =
      (if m ∈ failed then failed else failed ++ [m]) := by
  refine ⟨?_, rfl⟩
  unfold register_module_failure
  simp only []
  split
  · assumption
  · simp

/-- The steps of the two passes at a failing entry, for any recursive functions
`rec` and `mir` in place of `do_magic` on a child and `mirror` on a live name.
(a) The accounting `fail_child` adds one to `nodes_fail`, touches no other
counter and issues nothing; the module name of the failing child if it has
one, otherwise that of the directory, is a member of the failed list
afterwards, added at the end if absent, the list unchanged otherwise.
(b, c, d) When the call for the first entry fails, in the first pass for a
child or for a mirrored name, or in the second pass, the failure is accounted;
with `now_tmp` the pass returns failure at once, whatever entries remain, and
without it the pass goes on with the next entry. (e, f) A pass that returns
failure makes `directory_passes` return failure in the very state the pass
ended in. (g) Once the decision is taken and the directory entered,
`magic_directory` returns what `directory_passes` returns. -/
theorem pass_failure_steps (rec : Node → MState → Rc × Node × MState)
    (mir : String → MState → Rc × MState) (now_tmp : Bool) :
    (∀ (st : MState) (child_mn parent_mn : Option String),
      (fail_child st child_mn parent_mn).stats =
        { st.stats with nodes_fail := st.stats.nodes_fail + 1 } ∧
      (fail_child st child_mn parent_mn).trace = st.trace ∧
      ∀ m, (child_mn = some m ∨ (child_mn = none ∧ parent_mn = some m)) →
        m ∈ (fail_child st child_mn parent_mn).failed ∧
        (fail_child st child_mn parent_mn).failed =
          (if m ∈ st.failed then st.failed else st.failed ++ [m])) ∧
    (∀ (d : String) (ds : List String) (node c c1 : Node) (st st1 : MState),
      d ≠ "." → d ≠ ".." → node_find_child node d = some c → c.skip = false →
      rec { c with done := true } st = (Rc.err, c1, st1) →
      live_entries rec mir now_tmp (d :: ds) node st =
        (if now_tmp then
          (Rc.err, set_child node d c1, fail_child st1 c1.module_name node.module_name)
        else live_entries rec mir now_tmp ds (set_child node d c1)
          (fail_child st1 c1.module_name node.module_name))) ∧
    (∀ (d : String) (ds : List String) (node : Node) (st st1 : MState),
      d ≠ "." → d ≠ ".." → node_find_child node d = none → now_tmp = true →
      mir d st = (Rc.err, st1) →
      live_entries rec mir now_tmp (d :: ds) node st =
        (Rc.err, node, fail_child st1 none node.module_name)) ∧
    (∀ (pmn : Option String) (c c1 : Node) (cs : List Node) (st st1 : MState),
      c.skip = false → c.done = false → rec c st = (Rc.err, c1, st1) →
      rest_children rec now_tmp pmn (c :: cs) st =
        (if now_tmp then (Rc.err, c1 :: cs, fail_child st1 c1.module_name pmn)
        else
          ((rest_children rec now_tmp pmn cs (fail_child st1 c1.module_name pmn)).1,
            c1 :: (rest_children rec now_tmp pmn cs (fail_child st1 c1.module_name pmn)).2.1,
            (rest_children rec now_tmp pmn cs (fail_child st1 c1.module_name pmn)).2.2))) ∧
    (∀ (w : World) (rec2 : Node → Bool → MState → Rc × Node × MState) (me : List String)
      (path wpath : String) (node node1 : Node) (create_tmp : Bool) (ents : List String)
      (st st1 : MState),
      w.path_exists path = true → node.replace = false → w.readdir path = some ents →
      live_entries (fun c s => rec2 c now_tmp s) mir now_tmp ents node st =
        (Rc.err, node1, st1) →
      directory_passes w rec2 mir me path wpath node create_tmp now_tmp st =
        (Rc.err, node1, st1)) ∧
    (∀ (w : World) (rec2 : Node → Bool → MState → Rc × Node × MState) (me : List String)
      (path wpath : String) (node : Node) (create_tmp : Bool) (cs : List Node)
      (st st1 : MState),
      rest_children (fun c s => rec2 c now_tmp s) now_tmp node.module_name node.children st =
        (Rc.err, cs, st1) →
      second_pass w rec2 me path wpath node create_tmp now_tmp st =
        (Rc.err, { node with children := cs }, st1)) ∧
    (∀ (w : World) (rec2 : Node → Bool → MState → Rc × Node × MState) (me : List String)
      (path wpath : String) (node : Node) (ht ct : Bool) (cs : List Node)
      (s1 : MountStats) (st st3 : MState),
      decide_tmp w path node ht st.stats = (Rc.ok, ct, cs, s1) →
      enter_directory w me path wpath { node with children := cs } ct (ht || ct)
        { st with stats := s1 } = (Rc.ok, st3) →
      magic_directory w rec2 mir me path wpath node ht st =
        directory_passes w rec2 mir me path wpath { node with children := cs } ct
          (ht || ct) st3) := by
  refine ⟨?_, ?_, ?_, ?_, ?_, ?_, ?_⟩
  · intro st child_mn parent_mn
    refine ⟨rfl, rfl, ?_⟩
    intro m hm
    rcases hm with h | ⟨h1, h2⟩
    · subst h
      exact register_module_failure_spec st.failed m
    · subst h1 h2
      exact register_module_failure_spec st.failed m
  · intro d ds node c c1 st st1 h1 h2 hf hs hr
    rw [live_entries]
    simp only [h1, h2, or_self, if_false, hf]
    rw [if_neg (by simp [hs]), hr]
  · intro d ds node st st1 h1 h2 hf hn hm
    rw [live_entries]
    simp only [h1, h2, or_self, if_false, hf, hn, if_true, hm]
  · intro pmn c c1 cs st st1 hs hd hr
    rw [rest_children]
    simp only [hs, hd, Bool.false_eq_true, or_self, if_false, hr]
  · intro w rec2 me path wpath node node1 create_tmp ents st st1 hp hre hrd hl
    unfold directory_passes
    simp only [hp, hre, Bool.false_eq_true, not_false_eq_true, and_self, if_true, hrd, hl]
  · intro w rec2 me path wpath node create_tmp cs st st1 hr
    unfold second_pass
    simp only [hr]
  · intro w rec2 me path wpath node ht ct cs s1 st st3 hd he
    rw [magic_directory_enter, hd]
    simp only [he]

/-- In `marker_fails_world` the second pass over the children of `MyApp`,
assembled as tmpfs, calls `do_magic` on the marker file, whose bind fails: the
pass returns failure at once with one failure counted and module `A`
registered, and `x.apk` is left unprocessed. -/
theorem pass_failure_steps_marker :
    marker_node.skip = false ∧ marker_node.done = false ∧
    marker_call marker_node init_state =
      (Rc.err, (marker_call marker_node init_state).2.1,
        (marker_call marker_node init_state).2.2) ∧
    rest_children marker_call true (some "A") [marker_node, apk_node] init_state =
      (if true then
        (Rc.err, (marker_call marker_node init_state).2.1 :: [apk_node],
          fail_child (marker_call marker_node init_state).2.2
            (marker_call marker_node init_state).2.1.module_name (some "A"))
      else
        ((rest_children marker_call true (some "A") [apk_node]
            (fail_child (marker_call marker_node init_state).2.2
              (marker_call marker_node init_state).2.1.module_name (some "A"))).1,
          (marker_call marker_node init_state).2.1 ::
            (rest_children marker_call true (some "A") [apk_node]
              (fail_child (marker_call marker_node init_state).2.2
                (marker_call marker_node init_state).2.1.module_name (some "A"))).2.1,
          (rest_children marker_call true (some "A") [apk_node]
            (fail_child (marker_call marker_node init_state).2.2
              (marker_call marker_node init_state).2.1.module_name (some "A"))).2.2)) ∧
    (fail_child (marker_call marker_node init_state).2.2
      (marker_call marker_node init_state).2.1.module_name (some "A")).stats.nodes_fail = 1 ∧
    (fail_child (marker_call marker_node init_state).2.2
      (marker_call marker_node init_state).2.1.module_name (some "A")).failed = ["A"] :=
  ⟨rfl, rfl, rfl,
    (pass_failure_steps marker_call (fun _ s => (Rc.ok, s)) true).2.2.2.1 (some "A")
      marker_node (marker_call marker_node init_state).2.1 [apk_node] init_state
      (marker_call marker_node init_state).2.2 rfl rfl rfl,
    rfl, rfl⟩

/-! ## The tmpfs decision -/

theorem child_needs_tmpfs_iff (w : World) (c : Node) (rp : String) :
    child_needs_tmpfs w c rp = true ↔
      (c.type = NFT_SYMLINK ∨ (c.type = NFT_WHITEOUT ∧ w.path_exists rp = true) ∨
        ((c.type = NFT_REGULAR ∨ c.type = NFT_DIRECTORY) ∧
          (w.lstat rp = none ∨
            ∃ s, w.lstat rp = some s ∧
              (node_type_from_stat s ≠ c.type ∨ node_type_from_stat s = NFT_SYMLINK)))) := by
  unfold child_needs_tmpfs
  cases hl : w.lstat rp <;> cases ht : c.type <;> simp

theorem tagged_below_ne {me who : List String} {n : String}
    (h : (me ++ [n]) <+: who) : who ≠ me := by
  intro he
  have := h.length_le
  rw [he] at this
  simp at this

/-- When no tmpfs starts at a directory, no bind and no `MS_MOVE` is issued on
behalf of the directory itself. -/
theorem do_magic_no_own_graft (w : World) (fuel : Nat) (who : List String)
    (base wbase path wpath : String) (node : Node) (ht : Bool) (st : MState)
    (htype : node.type = NFT_DIRECTORY)
    (hpath : w.path_join base node.name = some path)
    (hwpath : w.path_join wbase node.name = some wpath)
    (hct : (decide_tmp w path node ht st.stats).2.1 = false) :
    Emits (fun e => e.who = who ++ [node.name] →
        (∀ s t, e.op ≠ Op.bind s t) ∧ (∀ s t, e.op ≠ Op.move s t)) st
      (do_magic w (fuel + 1) who base wbase node ht st).2.2 := by
  rw [do_magic]
  simp only [hpath, hwpath, htype]
  have h0 : Emits (fun e => e.who = who ++ [node.name] →
        (∀ s t, e.op ≠ Op.bind s t) ∧ (∀ s t, e.op ≠ Op.move s t)) st
      (emit st (who ++ [node.name]) (Op.call NFT_DIRECTORY ht) true) := by
    refine Emits_emit (Emits_refl _ _) ?_
    intro _
    exact ⟨fun s t h => (by cases h), fun s t h => (by cases h)⟩
  refine Emits_trans h0 (magic_directory_seg _ (SegClosed_all _) w _ _ _ path wpath
    node ht _ (fun _ _ _ => True)
    (fun x b s => do_magic_name_type w fuel _ path wpath x b s) ?_ ?_ ?_ ?_ ?_)
  · intro ct cs s1 _ x _ _
    trivial
  · intro ct cs s1 hd nd s
    have hc : ct = false := by
      have : (emit st (who ++ [node.name]) (Op.call NFT_DIRECTORY ht) true).stats = st.stats :=
        rfl
      rw [this] at hd
      rw [hd] at hct
      exact hct
    subst hc
    refine Seg_of_emits ?_ (enter_directory_events w _ path wpath nd false _ s)
    intro e he _
    rcases he with ⟨_, ⟨_, h | ⟨m, h⟩⟩ | ⟨h, _⟩⟩
    · rw [h]; exact ⟨fun s t h => (by cases h), fun s t h => (by cases h)⟩
    · rw [h]; exact ⟨fun s t h => (by cases h), fun s t h => (by cases h)⟩
    · cases h
  · intro ct cs s1 hd nd s
    have hc : ct = false := by
      have : (emit st (who ++ [node.name]) (Op.call NFT_DIRECTORY ht) true).stats = st.stats :=
        rfl
      rw [this] at hd
      rw [hd] at hct
      exact hct
    subst hc
    refine Seg_of_emits ?_ (finish_directory_events w _ path wpath nd false s)
    intro e he _
    rcases he with ⟨_, h, _⟩
    cases h
  · intro b x s _ _
    refine Seg_of_emits ?_ (do_magic_tagged w fuel _ path wpath x b s)
    intro e he hw
    exact absurd hw (tagged_below_ne he)
  · intro d s _
    refine Seg_of_emits ?_ (mirror_tagged w fuel _ path wpath d s)
    intro e he hw
    exact absurd hw (tagged_below_ne he)

theorem decide_tmp_module (w : World) (path : String) (node : Node) (stats : MountStats)
    (hmp : node.module_path.isSome = true)
    (hok : (decide_tmp w path node false stats).1 = Rc.ok) :
    ((decide_tmp w path node false stats).2.1 = true ↔
      (node.replace = true ∨ ∃ c ∈ node.children, demands_tmpfs w path c = true)) := by
  unfold decide_tmp at hok ⊢
  simp only [Bool.not_false, Bool.true_and, hmp, Bool.and_true] at hok ⊢
  cases hr : node.replace
  · simp only [hr, Bool.not_false, if_true, Bool.false_or] at hok ⊢
    have := (scan_children_module w path node.children stats).2.2.2 hok
    simpa using this
  · simp [hr]

/-- C15: a Directory node with a module path whose two paths join. Processed
with `parent_uses_tmpfs = false`: (a) when the tmpfs decision completes (no
path join of the scan fails), `create_tmp` is set if and only if the node is
marked replace or some child demands tmpfs; (b) a child whose live path joins
demands tmpfs if and only if it is a Symlink, or a Whiteout whose live entry
exists, or a Regular or Directory whose live entry is missing, of another
kind, or a symlink; (c) with `create_tmp` set, a run that returns 0 has moved
the work directory onto the live path; (d) with `create_tmp` not set, the run
issues no bind and no `MS_MOVE` on behalf of the directory itself. Processed
with `parent_uses_tmpfs = true`: (e) the decision is `create_tmp = false`,
without scanning, and (f) the run issues no bind and no `MS_MOVE` on behalf of
the directory itself: it is neither self-bound nor moved. -/
theorem tmpfs_decision (w : World) (fuel : Nat) (who : List String)
    (base wbase path wpath : String) (node : Node) (st : MState)
    (htype : node.type = NFT_DIRECTORY) (hmp : node.module_path.isSome = true)
    (hpath : w.path_join base node.name = some path)
    (hwpath : w.path_join wbase node.name = some wpath) :
    ((decide_tmp w path node false st.stats).1 = Rc.ok →
      ((decide_tmp w path node false st.stats).2.1 = true ↔
        (node.replace = true ∨ ∃ c ∈ node.children, demands_tmpfs w path c = true))) ∧
    (∀ (c : Node) (rp : String), w.path_join path c.name = some rp →
      (demands_tmpfs w path c = true ↔
        (c.type = NFT_SYMLINK ∨ (c.type = NFT_WHITEOUT ∧ w.path_exists rp = true) ∨
          ((c.type = NFT_REGULAR ∨ c.type = NFT_DIRECTORY) ∧
            (w.lstat rp = none ∨
              ∃ s, w.lstat rp = some s ∧
                (node_type_from_stat s ≠ c.type ∨ node_type_from_stat s = NFT_SYMLINK)))))) ∧
    ((decide_tmp w path node false st.stats).2.1 = true →
      (do_magic w (fuel + 1) who base wbase node false st).1 = Rc.ok →
      { who := who ++ [node.name], op := Op.move wpath path, ok := true } ∈
        new_events st (do_magic w (fuel + 1) who base wbase node false st).2.2) ∧
    ((decide_tmp w path node false st.stats).2.1 = false →
      ∀ e ∈ new_events st (do_magic w (fuel + 1) who base wbase node false st).2.2,
        e.who = who ++ [node.name] →
          (∀ s t, e.op ≠ Op.bind s t) ∧ (∀ s t, e.op ≠ Op.move s t)) ∧
    decide_tmp w path node true st.stats = (Rc.ok, false, node.children, st.stats) ∧
    (∀ e ∈ new_events st (do_magic w (fuel + 1) who base wbase node true st).2.2,
      e.who = who ++ [node.name] →
        (∀ s t, e.op ≠ Op.bind s t) ∧ (∀ s t, e.op ≠ Op.move s t)) := by
  refine ⟨decide_tmp_module w path node st.stats hmp, ?_, ?_, ?_, ?_, ?_⟩
  · intro c rp hj
    have hd : demands_tmpfs w path c = child_needs_tmpfs w c rp := by
      simp [demands_tmpfs, hj]
    rw [hd]
    exact child_needs_tmpfs_iff w c rp
  · intro hct hok
    exact do_magic_ok_graft w fuel who base wbase path wpath node false st htype hpath hwpath
      (fun _ => hct) hok
  · intro hct
    exact new_events_of_emits
      (do_magic_no_own_graft w fuel who base wbase path wpath node false st htype hpath
        hwpath hct)
  · simp [decide_tmp]
  · exact new_events_of_emits
      (do_magic_no_own_graft w fuel who base wbase path wpath node true st htype hpath
        hwpath (by simp [decide_tmp]))

/-- C15 (witness): the `etc` node of `whiteout_world`, which has a module path
and a whiteout child whose live entry exists: the decision completes, and
`create_tmp` is set exactly when the node is marked replace or a child demands
tmpfs, which `badfile` does. -/
theorem tmpfs_decision_witness :
    etc_node.type = NFT_DIRECTORY ∧ etc_node.module_path.isSome = true ∧
    whiteout_world.path_join "/system" etc_node.name = some "/system/etc" ∧
    whiteout_world.path_join "/tmp/.magic_mount/workdir/system" etc_node.name =
      some "/tmp/.magic_mount/workdir/system/etc" ∧
    (decide_tmp whiteout_world "/system/etc" etc_node false init_state.stats).1 = Rc.ok ∧
    demands_tmpfs whiteout_world "/system/etc" badfile_node = true ∧
    ((decide_tmp whiteout_world "/system/etc" etc_node false init_state.stats).2.1 = true ↔
      (etc_node.replace = true ∨
        ∃ c ∈ etc_node.children, demands_tmpfs whiteout_world "/system/etc" c = true)) :=
  ⟨rfl, rfl, rfl, rfl, rfl, rfl,
    (tmpfs_decision whiteout_world 3 ["", "system"] "/system"
      "/tmp/.magic_mount/workdir/system" "/system/etc" "/tmp/.magic_mount/workdir/system/etc"
      etc_node init_state rfl rfl rfl rfl).1 rfl⟩

/-! ## Return code of a directory on the live tree -/

/-- Without tmpfs the live-side enumeration never returns failure, and it
returns 0 when no call of `rec` runs out of fuel. -/
theorem live_entries_plain (rec : Node → MState → Rc × Node × MState)
    (mir : String → MState → Rc × MState) :
    ∀ (ents : List String) (node : Node) (st : MState),
      (live_entries rec mir false ents node st).1 ≠ Rc.err ∧
      ((∀ x s, (rec x s).1 ≠ Rc.fuel) →
        (live_entries rec mir false ents node st).1 = Rc.ok) := by
  intro ents
  induction ents with
  | nil => intro node st; exact ⟨by simp [live_entries], fun _ => rfl⟩
  | cons d ds ih =>
    intro node st
    rw [live_entries]
    split
    · exact ih node st
    · cases hf : node_find_child node d with
      | none =>
        simp only [Bool.false_eq_true, if_false]
        exact ih node st
      | some c =>
        simp only []
        split
        · exact ih _ st
        · have hnf : (∀ x s, (rec x s).1 ≠ Rc.fuel) →
              (rec { c with done := true } st).1 ≠ Rc.fuel := fun h => h _ _
          rcases hr : rec { c with done := true } st with ⟨rc, c1, st1⟩
          rw [hr] at hnf
          cases rc
          · exact ih _ st1
          · simp only [Bool.false_eq_true, if_false]
            exact ih _ _
          · exact ⟨by simp, fun h => absurd rfl (hnf h)⟩

/-- Without tmpfs the pass over the remaining children never returns failure,
and it returns 0 when no call of `rec` runs out of fuel. -/
theorem rest_children_plain (rec : Node → MState → Rc × Node × MState)
    (pmn : Option String) :
    ∀ (cs : List Node) (st : MState),
      (rest_children rec false pmn cs st).1 ≠ Rc.err ∧
      ((∀ x s, (rec x s).1 ≠ Rc.fuel) → (rest_children rec false pmn cs st).1 = Rc.ok) := by
  intro cs
  induction cs with
  | nil => intro st; exact ⟨by simp [rest_children], fun _ => rfl⟩
  | cons c cs ih =>
    intro st
    rw [rest_children]
    split
    · exact ih st
    · have hnf : (∀ x s, (rec x s).1 ≠ Rc.fuel) → (rec c st).1 ≠ Rc.fuel := fun h => h _ _
      rcases hr : rec c st with ⟨rc, c1, st1⟩
      rw [hr] at hnf
      cases rc
      · exact ih st1
      · simp only [Bool.false_eq_true, if_false]
        exact ih _
      · exact ⟨by simp, fun h => absurd rfl (hnf h)⟩

theorem second_pass_plain (w : World)
    (rec : Node → Bool → MState → Rc × Node × MState) (me : List String)
    (path wpath : String) (node : Node) (st : MState) :
    (second_pass w rec me path wpath node false false st).1 ≠ Rc.err ∧
    ((∀ x b s, (rec x b s).1 ≠ Rc.fuel) →
      (second_pass w rec me path wpath node false false st).1 = Rc.ok) := by
  unfold second_pass
  have h := rest_children_plain (fun c s => rec c false s) node.module_name node.children st
  rcases hr : rest_children (fun c s => rec c false s) false node.module_name
    node.children st with ⟨rc, cs, st1⟩
  rw [hr] at h
  cases rc
  · simp [finish_directory]
  · exact absurd rfl h.1
  · exact ⟨by simp, fun hf => h.2 (fun x s => hf x false s)⟩

theorem directory_passes_plain (w : World)
    (rec : Node → Bool → MState → Rc × Node × MState)
    (mir : String → MState → Rc × MState) (me : List String)
    (path wpath : String) (node : Node) (st : MState) :
    (directory_passes w rec mir me path wpath node false false st).1 ≠ Rc.err ∧
    ((∀ x b s, (rec x b s).1 ≠ Rc.fuel) →
      (directory_passes w rec mir me path wpath node false false st).1 = Rc.ok) := by
  unfold directory_passes
  split
  · split
    · simp only [Bool.false_eq_true, if_false]
      exact second_pass_plain w rec me path wpath node st
    · rename_i ents _
      have h := live_entries_plain (fun c s => rec c false s) mir ents node st
      rcases hr : live_entries (fun c s => rec c false s) mir false ents node st
        with ⟨rc, node1, st1⟩
      rw [hr] at h
      cases rc
      · exact second_pass_plain w rec me path wpath node1 st1
      · exact absurd rfl h.1
      · exact ⟨by simp, fun hf => h.2 (fun x s => hf x false s)⟩
  · exact second_pass_plain w rec me path wpath node st

/-- The tmpfs decision of a directory without module path, on the live tree:
no tmpfs; it completes exactly when every child path joins. -/
theorem decide_tmp_plain (w : World) (path : String) (node : Node) (stats : MountStats)
    (hmp : node.module_path = none) :
    (decide_tmp w path node false stats).2.1 = false ∧
    (decide_tmp w path node false stats).1 ≠ Rc.fuel ∧
    ((decide_tmp w path node false stats).1 = Rc.ok →
      (decide_tmp w path node false stats).2.2.1 = node.children.map (mark_skip w path) ∧
      (decide_tmp w path node false stats).2.2.2 =
        { stats with nodes_skipped :=
            stats.nodes_skipped + (node.children.filter (demands_tmpfs w path)).length }) ∧
    ((∀ c ∈ node.children, (w.path_join path c.name).isSome) →
      (decide_tmp w path node false stats).1 = Rc.ok) := by
  have h := scan_children_structural w path node.children stats
  unfold decide_tmp
  simp only [hmp, Option.isSome_none, Bool.and_false, Bool.not_false, Bool.true_and,
    if_true, Bool.false_or]
  rcases hs : scan_children w path false node.children stats with ⟨rc, found, cs, st1⟩
  rw [hs] at h
  simp only [] at h ⊢
  exact ⟨h.1, h.2.1, fun hok => (h.2.2.1 hok).2, h.2.2.2⟩

/-- The directory case of `do_magic` for a node without module path, on the
live tree, every child path joining: it never returns failure, and it returns
0 when no recursive call runs out of fuel. -/
theorem magic_directory_plain (w : World)
    (rec : Node → Bool → MState → Rc × Node × MState)
    (mir : String → MState → Rc × MState) (me : List String)
    (path wpath : String) (node : Node) (st : MState)
    (hmp : node.module_path = none)
    (hjoin : ∀ c ∈ node.children, (w.path_join path c.name).isSome) :
    (magic_directory w rec mir me path wpath node false st).1 ≠ Rc.err ∧
    ((∀ x b s, (rec x b s).1 ≠ Rc.fuel) →
      (magic_directory w rec mir me path wpath node false st).1 = Rc.ok) := by
  rw [magic_directory_enter]
  obtain ⟨h1, _, _, h4⟩ := decide_tmp_plain w path node st.stats hmp
  have hok := h4 hjoin
  rcases hd : decide_tmp w path node false st.stats with ⟨rc, ct, cs, s1⟩
  rw [hd] at h1 hok
  simp only [] at h1 hok
  subst h1 hok
  simp only [enter_directory, Bool.or_self, Bool.false_eq_true, if_false]
  exact directory_passes_plain w rec mir me path wpath _ _

theorem do_magic_plain (w : World) (fuel : Nat) (who : List String)
    (base wbase path wpath : String) (node : Node) (st : MState)
    (htype : node.type = NFT_DIRECTORY) (hmp : node.module_path = none)
    (hpath : w.path_join base node.name = some path)
    (hwpath : w.path_join wbase node.name = some wpath)
    (hjoin : ∀ c ∈ node.children, (w.path_join path c.name).isSome) :
    (do_magic w fuel who base wbase node false st).1 ≠ Rc.err := by
  cases fuel with
  | zero => simp [do_magic]
  | succ f =>
    rw [do_magic]
    simp only [hpath, hwpath, htype]
    exact (magic_directory_plain w _ _ _ path wpath node _ hmp hjoin).1

/-- The return code of `magic_mount` once the scaffold tmpfs is mounted is that
of `do_magic` on the root. -/
theorem magic_mount_mounted (w : World) (fuel : Nat) (mdir : String)
    (extra_parts : List String) (mount_source tmp_root tmp_dir : String) (st : MState)
    (root : Node) (stats1 : MountStats)
    (hroot : collect_root w fuel mdir extra_parts st.stats = (Collected.tree root, stats1))
    (htmp : w.path_join tmp_root "workdir" = some tmp_dir)
    (hmnt : { who := [], op := Op.mount_tmpfs mount_source tmp_dir, ok := true } ∈
      new_events st (magic_mount w fuel mdir extra_parts mount_source tmp_root st).2) :
    ∃ s, s.stats = stats1 ∧
      (magic_mount w fuel mdir extra_parts mount_source tmp_root st).1 =
        (do_magic w fuel [] "/" tmp_dir root false s).1 := by
  unfold magic_mount at hmnt ⊢
  simp only [hroot, htmp, sys, emit] at hmnt ⊢
  cases hk : w.sys_ok st.trace (Op.mkdir_p tmp_dir)
  · exfalso
    simp only [hk] at hmnt
    rw [new_events_append st _ [{ who := [], op := Op.mkdir_p tmp_dir, ok := false }] rfl]
      at hmnt
    simp at hmnt
  · simp only [hk] at hmnt ⊢
    cases hm : w.sys_ok
      (st.trace ++ [{ who := [], op := Op.mkdir_p tmp_dir, ok := true }] ++
        [{ who := [], op := Op.grab_fd, ok := true }])
      (Op.mount_tmpfs mount_source tmp_dir)
    · exfalso
      simp only [hm] at hmnt
      rw [new_events_append st _
        [{ who := [], op := Op.mkdir_p tmp_dir, ok := true },
         { who := [], op := Op.grab_fd, ok := true },
         { who := [], op := Op.mount_tmpfs mount_source tmp_dir, ok := false }]
        (by simp only [List.append_assoc, List.singleton_append]; rfl)] at hmnt
      simp at hmnt
    · simp only [hm]
      refine ⟨
        { stats := stats1, failed := st.failed,
          trace := st.trace ++ [{ who := [], op := Op.mkdir_p tmp_dir, ok := true }] ++
            [{ who := [], op := Op.grab_fd, ok := true }] ++
            [{ who := [], op := Op.mount_tmpfs mount_source tmp_dir, ok := true }] ++
            [{ who := [], op := Op.make_private tmp_dir, ok := true }] }, rfl, ?_⟩
      split
      · rename_i heq
        rw [heq]
      · rename_i heq
        rw [heq]

theorem rc_ok_of_not (rc : Rc) (h1 : rc ≠ Rc.err) (h2 : rc ≠ Rc.fuel) : rc = Rc.ok := by
  cases rc
  · rfl
  · exact absurd rfl h1
  · exact absurd rfl h2


/-! ## Structural skip -/

theorem live_entries_plain_on (rec : Node → MState → Rc × Node × MState)
    (mir : String → MState → Rc × MState) (N : Node → Prop)
    (hdone : ∀ c, N c → N { c with done := true })
    (hrec : ∀ c s, N c → N (rec c s).2.1 ∧ (rec c s).1 ≠ Rc.fuel) :
    ∀ (ents : List String) (node : Node) (st : MState), (∀ c ∈ node.children, N c) →
      (live_entries rec mir false ents node st).1 = Rc.ok ∧
      ∀ c ∈ (live_entries rec mir false ents node st).2.1.children, N c := by
  intro ents
  induction ents with
  | nil => intro node st hN; exact ⟨rfl, hN⟩
  | cons d ds ih =>
    intro node st hN
    rw [live_entries]
    split
    · exact ih node st hN
    · cases hf : node_find_child node d with
      | none =>
        simp only [Bool.false_eq_true, if_false]
        exact ih node st hN
      | some c =>
        simp only []
        have hc : N c := hN c (List.mem_of_find?_eq_some hf)
        have hset : ∀ c1, N c1 → ∀ x ∈ (set_child node d c1).children, N x := by
          intro c1 h1 x hx
          rcases mem_set_child_list node.children x hx with h | h
          · rw [h]; exact h1
          · exact hN x h
        split
        · exact ih _ st (hset _ (hdone c hc))
        · have h := hrec { c with done := true } st (hdone c hc)
          rcases hr : rec { c with done := true } st with ⟨rc, c1, st1⟩
          rw [hr] at h
          cases rc
          · exact ih _ st1 (hset c1 h.1)
          · simp only [Bool.false_eq_true, if_false]
            exact ih _ _ (hset c1 h.1)
          · exact absurd rfl h.2

theorem rest_children_plain_on (rec : Node → MState → Rc × Node × MState)
    (pmn : Option String) (N : Node → Prop)
    (hrec : ∀ c s, N c → N (rec c s).2.1 ∧ (rec c s).1 ≠ Rc.fuel) :
    ∀ (cs : List Node) (st : MState), (∀ c ∈ cs, N c) →
      (rest_children rec false pmn cs st).1 = Rc.ok := by
  intro cs
  induction cs with
  | nil => intro st _; rfl
  | cons c cs ih =>
    intro st hN
    have hN1 : ∀ x ∈ cs, N x := fun x hx => hN x (List.mem_cons_of_mem c hx)
    rw [rest_children]
    split
    · exact ih st hN1
    · have h := hrec c st (hN c (List.mem_cons_self c cs))
      rcases hr : rec c st with ⟨rc, c1, st1⟩
      rw [hr] at h
      cases rc
      · exact ih st1 hN1
      · simp only [Bool.false_eq_true, if_false]
        exact ih _ hN1
      · exact absurd rfl h.2

theorem directory_passes_plain_on (w : World)
    (rec : Node → Bool → MState → Rc × Node × MState)
    (mir : String → MState → Rc × MState) (me : List String)
    (path wpath : String) (N : Node → Prop)
    (hdone : ∀ c, N c → N { c with done := true })
    (hrec : ∀ c s, N c → N (rec c false s).2.1 ∧ (rec c false s).1 ≠ Rc.fuel)
    (node : Node) (st : MState) (hN : ∀ c ∈ node.children, N c) :
    (directory_passes w rec mir me path wpath node false false st).1 = Rc.ok := by
  have hsec : ∀ (nd : Node) (s : MState), (∀ c ∈ nd.children, N c) →
      (second_pass w rec me path wpath nd false false s).1 = Rc.ok := by
    intro nd s h
    unfold second_pass
    have h1 := rest_children_plain_on (fun c s => rec c false s) nd.module_name N hrec
      nd.children s h
    rcases hr : rest_children (fun c s => rec c false s) false nd.module_name nd.children s
      with ⟨rc, cs, st1⟩
    rw [hr] at h1
    simp only [] at h1
    subst h1
    simp [finish_directory]
  unfold directory_passes
  split
  · split
    · simp only [Bool.false_eq_true, if_false]
      exact hsec node st hN
    · rename_i ents _
      have h := live_entries_plain_on (fun c s => rec c false s) mir N hdone hrec ents node st hN
      rcases hr : live_entries (fun c s => rec c false s) mir false ents node st
        with ⟨rc, node1, st1⟩
      rw [hr] at h
      simp only [] at h
      obtain ⟨h1, h2⟩ := h
      subst h1
      exact hsec node1 st1 h2
  · exact hsec node st hN

/-- The directory case for a node without module path, on the live tree, every
child path joining: it returns 0 when the calls of `rec` on the children, in
whatever state their flags are, return. -/
theorem magic_directory_plain_on (w : World)
    (rec : Node → Bool → MState → Rc × Node × MState)
    (mir : String → MState → Rc × MState) (me : List String)
    (path wpath : String) (node : Node) (st : MState) (N : Node → Prop)
    (hmp : node.module_path = none)
    (hjoin : ∀ c ∈ node.children, (w.path_join path c.name).isSome)
    (hflag : ∀ c, N c → N { c with done := true } ∧ N { c with skip := true })
    (hrec : ∀ c s, N c → N (rec c false s).2.1 ∧ (rec c false s).1 ≠ Rc.fuel)
    (hN : ∀ c ∈ node.children, N c) :
    (magic_directory w rec mir me path wpath node false st).1 = Rc.ok := by
  rw [magic_directory_enter]
  obtain ⟨h1, _, h3, h4⟩ := decide_tmp_plain w path node st.stats hmp
  have hok := h4 hjoin
  rcases hd : decide_tmp w path node false st.stats with ⟨rc, ct, cs, s1⟩
  rw [hd] at h1 hok h3
  simp only [] at h1 hok h3
  subst h1 hok
  obtain ⟨hcs, _⟩ := h3 rfl
  subst hcs
  simp only [enter_directory, Bool.or_self, Bool.false_eq_true, if_false]
  refine directory_passes_plain_on w rec mir me path wpath N (fun c h => (hflag c h).1) hrec
    _ _ ?_
  intro x hx
  obtain ⟨x0, hx0, rfl⟩ := List.mem_map.1 hx
  unfold mark_skip
  split
  · exact (hflag x0 (hN x0 hx0)).2
  · exact hN x0 hx0

theorem magic_regular_rc (w : World) (me : List String) (path wbase wpath : String)
    (node : Node) (ht : Bool) (st : MState) :
    (magic_regular w me path wbase wpath node ht st).1 ≠ Rc.fuel := by
  unfold magic_regular
  simp only []
  repeat' split
  all_goals simp

theorem magic_symlink_rc (w : World) (me : List String) (wpath : String)
    (node : Node) (st : MState) :
    (magic_symlink w me wpath node st).1 ≠ Rc.fuel := by
  unfold magic_symlink
  repeat' split
  all_goals simp

/-- A call of `do_magic` with fuel left on a node that is not a directory
hands the node back and does not run out of fuel. -/
theorem do_magic_leaf (w : World) (fuel : Nat) (who : List String) (base wbase : String)
    (node : Node) (ht : Bool) (st : MState) (hleaf : node.type ≠ NFT_DIRECTORY) :
    (do_magic w (fuel + 1) who base wbase node ht st).2.1 = node ∧
    (do_magic w (fuel + 1) who base wbase node ht st).1 ≠ Rc.fuel := by
  rw [do_magic]
  split
  · simp only []
    split
    · exact ⟨rfl, magic_regular_rc _ _ _ _ _ _ _ _⟩
    · exact ⟨rfl, magic_symlink_rc _ _ _ _ _⟩
    · exact ⟨rfl, by simp⟩
    · rename_i h
      exact absurd h hleaf
  · exact ⟨rfl, by simp⟩

/-- C18: a Directory node without module path, processed by `do_magic` with
`parent_uses_tmpfs = false`, its own two paths and the live paths of its
children joining. (a) For every amount of fuel the call does not return
failure: it returns 0 unless the model runs out of fuel. (b) It returns 0
whenever the recursive calls on its children return, whatever they return:
`N` being any set of nodes that holds the children, is kept by the two flags
and by `do_magic`, and on which `do_magic` with the fuel left does not run
out. (c) The root that the collector builds has no module path, so a run of
`magic_mount` in which the scaffold tmpfs was mounted and the paths of the
root and of its children join does not return failure either: it returns 0
unless the model runs out of fuel, whatever was counted in `nodes_fail` and
registered as failed. -/
theorem plain_directory_returns_ok (w : World) :
    (∀ (fuel : Nat) (who : List String) (base wbase path wpath : String) (node : Node)
      (st : MState), node.type = NFT_DIRECTORY → node.module_path = none →
      w.path_join base node.name = some path → w.path_join wbase node.name = some wpath →
      (∀ c ∈ node.children, (w.path_join path c.name).isSome) →
      (do_magic w fuel who base wbase node false st).1 ≠ Rc.err ∧
      ((do_magic w fuel who base wbase node false st).1 ≠ Rc.fuel →
        (do_magic w fuel who base wbase node false st).1 = Rc.ok) ∧
      ∀ (N : Node → Prop),
        (∀ c, N c → N { c with done := true } ∧ N { c with skip := true }) →
        (∀ c s, N c →
          N (do_magic w fuel (who ++ [node.name]) path wpath c false s).2.1 ∧
          (do_magic w fuel (who ++ [node.name]) path wpath c false s).1 ≠ Rc.fuel) →
        (∀ c ∈ node.children, N c) →
        (do_magic w (fuel + 1) who base wbase node false st).1 = Rc.ok) ∧
    (∀ (fuel : Nat) (mdir : String) (extra_parts : List String)
      (mount_source tmp_root tmp_dir path wpath : String) (st : MState) (root : Node)
      (stats1 : MountStats),
      collect_root w fuel mdir extra_parts st.stats = (Collected.tree root, stats1) →
      w.path_join tmp_root "workdir" = some tmp_dir →
      { who := [], op := Op.mount_tmpfs mount_source tmp_dir, ok := true } ∈
        new_events st (magic_mount w fuel mdir extra_parts mount_source tmp_root st).2 →
      w.path_join "/" root.name = some path → w.path_join tmp_dir root.name = some wpath →
      (∀ c ∈ root.children, (w.path_join path c.name).isSome) →
      (magic_mount w fuel mdir extra_parts mount_source tmp_root st).1 ≠ Rc.err ∧
      ((magic_mount w fuel mdir extra_parts mount_source tmp_root st).1 ≠ Rc.fuel →
        (magic_mount w fuel mdir extra_parts mount_source tmp_root st).1 = Rc.ok)) := by
  refine ⟨?_, ?_⟩
  · intro fuel who base wbase path wpath node st htype hmp hpath hwpath hjoin
    have h := do_magic_plain w fuel who base wbase path wpath node st htype hmp hpath hwpath
      hjoin
    refine ⟨h, fun hf => rc_ok_of_not _ h hf, ?_⟩
    intro N hflag hrec hN
    rw [do_magic]
    simp only [hpath, hwpath, htype]
    exact magic_directory_plain_on w _ _ _ path wpath node _ N hmp hjoin hflag hrec hN
  · intro fuel mdir extra_parts mount_source tmp_root tmp_dir path wpath st root stats1
      hroot htmp hmnt hpath hwpath hjoin
    obtain ⟨s, _, hrc⟩ := magic_mount_mounted w fuel mdir extra_parts mount_source tmp_root
      tmp_dir st root stats1 hroot htmp hmnt
    have hp := collected_root_plain w fuel mdir extra_parts st.stats stats1 root hroot
    have h := do_magic_plain w fuel [] "/" tmp_dir path wpath root s hp.1 hp.2.1 hpath hwpath
      hjoin
    rw [← hrc] at h
    exact ⟨h, fun hf => rc_ok_of_not _ h hf⟩

/-- C18 (witness): the `system` node of `hosts_world`, whose only child is a
regular file, returns 0 with two units of fuel; and the run of
`marker_fails_world`, in which the bind of the marker file fails under the
tmpfs of `MyApp`: the scaffold was mounted, the paths of the root join, and
`magic_mount` returns 0 with two failures counted and module `A` registered as
failed. -/
theorem plain_directory_returns_ok_witness :
    (hosts_system.type = NFT_DIRECTORY ∧ hosts_system.module_path = none ∧
      hosts_world.path_join "/" hosts_system.name = some "/system" ∧
      hosts_world.path_join "/tmp/.magic_mount/workdir" hosts_system.name =
        some "/tmp/.magic_mount/workdir/system" ∧
      (∀ c ∈ hosts_system.children, (hosts_world.path_join "/system" c.name).isSome) ∧
      (∀ c ∈ hosts_system.children, c.type ≠ NFT_DIRECTORY) ∧
      (do_magic hosts_world (1 + 1) [""] "/" "/tmp/.magic_mount/workdir" hosts_system false
        init_state).1 = Rc.ok) ∧
    collect_root marker_fails_world 8 "/m" [] init_state.stats =
      (Collected.tree marker_root,
        (collect_root marker_fails_world 8 "/m" [] init_state.stats).2) ∧
    marker_fails_world.path_join "/tmp/.magic_mount" "workdir" =
      some "/tmp/.magic_mount/workdir" ∧
    { who := [], op := Op.mount_tmpfs "KSU" "/tmp/.magic_mount/workdir", ok := true } ∈
      new_events init_state marker_fails_run.2 ∧
    marker_fails_world.path_join "/" marker_root.name = some "/" ∧
    marker_fails_world.path_join "/tmp/.magic_mount/workdir" marker_root.name =
      some "/tmp/.magic_mount/workdir" ∧
    (∀ c ∈ marker_root.children, (marker_fails_world.path_join "/" c.name).isSome) ∧
    marker_fails_run.1 ≠ Rc.err ∧
    marker_fails_run.1 = Rc.ok ∧
    marker_fails_run.2.stats.nodes_fail = 2 ∧ marker_fails_run.2.failed = ["A"] :=
  ⟨⟨rfl, rfl, rfl, rfl, by decide, by decide,
      ((plain_directory_returns_ok hosts_world).1 1 [""] "/" "/tmp/.magic_mount/workdir"
        "/system" "/tmp/.magic_mount/workdir/system" hosts_system init_state rfl rfl rfl rfl
        (by decide)).2.2 (fun c => c.type ≠ NFT_DIRECTORY) (fun _ h => ⟨h, h⟩)
        (fun c s h => by
          have := do_magic_leaf hosts_world 0 ([""] ++ [hosts_system.name]) "/system"
            "/tmp/.magic_mount/workdir/system" c false s h
          exact ⟨by rw [this.1]; exact h, this.2⟩)
        (by decide)⟩,
    rfl, rfl, by decide, rfl, rfl, by decide,
    ((plain_directory_returns_ok marker_fails_world).2 8 "/m" [] "KSU" "/tmp/.magic_mount"
      "/tmp/.magic_mount/workdir" "/" "/tmp/.magic_mount/workdir" init_state marker_root _
      rfl rfl (by decide) rfl rfl (by decide)).1,
    rfl, rfl, rfl⟩

/-! ## The passes of a directory at a failing entry -/

/-- The two passes in sequence: the second pass is made when the first one
returned 0, from the node and the state it left; otherwise its result is the
result of the directory. -/
theorem directory_passes_first (w : World)
    (rec : Node → Bool → MState → Rc × Node × MState)
    (mir : String → MState → Rc × MState) (me : List String)
    (path wpath : String) (node : Node) (create_tmp now_tmp : Bool) (st : MState) :
    directory_passes w rec mir me path wpath node create_tmp now_tmp st =
      match first_pass w rec mir path node now_tmp st with
      | (Rc.ok, node1, st1) => second_pass w rec me path wpath node1 create_tmp now_tmp st1
      | (rc, node1, st1) => (rc, node1, st1) := by
  unfold directory_passes first_pass
  by_cases hc : w.path_exists path = true ∧ ¬ node.replace = true
  · simp only [hc, not_false_eq_true, and_self, if_true]
    cases hrd : w.readdir path with
    | none =>
      simp only []
      cases now_tmp <;> rfl
    | some ents => rfl
  · simp only [hc, if_false]

/-- The first pass over a listing in two parts: the entries of the second part
are visited when those of the first went well, from where they left. -/
theorem live_entries_append (rec : Node → MState → Rc × Node × MState)
    (mir : String → MState → Rc × MState) (now_tmp : Bool) :
    ∀ (pre rest : List String) (node : Node) (st : MState),
      live_entries rec mir now_tmp (pre ++ rest) node st =
        match live_entries rec mir now_tmp pre node st with
        | (Rc.ok, node1, st1) => live_entries rec mir now_tmp rest node1 st1
        | (rc, node1, st1) => (rc, node1, st1) := by
  intro pre
  induction pre with
  | nil => intro rest node st; simp [live_entries]
  | cons d ds ih =>
    intro rest node st
    rw [List.cons_append, live_entries, live_entries]
    split
    · exact ih rest node st
    · cases hf : node_find_child node d with
      | none =>
        simp only []
        split
        · rcases hr : mir d st with ⟨rc, st1⟩
          cases rc
          · exact ih rest node st1
          · rfl
          · rfl
        · exact ih rest node st
      | some c =>
        simp only []
        split
        · exact ih rest _ st
        · rcases hr : rec { c with done := true } st with ⟨rc, c1, st1⟩
          cases rc
          · exact ih rest _ st1
          · simp only []
            split
            · rfl
            · exact ih rest _ _
          · rfl

/-- The second pass over children in two parts: the children of the second part
are visited when those of the first went well, from where they left. -/
theorem rest_children_append (rec : Node → MState → Rc × Node × MState)
    (now_tmp : Bool) (pmn : Option String) :
    ∀ (pre rest : List Node) (st : MState),
      rest_children rec now_tmp pmn (pre ++ rest) st =
        match rest_children rec now_tmp pmn pre st with
        | (Rc.ok, pre1, st1) =>
          (match rest_children rec now_tmp pmn rest st1 with
           | (rc, rest1, st2) => (rc, pre1 ++ rest1, st2))
        | (rc, pre1, st1) => (rc, pre1 ++ rest, st1) := by
  intro pre
  induction pre with
  | nil => intro rest st; simp [rest_children]
  | cons c cs ih =>
    intro rest st
    rw [List.cons_append, rest_children, rest_children]
    split
    · rw [ih rest st]
      rcases hr : rest_children rec now_tmp pmn cs st with ⟨rc, cs1, st1⟩
      cases rc <;> rfl
    · rcases hr : rec c st with ⟨rc, c1, st1⟩
      cases rc
      · simp only []
        rw [ih rest st1]
        rcases hr2 : rest_children rec now_tmp pmn cs st1 with ⟨rc2, cs1, st2⟩
        cases rc2 <;> rfl
      · simp only []
        split
        · rfl
        · rw [ih rest _]
          rcases hr2 : rest_children rec now_tmp pmn cs (fail_child st1 c1.module_name pmn)
            with ⟨rc2, cs1, st2⟩
          cases rc2 <;> rfl
      · rfl

/-- The first pass changes only the children of the node. -/
theorem first_pass_identity (w : World)
    (rec : Node → Bool → MState → Rc × Node × MState)
    (mir : String → MState → Rc × MState) (path : String) (node : Node)
    (now_tmp : Bool) (st : MState) :
    same_identity node (first_pass w rec mir path node now_tmp st).2.1 := by
  unfold first_pass
  split
  · split
    · split <;> exact same_identity_refl _
    · exact live_entries_identity _ _ _ _ _ _
  · exact same_identity_refl _

/-- No event of a call of `do_magic` on a child is tagged with the parent
itself. -/
theorem child_events_below (w : World) (fuel : Nat) (me : List String)
    (path wpath : String) (x : Node) (b : Bool) (s : MState) (Q : Ev → Prop) :
    Emits (fun e => e.who = me → Q e) s (do_magic w fuel me path wpath x b s).2.2 :=
  Emits_mono (fun _ he hw => absurd hw (tagged_below_ne he))
    (do_magic_tagged w fuel me path wpath x b s)

theorem mirror_events_below (w : World) (fuel : Nat) (me : List String)
    (path wpath d : String) (s : MState) (Q : Ev → Prop) :
    Emits (fun e => e.who = me → Q e) s (mirror w fuel me path wpath d s).2 :=
  Emits_mono (fun _ he hw => absurd hw (tagged_below_ne he))
    (mirror_tagged w fuel me path wpath d s)

theorem live_entries_below (w : World) (fuel : Nat) (me : List String)
    (path wpath : String) (now : Bool) (Q : Ev → Prop) (ents : List String) (node : Node)
    (st : MState) :
    Emits (fun e => e.who = me → Q e) st
      (live_entries (fun c s => do_magic w fuel me path wpath c now s)
        (fun n s => mirror w fuel me path wpath n s) now ents node st).2.2 :=
  (live_entries_seg _ (SegClosed_all _) _ _ now (sig node.children) (fun _ _ => True)
    (fun x s => do_magic_name_type w fuel me path wpath x now s)
    (fun x s _ _ => child_events_below w fuel me path wpath x now s Q)
    (fun d s _ _ => mirror_events_below w fuel me path wpath d s Q)
    ents node st rfl (fun _ _ _ => trivial)).1

theorem rest_children_below (w : World) (fuel : Nat) (me : List String)
    (path wpath : String) (now : Bool) (Q : Ev → Prop) (pmn : Option String)
    (cs : List Node) (st : MState) :
    Emits (fun e => e.who = me → Q e) st
      (rest_children (fun c s => do_magic w fuel me path wpath c now s) now pmn cs st).2.2 :=
  rest_children_seg _ (SegClosed_all _) _ now pmn (fun _ _ => True)
    (fun x s _ _ => child_events_below w fuel me path wpath x now s Q)
    cs st (fun _ _ _ => trivial)

theorem first_pass_below (w : World) (fuel : Nat) (me : List String)
    (path wpath : String) (now : Bool) (Q : Ev → Prop) (node : Node) (st : MState) :
    Emits (fun e => e.who = me → Q e) st
      (first_pass w (fun c b s => do_magic w fuel me path wpath c b s)
        (fun n s => mirror w fuel me path wpath n s) path node now st).2.2 := by
  unfold first_pass
  split
  · split
    · split <;> exact Emits_refl _ _
    · exact live_entries_below w fuel me path wpath now Q _ node st
  · exact Emits_refl _ _

/-- The events from the entry into a directory up to the end of
`enter_directory` hold no `MS_MOVE`. -/
theorem entered_not_moved (w : World) (me : List String) (path wpath : String)
    (node : Node) (ht ct : Bool) (s1 : MountStats) (st st3 : MState)
    (he : enter_directory w me path wpath node ct (ht || ct)
      { emit st me (Op.call NFT_DIRECTORY ht) true with stats := s1 } = (Rc.ok, st3)) :
    Emits (fun e => e.who = me → is_move e.op = false) st st3 := by
  have h0 : Emits (fun e => e.who = me → is_move e.op = false) st
      { emit st me (Op.call NFT_DIRECTORY ht) true with stats := s1 } :=
    Emits_same_trace
      (@Emits_emit _ st st me (Op.call NFT_DIRECTORY ht) true (Emits_refl _ _) (fun _ => rfl))
      rfl
  have h1 := enter_directory_events w me path wpath node ct (ht || ct)
    { emit st me (Op.call NFT_DIRECTORY ht) true with stats := s1 }
  rw [he] at h1
  refine Emits_trans h0 (Emits_mono ?_ h1)
  intro e hev _
  rcases hev with ⟨_, ⟨_, h | ⟨m, h⟩⟩ | ⟨_, h⟩⟩ <;> rw [h] <;> rfl

/-- The directory case of `do_magic` once the decision is taken and the
directory entered: what remains is `directory_passes`. -/
theorem do_magic_entered (w : World) (fuel : Nat) (who : List String)
    (base wbase path wpath : String) (node : Node) (ht ct : Bool) (cs : List Node)
    (s1 : MountStats) (st st3 : MState)
    (htype : node.type = NFT_DIRECTORY)
    (hpath : w.path_join base node.name = some path)
    (hwpath : w.path_join wbase node.name = some wpath)
    (hd : decide_tmp w path node ht st.stats = (Rc.ok, ct, cs, s1))
    (he : enter_directory w (who ++ [node.name]) path wpath { node with children := cs } ct
      (ht || ct)
      { emit st (who ++ [node.name]) (Op.call NFT_DIRECTORY ht) true with stats := s1 } =
        (Rc.ok, st3)) :
    do_magic w (fuel + 1) who base wbase node ht st =
      directory_passes w (fun c b s => do_magic w fuel (who ++ [node.name]) path wpath c b s)
        (fun n s => mirror w fuel (who ++ [node.name]) path wpath n s) (who ++ [node.name])
        path wpath { node with children := cs } ct (ht || ct) st3 := by
  rw [do_magic]
  simp only [hpath, hwpath, htype]
  rw [magic_directory_enter]
  have hst : (emit st (who ++ [node.name]) (Op.call NFT_DIRECTORY ht) true).stats = st.stats :=
    rfl
  rw [hst, hd]
  simp only []
  rw [he]
  simp only [htype]

/-- A child's call that fails in the first pass: the failure is accounted and,
with `now_tmp`, the pass ends there. -/
theorem first_pass_child_fails (w : World) (fuel : Nat) (me : List String)
    (path wpath : String) (now : Bool) (node node1 c c1 : Node)
    (pre : List String) (d : String) (post : List String) (st3 st4 s2 : MState)
    (hex : w.path_exists path = true) (hrep : node.replace = false)
    (hrd : w.readdir path = some (pre ++ d :: post))
    (hpre : live_entries (fun c s => do_magic w fuel me path wpath c now s)
      (fun n s => mirror w fuel me path wpath n s) now pre node st3 = (Rc.ok, node1, st4))
    (hd1 : d ≠ ".") (hd2 : d ≠ "..") (hf : node_find_child node1 d = some c)
    (hs : c.skip = false)
    (hr : do_magic w fuel me path wpath { c with done := true } now st4 = (Rc.err, c1, s2)) :
    first_pass w (fun c b s => do_magic w fuel me path wpath c b s)
      (fun n s => mirror w fuel me path wpath n s) path node now st3 =
      (if now then
        (Rc.err, set_child node1 d c1, fail_child s2 c.module_name node.module_name)
      else live_entries (fun c s => do_magic w fuel me path wpath c now s)
        (fun n s => mirror w fuel me path wpath n s) now post (set_child node1 d c1)
        (fail_child s2 c.module_name node.module_name)) := by
  have hid := live_entries_identity (fun c s => do_magic w fuel me path wpath c now s)
    (fun n s => mirror w fuel me path wpath n s) now pre node st3
  rw [hpre] at hid
  have hmn : node1.module_name = node.module_name := hid.2.2.2.1.symm
  have hcid := do_magic_identity w fuel me path wpath { c with done := true } now st4
  rw [hr] at hcid
  have hcmn : c1.module_name = c.module_name := hcid.2.2.2.1.symm
  unfold first_pass
  simp only [hex, hrep, Bool.false_eq_true, not_false_eq_true, and_self, if_true, hrd]
  rw [live_entries_append, hpre]
  simp only []
  rw [live_entries]
  simp only [hd1, hd2, or_self, if_false, hf]
  rw [if_neg (by simp [hs]), hr]
  simp only [hmn, hcmn]

/-- A call of `mirror` that fails in the first pass, which is made only with
`now_tmp`: the failure is accounted and the pass ends there. -/
theorem first_pass_mirror_fails (w : World) (fuel : Nat) (me : List String)
    (path wpath : String) (node node1 : Node)
    (pre : List String) (d : String) (post : List String) (st3 st4 s2 : MState)
    (hex : w.path_exists path = true) (hrep : node.replace = false)
    (hrd : w.readdir path = some (pre ++ d :: post))
    (hpre : live_entries (fun c s => do_magic w fuel me path wpath c true s)
      (fun n s => mirror w fuel me path wpath n s) true pre node st3 = (Rc.ok, node1, st4))
    (hd1 : d ≠ ".") (hd2 : d ≠ "..") (hf : node_find_child node1 d = none)
    (hr : mirror w fuel me path wpath d st4 = (Rc.err, s2)) :
    first_pass w (fun c b s => do_magic w fuel me path wpath c b s)
      (fun n s => mirror w fuel me path wpath n s) path node true st3 =
      (Rc.err, node1, fail_child s2 none node.module_name) := by
  have hid := live_entries_identity (fun c s => do_magic w fuel me path wpath c true s)
    (fun n s => mirror w fuel me path wpath n s) true pre node st3
  rw [hpre] at hid
  have hmn : node1.module_name = node.module_name := hid.2.2.2.1.symm
  unfold first_pass
  simp only [hex, hrep, Bool.false_eq_true, not_false_eq_true, and_self, if_true, hrd]
  rw [live_entries_append, hpre]
  simp only []
  rw [live_entries]
  simp only [hd1, hd2, or_self, if_false, hf, if_true, hr, hmn]

/-- A child's call that fails in the second pass: the failure is accounted
and, with `now_tmp`, the pass ends there. -/
theorem second_pass_child_fails (w : World) (fuel : Nat) (me : List String)
    (path wpath : String) (ct now : Bool) (node1 c c1 : Node)
    (pre post pre1 : List Node) (st4 st5 s2 : MState)
    (hch : node1.children = pre ++ c :: post)
    (hpre : rest_children (fun c s => do_magic w fuel me path wpath c now s) now
      node1.module_name pre st4 = (Rc.ok, pre1, st5))
    (hs : c.skip = false) (hdn : c.done = false)
    (hr : do_magic w fuel me path wpath c now st5 = (Rc.err, c1, s2)) :
    second_pass w (fun c b s => do_magic w fuel me path wpath c b s) me path wpath node1 ct
      now st4 =
      (if now then
        (Rc.err, { node1 with children := pre1 ++ c1 :: post },
          fail_child s2 c.module_name node1.module_name)
      else
        match rest_children (fun c s => do_magic w fuel me path wpath c now s) now
          node1.module_name post (fail_child s2 c.module_name node1.module_name) with
        | (Rc.ok, post1, s6) =>
          finish_directory w me path wpath { node1 with children := pre1 ++ c1 :: post1 } ct s6
        | (rc, post1, s6) => (rc, { node1 with children := pre1 ++ c1 :: post1 }, s6)) := by
  have hcid := do_magic_identity w fuel me path wpath c now st5
  rw [hr] at hcid
  have hcmn : c1.module_name = c.module_name := hcid.2.2.2.1.symm
  unfold second_pass
  rw [hch, rest_children_append, hpre]
  simp only []
  rw [rest_children]
  simp only [hs, hdn, Bool.false_eq_true, or_self, if_false, hr, hcmn]
  cases now
  · simp only [Bool.false_eq_true, if_false]
    rcases rest_children (fun c s => do_magic w fuel me path wpath c false s) false
      node1.module_name post (fail_child s2 c.module_name node1.module_name)
      with ⟨rc, post1, s6⟩
    cases rc <;> rfl
  · simp only [if_true]

/-- C14: failure accounting in the directory case of `do_magic`, for a
directory whose decision was taken (`decide_tmp` gave `ct`) and which was
entered; `ht || ct` is the `now_tmp` under which it is assembled. (a) The
accounting `fail_child` adds one to `nodes_fail`, touches no other counter and
issues nothing; the module name of the failing child if it has one, otherwise
that of the directory, is a member of the failed list afterwards, added at the
end if absent, the list unchanged otherwise. (b) When, in the first pass, the
entries `pre` of the live listing went well and the recursive `do_magic` for
the child found under the next entry `d` fails in state `s2`, then `do_magic`
on the directory is: under tmpfs, failure in the state `s2` with the failure
accounted, whatever entries `post` remain; otherwise the passes resumed on
`post` from the accounted state. (c) The same for a failing `mirror` of a live
entry with no child (made only under tmpfs). (d) The same in the second pass,
for the failing child `c` standing after the children `pre` that went well.
In each case under tmpfs the trace of `do_magic` on the directory ends with
the failing call, and none of the events of the directory itself is an
`MS_MOVE`. -/
theorem failure_accounting (w : World) (fuel : Nat) (who : List String)
    (base wbase path wpath : String) (node : Node) (ht ct : Bool) (cs : List Node)
    (s1 : MountStats) (st st3 : MState)
    (htype : node.type = NFT_DIRECTORY)
    (hpath : w.path_join base node.name = some path)
    (hwpath : w.path_join wbase node.name = some wpath)
    (hd : decide_tmp w path node ht st.stats = (Rc.ok, ct, cs, s1))
    (he : enter_directory w (who ++ [node.name]) path wpath { node with children := cs } ct
      (ht || ct)
      { emit st (who ++ [node.name]) (Op.call NFT_DIRECTORY ht) true with stats := s1 } =
        (Rc.ok, st3)) :
    (∀ (s : MState) (child_mn : Option String),
      (fail_child s child_mn node.module_name).stats =
        { s.stats with nodes_fail := s.stats.nodes_fail + 1 } ∧
      (fail_child s child_mn node.module_name).trace = s.trace ∧
      ∀ m, (child_mn = some m ∨ (child_mn = none ∧ node.module_name = some m)) →
        m ∈ (fail_child s child_mn node.module_name).failed ∧
        (fail_child s child_mn node.module_name).failed =
          (if m ∈ s.failed then s.failed else s.failed ++ [m])) ∧
    (∀ (pre : List String) (d : String) (post : List String) (node1 c c1 : Node)
      (st4 s2 : MState),
      w.path_exists path = true → node.replace = false →
      w.readdir path = some (pre ++ d :: post) →
      live_entries (fun c s => do_magic w fuel (who ++ [node.name]) path wpath c (ht || ct) s)
        (fun n s => mirror w fuel (who ++ [node.name]) path wpath n s) (ht || ct) pre
        { node with children := cs } st3 = (Rc.ok, node1, st4) →
      d ≠ "." → d ≠ ".." → node_find_child node1 d = some c → c.skip = false →
      do_magic w fuel (who ++ [node.name]) path wpath { c with done := true } (ht || ct) st4 =
        (Rc.err, c1, s2) →
      do_magic w (fuel + 1) who base wbase node ht st =
        (if (ht || ct) then
          (Rc.err, set_child node1 d c1, fail_child s2 c.module_name node.module_name)
        else
          match live_entries
            (fun c s => do_magic w fuel (who ++ [node.name]) path wpath c (ht || ct) s)
            (fun n s => mirror w fuel (who ++ [node.name]) path wpath n s) (ht || ct) post
            (set_child node1 d c1) (fail_child s2 c.module_name node.module_name) with
          | (Rc.ok, n2, s5) =>
            second_pass w
              (fun c b s => do_magic w fuel (who ++ [node.name]) path wpath c b s)
              (who ++ [node.name]) path wpath n2 ct (ht || ct) s5
          | (rc, n2, s5) => (rc, n2, s5)) ∧
      ((ht || ct) = true →
        (do_magic w (fuel + 1) who base wbase node ht st).2.2.trace = s2.trace ∧
        ∀ e ∈ new_events st (do_magic w (fuel + 1) who base wbase node ht st).2.2,
          e.who = who ++ [node.name] → is_move e.op = false)) ∧
    (∀ (pre : List String) (d : String) (post : List String) (node1 : Node)
      (st4 s2 : MState),
      (ht || ct) = true → w.path_exists path = true → node.replace = false →
      w.readdir path = some (pre ++ d :: post) →
      live_entries (fun c s => do_magic w fuel (who ++ [node.name]) path wpath c true s)
        (fun n s => mirror w fuel (who ++ [node.name]) path wpath n s) true pre
        { node with children := cs } st3 = (Rc.ok, node1, st4) →
      d ≠ "." → d ≠ ".." → node_find_child node1 d = none →
      mirror w fuel (who ++ [node.name]) path wpath d st4 = (Rc.err, s2) →
      do_magic w (fuel + 1) who base wbase node ht st =
        (Rc.err, node1, fail_child s2 none node.module_name) ∧
      (do_magic w (fuel + 1) who base wbase node ht st).2.2.trace = s2.trace ∧
      ∀ e ∈ new_events st (do_magic w (fuel + 1) who base wbase node ht st).2.2,
        e.who = who ++ [node.name] → is_move e.op = false) ∧
    (∀ (node1 c c1 : Node) (pre post pre1 : List Node) (st4 st5 s2 : MState),
      first_pass w (fun c b s => do_magic w fuel (who ++ [node.name]) path wpath c b s)
        (fun n s => mirror w fuel (who ++ [node.name]) path wpath n s) path
        { node with children := cs } (ht || ct) st3 = (Rc.ok, node1, st4) →
      node1.children = pre ++ c :: post →
      rest_children
        (fun c s => do_magic w fuel (who ++ [node.name]) path wpath c (ht || ct) s) (ht || ct)
        node.module_name pre st4 = (Rc.ok, pre1, st5) →
      c.skip = false → c.done = false →
      do_magic w fuel (who ++ [node.name]) path wpath c (ht || ct) st5 = (Rc.err, c1, s2) →
      do_magic w (fuel + 1) who base wbase node ht st =
        (if (ht || ct) then
          (Rc.err, { node1 with children := pre1 ++ c1 :: post },
            fail_child s2 c.module_name node.module_name)
        else
          match rest_children
            (fun c s => do_magic w fuel (who ++ [node.name]) path wpath c (ht || ct) s)
            (ht || ct) node.module_name post
            (fail_child s2 c.module_name node.module_name) with
          | (Rc.ok, post1, s6) =>
            finish_directory w (who ++ [node.name]) path wpath
              { node1 with children := pre1 ++ c1 :: post1 } ct s6
          | (rc, post1, s6) => (rc, { node1 with children := pre1 ++ c1 :: post1 }, s6)) ∧
      ((ht || ct) = true →
        (do_magic w (fuel + 1) who base wbase node ht st).2.2.trace = s2.trace ∧
        ∀ e ∈ new_events st (do_magic w (fuel + 1) who base wbase node ht st).2.2,
          e.who = who ++ [node.name] → is_move e.op = false)) := by
  have hdm := do_magic_entered w fuel who base wbase path wpath node ht ct cs s1 st st3 htype
    hpath hwpath hd he
  have hent := entered_not_moved w (who ++ [node.name]) path wpath { node with children := cs }
    ht ct s1 st st3 he
  refine ⟨?_, ?_, ?_, ?_⟩
  · intro s child_mn
    refine ⟨rfl, rfl, ?_⟩
    intro m hm
    rcases hm with h | ⟨h1, h2⟩
    · subst h
      exact register_module_failure_spec s.failed m
    · subst h1
      unfold fail_child
      simp only [h2]
      exact register_module_failure_spec s.failed m
  · intro pre d post node1 c c1 st4 s2 hex hrep hrd hpre hd1 hd2 hf hs hr
    have hfp := first_pass_child_fails w fuel (who ++ [node.name]) path wpath (ht || ct)
      { node with children := cs } node1 c c1 pre d post st3 st4 s2 hex hrep hrd hpre hd1 hd2
      hf hs hr
    have heq : do_magic w (fuel + 1) who base wbase node ht st =
        (if (ht || ct) then
          (Rc.err, set_child node1 d c1, fail_child s2 c.module_name node.module_name)
        else
          match live_entries
            (fun c s => do_magic w fuel (who ++ [node.name]) path wpath c (ht || ct) s)
            (fun n s => mirror w fuel (who ++ [node.name]) path wpath n s) (ht || ct) post
            (set_child node1 d c1) (fail_child s2 c.module_name node.module_name) with
          | (Rc.ok, n2, s5) =>
            second_pass w
              (fun c b s => do_magic w fuel (who ++ [node.name]) path wpath c b s)
              (who ++ [node.name]) path wpath n2 ct (ht || ct) s5
          | (rc, n2, s5) => (rc, n2, s5)) := by
      rw [hdm, directory_passes_first, hfp]
      cases (ht || ct) <;> rfl
    refine ⟨heq, ?_⟩
    intro hnow
    rw [heq]
    simp only [hnow, if_true]
    refine ⟨rfl, ?_⟩
    have h1 := live_entries_below w fuel (who ++ [node.name]) path wpath (ht || ct)
      (fun e => is_move e.op = false) pre { node with children := cs } st3
    rw [hpre] at h1
    have h2 := child_events_below w fuel (who ++ [node.name]) path wpath { c with done := true }
      (ht || ct) st4 (fun e => is_move e.op = false)
    rw [hr] at h2
    exact new_events_of_emits
      (Emits_fail_child _ _ (Emits_trans hent (Emits_trans h1 h2)))
  · intro pre d post node1 st4 s2 hnow hex hrep hrd hpre hd1 hd2 hf hr
    have hfp := first_pass_mirror_fails w fuel (who ++ [node.name]) path wpath
      { node with children := cs } node1 pre d post st3 st4 s2 hex hrep hrd hpre hd1 hd2 hf hr
    have heq : do_magic w (fuel + 1) who base wbase node ht st =
        (Rc.err, node1, fail_child s2 none node.module_name) := by
      rw [hdm, directory_passes_first, hnow, hfp]
    refine ⟨heq, ?_⟩
    rw [heq]
    refine ⟨rfl, ?_⟩
    have h1 := live_entries_below w fuel (who ++ [node.name]) path wpath true
      (fun e => is_move e.op = false) pre { node with children := cs } st3
    rw [hpre] at h1
    have h2 := mirror_events_below w fuel (who ++ [node.name]) path wpath d st4
      (fun e => is_move e.op = false)
    rw [hr] at h2
    exact new_events_of_emits
      (Emits_fail_child _ _ (Emits_trans hent (Emits_trans h1 h2)))
  · intro node1 c c1 pre post pre1 st4 st5 s2 hfp hch hpre hs hdn hr
    have hid := first_pass_identity w
      (fun c b s => do_magic w fuel (who ++ [node.name]) path wpath c b s)
      (fun n s => mirror w fuel (who ++ [node.name]) path wpath n s) path
      { node with children := cs } (ht || ct) st3
    rw [hfp] at hid
    have hmn : node1.module_name = node.module_name := hid.2.2.2.1.symm
    rw [← hmn] at hpre
    have hsp := second_pass_child_fails w fuel (who ++ [node.name]) path wpath ct (ht || ct)
      node1 c c1 pre post pre1 st4 st5 s2 hch hpre hs hdn hr
    rw [← hmn]
    have heq : do_magic w (fuel + 1) who base wbase node ht st =
        second_pass w (fun c b s => do_magic w fuel (who ++ [node.name]) path wpath c b s)
          (who ++ [node.name]) path wpath node1 ct (ht || ct) st4 := by
      rw [hdm, directory_passes_first, hfp]
    rw [hsp] at heq
    refine ⟨heq, ?_⟩
    intro hnow
    rw [heq]
    simp only [hnow, if_true]
    refine ⟨rfl, ?_⟩
    have h1 := first_pass_below w fuel (who ++ [node.name]) path wpath (ht || ct)
      (fun e => is_move e.op = false) { node with children := cs } st3
    rw [hfp] at h1
    have h2 := rest_children_below w fuel (who ++ [node.name]) path wpath (ht || ct)
      (fun e => is_move e.op = false) node1.module_name pre st4
    rw [hpre] at h2
    have h3 := child_events_below w fuel (who ++ [node.name]) path wpath c (ht || ct) st5
      (fun e => is_move e.op = false)
    rw [hr] at h3
    exact new_events_of_emits
      (Emits_fail_child _ _ (Emits_trans hent (Emits_trans h1 (Emits_trans h2 h3))))

/-- The node `myapp_node` is the one the collector builds. -/
theorem myapp_collected :
    lookup marker_root ["system", "app", "MyApp"] = some myapp_node := by
  rfl

/-- The node `etc_tmp_node` is the one the collector builds. -/
theorem etc_tmp_collected :
    lookup (tree_of (collect_root etc_world 8 "/m" [] zero_stats)) ["system", "etc"] =
      some etc_tmp_node := by
  rfl

/-- C14 (witness): three directories assembled as tmpfs. In
`marker_fails_world` the directory `MyApp` is replaced; the second pass calls
`do_magic` on the marker file first, whose bind fails: `do_magic` on `MyApp`
returns failure in that very state with one failure counted and module `A`
registered, it issues no `MS_MOVE`, and `x.apk` is never processed. In
`hosts_fails_world` the first pass over the live `etc` calls `do_magic` on the
child `hosts`, whose bind fails: `do_magic` on `etc` returns failure with one
failure counted and module `A` registered, no `MS_MOVE`, and neither `resolv`
nor `link` is processed. In `resolv_fails_world` the child `hosts` goes well
and the `mirror` of `resolv` fails: the same, `link` being left unprocessed. -/
theorem failure_accounting_witness :
    (decide_tmp marker_fails_world "/system/app/MyApp" myapp_node false init_state.stats =
      (Rc.ok, true, [marker_node, apk_node], init_state.stats) ∧
    do_magic marker_fails_world 1 ["", "system", "app", "MyApp"] "/system/app/MyApp"
      "/tmp/.magic_mount/workdir/system/app/MyApp" marker_node true myapp_entered =
        (Rc.err, marker_node, marker_failed) ∧
    myapp_call = (Rc.err, myapp_node, fail_child marker_failed (some "A") (some "A")) ∧
    myapp_call.2.2.stats.nodes_fail = 1 ∧ myapp_call.2.2.failed = ["A"] ∧
    myapp_call.2.2.trace = marker_failed.trace ∧
    (∀ e ∈ new_events init_state myapp_call.2.2,
      e.who = ["", "system", "app", "MyApp"] → is_move e.op = false) ∧
    (∀ e ∈ myapp_call.2.2.trace, ¬ ["", "system", "app", "MyApp", "x.apk"] <+: e.who)) ∧
    ((etc_call hosts_fails_world).1 = Rc.err ∧
    (etc_call hosts_fails_world).2.2.stats.nodes_fail = 1 ∧
    (etc_call hosts_fails_world).2.2.failed = ["A"] ∧
    (∀ e ∈ new_events init_state (etc_call hosts_fails_world).2.2,
      e.who = ["", "system", "etc"] → is_move e.op = false) ∧
    (∀ e ∈ (etc_call hosts_fails_world).2.2.trace,
      ¬ ["", "system", "etc", "resolv"] <+: e.who ∧
      ¬ ["", "system", "etc", "link"] <+: e.who)) ∧
    ((etc_call resolv_fails_world).1 = Rc.err ∧
    (etc_call resolv_fails_world).2.2.stats.nodes_fail = 1 ∧
    (etc_call resolv_fails_world).2.2.failed = ["A"] ∧
    (∀ e ∈ new_events init_state (etc_call resolv_fails_world).2.2,
      e.who = ["", "system", "etc"] → is_move e.op = false) ∧
    (∀ e ∈ (etc_call resolv_fails_world).2.2.trace,
      ¬ ["", "system", "etc", "link"] <+: e.who)) := by
  have h1 := (failure_accounting marker_fails_world 1 ["", "system", "app"] "/system/app"
    "/tmp/.magic_mount/workdir/system/app" "/system/app/MyApp"
    "/tmp/.magic_mount/workdir/system/app/MyApp" myapp_node false true
    [marker_node, apk_node] init_state.stats init_state myapp_entered rfl rfl rfl rfl
    rfl).2.2.2 myapp_node marker_node marker_node [] [apk_node] [] myapp_entered
    myapp_entered marker_failed rfl rfl rfl rfl rfl rfl
  have h2 := (failure_accounting hosts_fails_world 1 ["", "system"] "/system"
    "/tmp/.magic_mount/workdir/system" "/system/etc" "/tmp/.magic_mount/workdir/system/etc"
    etc_tmp_node false true etc_tmp_node.children init_state.stats init_state etc_entered rfl
    rfl rfl rfl rfl).2.1 [".", ".."] "hosts" ["resolv"] etc_tmp_node
    (module_leaf "hosts" NFT_REGULAR "/m/A/system/etc/hosts" "A") _ etc_entered _ rfl rfl rfl
    rfl (by decide) (by decide) rfl rfl rfl
  have h3 := (failure_accounting resolv_fails_world 1 ["", "system"] "/system"
    "/tmp/.magic_mount/workdir/system" "/system/etc" "/tmp/.magic_mount/workdir/system/etc"
    etc_tmp_node false true etc_tmp_node.children init_state.stats init_state etc_entered rfl
    rfl rfl rfl rfl).2.2.1 [".", "..", "hosts"] "resolv" [] _ _ _ rfl rfl rfl rfl rfl
    (by decide) (by decide) rfl rfl
  refine ⟨⟨rfl, rfl, h1.1, rfl, rfl, (h1.2 rfl).1, (h1.2 rfl).2, by decide⟩,
    ⟨congrArg Prod.fst h2.1, rfl, rfl, (h2.2 rfl).2, by decide⟩,
    ⟨congrArg Prod.fst h3.1, rfl, rfl, h3.2.2, by decide⟩⟩

end MagicMount
